import Mathlib

/-!
Verification of the row format v2 writer (RowWriterV2.cpp) of the
Nebula List-and-Set codec repository.

The C++ writer mutates a byte buffer in place.  We embed the buffer as a
list of natural numbers (each byte a value below 256), the writer object
as a structure mirroring the fields of the C++ class, and each member
function of the class as a Lean function returning the result code
together with the new writer state.  Little-endian multi-byte stores are
made explicit with modular arithmetic.
-/

namespace RowV2

/-! ## Byte buffer primitives -/

/-- A byte is modelled as a natural number; stores reduce values mod 256. -/
abbrev Byte := Nat

/-- The bytes of a record buffer. -/
abbrev Buf := List Byte

/-- Store one byte at a position, like the C++ assignment to a
character of the buffer.  Out-of-range positions leave the buffer
unchanged (the C++ callers never index out of range). -/
def setByte (buf : Buf) (p : Nat) (b : Byte) : Buf :=
  buf.set p b

/-- Store a sequence of bytes starting at a position, like memcpy into
the buffer. -/
def setBytes (buf : Buf) (p : Nat) : List Byte → Buf
  | [] => buf
  | b :: bs => setBytes (setByte buf p b) (p + 1) bs

/-- The little-endian bytes of a value, using a given byte count. -/
def leN : Nat → Nat → List Byte
  | 0, _ => []
  | k + 1, v => v % 256 :: leN k (v / 256)

/-- Read a little-endian value of a given byte count from the buffer. -/
def readLE : Nat → Buf → Nat → Nat
  | 0, _, _ => 0
  | k + 1, buf, p => buf.getD p 0 + 256 * readLE k buf (p + 1)

/-- Little-endian bytes of an int32 slot value. -/
def le32 (v : Nat) : List Byte := leN 4 v

/-- Read an int32 slot value (as an unsigned 32-bit number). -/
def readU32 (buf : Buf) (p : Nat) : Nat := readLE 4 buf p

/-- Reinterpret an unsigned 32-bit value as a signed int32. -/
def toS32 (v : Nat) : Int :=
  if v < 2 ^ 31 then (v : Int) else (v : Int) - 2 ^ 32

/-- Two's-complement byte image of a signed value, for a given width. -/
def leI (k : Nat) (v : Int) : List Byte :=
  leN k (v % (2 ^ (8 * k))).toNat

/-- The contiguous segment of the buffer starting at a position with a
given length, read byte by byte. -/
def seg (buf : Buf) (p len : Nat) : List Byte :=
  (List.range len).map fun j => buf.getD (p + j) 0

/-! ## Null-bitmap primitives (setNullBit / clearNullBit / checkNullBit) -/

/-- The single-bit masks of the C++ orBits table: 0x80 shifted right by
the bit position within the byte. -/
def orMask (p : Nat) : Nat := 2 ^ (7 - p % 8)

/-- The masks of the C++ andBits table (0x7F, 0xBF, ...). -/
def andMask (p : Nat) : Nat := 255 - 2 ^ (7 - p % 8)

/-- RowWriterV2::setNullBit on the raw buffer. -/
def setNullBitBuf (buf : Buf) (headerLen pos : Nat) : Buf :=
  let off := headerLen + pos / 8
  setByte buf off ((buf.getD off 0) ||| orMask pos)

/-- RowWriterV2::clearNullBit on the raw buffer. -/
def clearNullBitBuf (buf : Buf) (headerLen pos : Nat) : Buf :=
  let off := headerLen + pos / 8
  setByte buf off ((buf.getD off 0) &&& andMask pos)

/-- RowWriterV2::checkNullBit on the raw buffer. -/
def checkNullBitBuf (buf : Buf) (headerLen pos : Nat) : Bool :=
  (buf.getD (headerLen + pos / 8) 0) &&& orMask pos != 0

/-! ## IEEE-754 byte images

The C++ writer memcpy-s the object representation of float and double
values into the buffer.  We model a floating-point value by the rational
number it denotes and compute its IEEE-754 bit pattern explicitly
(round to nearest, ties to even), so that the byte-level embedding of
FLOAT and DOUBLE slots and of float list elements is faithful. -/

/-- Powers of two as rationals, allowing negative exponents. -/
def pow2 (e : Int) : ℚ :=
  if 0 ≤ e then ((2 ^ e.toNat : Nat) : ℚ) else 1 / ((2 ^ (-e).toNat : Nat) : ℚ)

/-- Floor of the base-2 logarithm of a positive rational, computed from
the integer logs of numerator and denominator and corrected by one step. -/
def ratFloorLog2 (q : ℚ) : Int :=
  let e0 : Int := (q.num.natAbs.log2 : Int) - (q.den.log2 : Int)
  if pow2 (e0 + 1) ≤ |q| then e0 + 1
  else if pow2 e0 ≤ |q| then e0
  else e0 - 1

/-- Round to nearest integer, ties to even. -/
def rne (x : ℚ) : Int :=
  let f := ⌊x⌋
  let r := x - (f : ℚ)
  if r < 1 / 2 then f
  else if 1 / 2 < r then f + 1
  else if f % 2 = 0 then f else f + 1

/-- The IEEE-754 bit pattern of the floating-point value nearest to a
rational, for a format with the given exponent and mantissa widths. -/
def fpEncode (expBits mantBits : Nat) (q : ℚ) : Nat :=
  let bias : Int := 2 ^ (expBits - 1) - 1
  let signBit : Nat := if q < 0 then 1 else 0
  let signTop : Nat := signBit <<< (expBits + mantBits)
  let infPat : Nat := signTop + ((2 ^ expBits - 1) <<< mantBits)
  if q = 0 then 0
  else
    let a : ℚ := |q|
    let e : Int := ratFloorLog2 a
    if e < 1 - bias then
      let m : Int := rne (a * pow2 ((mantBits : Int) - (1 - bias)))
      if m ≥ 2 ^ mantBits then signTop + (1 <<< mantBits)
      else signTop + m.toNat
    else if e > bias then infPat
    else
      let m : Int := rne (a * pow2 ((mantBits : Int) - e))
      if m = 2 ^ (mantBits + 1) then
        if e + 1 > bias then infPat
        else signTop + ((e + 1 + bias).toNat <<< mantBits)
      else signTop + ((e + bias).toNat <<< mantBits) + (m.toNat - 2 ^ mantBits)

/-- The 4 little-endian object-representation bytes of a binary32 value. -/
def floatLE (q : ℚ) : List Byte := leN 4 (fpEncode 8 23 q)

/-- The 8 little-endian object-representation bytes of a binary64 value. -/
def doubleLE (q : ℚ) : List Byte := leN 8 (fpEncode 11 52 q)

/-! ## Data model

The runtime tagged value variant (nebula::Value), restricted to the
kinds the writer accepts, and the schema metadata the writer reads from
the borrowed meta::NebulaSchemaProvider. -/

/-- The tags of the value variant (Value::Type). -/
inductive VType where
  | NULLVALUE | BOOL | INT | FLOAT | STRING
  | DATE | TIME | DATETIME | DURATION | GEOGRAPHY | LIST | SETV
deriving DecidableEq, Repr

/-- The runtime value variant.  Integers carry the int64 payload, FLOAT
the rational denoted by the double payload, STRING its bytes, GEOGRAPHY
its shape tag together with the WKB bytes produced by the external
geometry helper.  LIST and SET carry the element sequence of the
container (for SET, the sequence the writer iterates over). -/
inductive Value where
  | nullV (bad : Bool)
  | boolV (b : Bool)
  | intV (v : Int)
  | floatV (v : ℚ)
  | strV (s : List Byte)
  | dateV (year month day : Int)
  | timeV (hour minute sec microsec : Int)
  | dtV (year month day hour minute sec microsec : Int)
  | durV (seconds : Int) (microseconds : Int) (months : Int)
  | geoV (shape : Nat) (wkb : List Byte)
  | listV (vals : List Value)
  | setV (vals : List Value)

mutual

/-- Value::operator== on the modelled constructors, used by the
unordered_set of already-serialized elements in writeSet. -/
def Value.beq : Value → Value → Bool
  | .nullV a, .nullV b => a == b
  | .boolV a, .boolV b => a == b
  | .intV a, .intV b => a == b
  | .floatV a, .floatV b => a == b
  | .strV a, .strV b => a == b
  | .dateV a b c, .dateV x y z => a == x && b == y && c == z
  | .timeV a b c d, .timeV x y z w => a == x && b == y && c == z && d == w
  | .dtV a b c d e f g, .dtV x y z u v s t =>
      a == x && b == y && c == z && d == u && e == v && f == s && g == t
  | .durV a b c, .durV x y z => a == x && b == y && c == z
  | .geoV a s, .geoV b t => a == b && s == t
  | .listV as, .listV bs => Value.beqList as bs
  | .setV as, .setV bs => Value.beqList as bs
  | _, _ => false

/-- Element-wise equality of value sequences. -/
def Value.beqList : List Value → List Value → Bool
  | [], [] => true
  | a :: as, b :: bs => Value.beq a b && Value.beqList as bs
  | _, _ => false

end

/-- Value::type(). -/
def Value.typeOf : Value → VType
  | .nullV _ => .NULLVALUE
  | .boolV _ => .BOOL
  | .intV _ => .INT
  | .floatV _ => .FLOAT
  | .strV _ => .STRING
  | .dateV _ _ _ => .DATE
  | .timeV _ _ _ _ => .TIME
  | .dtV _ _ _ _ _ _ _ => .DATETIME
  | .durV _ _ _ => .DURATION
  | .geoV _ _ => .GEOGRAPHY
  | .listV _ => .LIST
  | .setV _ => .SETV

/-- Whether a literal is a NULLVALUE. -/
def Value.isNullLit : Value → Bool
  | .nullV _ => true
  | _ => false

/-- Value::getStr() (callers only use it on STRING values). -/
def Value.getStr : Value → List Byte
  | .strV s => s
  | _ => []

/-- Value::getInt() (callers only use it on INT values). -/
def Value.getInt : Value → Int
  | .intV v => v
  | _ => 0

/-- Value::getFloat() (callers only use it on FLOAT values). -/
def Value.getFloat : Value → ℚ
  | .floatV v => v
  | _ => 0

/-- The on-disk property types (nebula::cpp2::PropertyType). -/
inductive PropType where
  | BOOL | INT8 | INT16 | INT32 | INT64 | TIMESTAMP | FLOAT | DOUBLE
  | STRING | FIXED_STRING | GEOGRAPHY | DATE | TIME | DATETIME | DURATION
  | LIST_STRING | LIST_INT | LIST_FLOAT | SET_STRING | SET_INT | SET_FLOAT
deriving DecidableEq, Repr

/-- One field of the borrowed schema.  The default value is the literal
the external expression evaluator returns for the field's default
expression; geoShape 0 stands for GeoShape::ANY. -/
structure Field where
  type : PropType
  offset : Nat
  size : Nat
  nullable : Bool
  nullFlagPos : Nat
  hasDefault : Bool
  defaultVal : Value
  geoShape : Nat

instance : Inhabited Field :=
  ⟨⟨.BOOL, 0, 1, false, 0, false, .nullV false, 0⟩⟩

/-- The borrowed schema (meta::NebulaSchemaProvider): a version, the
ordered fields, and the total fixed-region size (schema->size()). -/
structure Schema where
  version : Nat
  fields : List Field
  fixedSize : Nat

/-- schema->getNumFields(). -/
def Schema.numFields (sc : Schema) : Nat := sc.fields.length

/-- schema->getNumNullableFields(). -/
def Schema.numNullableFields (sc : Schema) : Nat :=
  (sc.fields.filter (·.nullable)).length

/-- The number of null-bitmap bytes computed by the constructors. -/
def Schema.numNullBytes (sc : Schema) : Nat :=
  if 0 < sc.numNullableFields then (sc.numNullableFields - 1) / 8 + 1 else 0

/-- schema->field(i). -/
def Schema.fieldAt (sc : Schema) (i : Nat) : Field :=
  sc.fields.getD i default

/-- The WriteResult codes. -/
inductive WriteResult where
  | SUCCEEDED | UNKNOWN_FIELD | TYPE_MISMATCH | OUT_OF_RANGE
  | NOT_NULLABLE | FIELD_UNSET
deriving DecidableEq, Repr

/-- The mutable state of a RowWriterV2 (the borrowed schema is passed
separately to every operation). -/
structure Writer where
  buf : Buf
  headerLen : Nat
  numNullBytes : Nat
  isSet : List Bool
  strList : List (List Byte)
  approxStrLen : Int
  outOfSpaceStr : Bool
  finished : Bool
deriving DecidableEq

/-! ## The typed writers (RowWriterV2::write overloads) -/

/-- The common epilogue of every successful typed write: clear the null
bit when the field is nullable and mark the field as set. -/
def markSet (w : Writer) (f : Field) (i : Nat) : Writer :=
  let w1 :=
    if f.nullable then
      { w with buf := clearNullBitBuf w.buf w.headerLen f.nullFlagPos }
    else w
  { w1 with isSet := w1.isSet.set i true }

/-- The start of the fixed slot of a field. -/
def slotPos (w : Writer) (f : Field) : Nat :=
  w.headerLen + w.numNullBytes + f.offset

/-- RowWriterV2::write(ssize_t, bool).  On INT16/INT32/INT64 the source
zeroes every upper slot byte explicitly (falling through from the wider
cases) and puts 0/1 in the low byte; the stores hit pairwise distinct
positions, so they are modelled as one setBytes of the whole slot
image. -/
def writeBool (sc : Schema) (w : Writer) (i : Nat) (v : Bool) :
    WriteResult × Writer :=
  let f := sc.fieldAt i
  let off := slotPos w f
  let bit : Byte := if v then 1 else 0
  match f.type with
  | .BOOL => (.SUCCEEDED, markSet { w with buf := setBytes w.buf off [bit] } f i)
  | .INT8 => (.SUCCEEDED, markSet { w with buf := setBytes w.buf off [bit] } f i)
  | .INT64 =>
      (.SUCCEEDED, markSet
        { w with buf := setBytes w.buf off (bit :: List.replicate 7 0) } f i)
  | .INT32 =>
      (.SUCCEEDED, markSet
        { w with buf := setBytes w.buf off (bit :: List.replicate 3 0) } f i)
  | .INT16 =>
      (.SUCCEEDED, markSet
        { w with buf := setBytes w.buf off (bit :: List.replicate 1 0) } f i)
  | _ => (.TYPE_MISMATCH, w)

/-- round(3) of the C library: round half away from zero. -/
def roundHalfAway (q : ℚ) : Int :=
  if 0 ≤ q then ⌊q + 1 / 2⌋ else ⌈q - 1 / 2⌉

/-- numeric_limits of float ::max(), as an exact rational. -/
def f32max : ℚ := ((2 ^ 24 - 1 : Nat) : ℚ) * ((2 ^ 104 : Nat) : ℚ)

/-- RowWriterV2::write(ssize_t, int64_t); the external
time::TimeUtils::toTimestamp validator is a parameter. -/
def writeInt64 (toTs : Int → Option Int) (sc : Schema) (w : Writer) (i : Nat)
    (v : Int) : WriteResult × Writer :=
  let f := sc.fieldAt i
  let off := slotPos w f
  match f.type with
  | .BOOL =>
      (.SUCCEEDED, markSet
        { w with buf := setBytes w.buf off [if v = 0 then 0 else 1] } f i)
  | .INT8 =>
      if v > 127 ∨ v < -128 then (.OUT_OF_RANGE, w)
      else (.SUCCEEDED, markSet { w with buf := setBytes w.buf off (leI 1 v) } f i)
  | .INT16 =>
      if v > 32767 ∨ v < -32768 then (.OUT_OF_RANGE, w)
      else (.SUCCEEDED, markSet { w with buf := setBytes w.buf off (leI 2 v) } f i)
  | .INT32 =>
      if v > 2147483647 ∨ v < -2147483648 then (.OUT_OF_RANGE, w)
      else (.SUCCEEDED, markSet { w with buf := setBytes w.buf off (leI 4 v) } f i)
  | .TIMESTAMP =>
      match toTs v with
      | none => (.OUT_OF_RANGE, w)
      | some ts =>
          (.SUCCEEDED, markSet { w with buf := setBytes w.buf off (leI 8 ts) } f i)
  | .INT64 =>
      (.SUCCEEDED, markSet { w with buf := setBytes w.buf off (leI 8 v) } f i)
  | .FLOAT =>
      (.SUCCEEDED, markSet { w with buf := setBytes w.buf off (floatLE v) } f i)
  | .DOUBLE =>
      (.SUCCEEDED, markSet { w with buf := setBytes w.buf off (doubleLE v) } f i)
  | _ => (.TYPE_MISMATCH, w)

/-- RowWriterV2::write(ssize_t, double).  The range comparisons against
the integer limits follow the source: the raw value is compared before
rounding; for INT64 the limits themselves are first converted to double
(giving exactly 2^63 and -2^63), and for FLOAT the float limits are
used. -/
def writeDouble (sc : Schema) (w : Writer) (i : Nat) (v : ℚ) :
    WriteResult × Writer :=
  let f := sc.fieldAt i
  let off := slotPos w f
  match f.type with
  | .INT8 =>
      if v > 127 ∨ v < -128 then (.OUT_OF_RANGE, w)
      else (.SUCCEEDED, markSet
        { w with buf := setBytes w.buf off (leI 1 (roundHalfAway v)) } f i)
  | .INT16 =>
      if v > 32767 ∨ v < -32768 then (.OUT_OF_RANGE, w)
      else (.SUCCEEDED, markSet
        { w with buf := setBytes w.buf off (leI 2 (roundHalfAway v)) } f i)
  | .INT32 =>
      if v > 2147483647 ∨ v < -2147483648 then (.OUT_OF_RANGE, w)
      else (.SUCCEEDED, markSet
        { w with buf := setBytes w.buf off (leI 4 (roundHalfAway v)) } f i)
  | .INT64 =>
      if v > ((2 ^ 63 : Nat) : ℚ) ∨ v < -((2 ^ 63 : Nat) : ℚ) then (.OUT_OF_RANGE, w)
      else (.SUCCEEDED, markSet
        { w with buf := setBytes w.buf off (leI 8 (roundHalfAway v)) } f i)
  | .FLOAT =>
      if v > f32max ∨ v < -f32max then (.OUT_OF_RANGE, w)
      else (.SUCCEEDED, markSet { w with buf := setBytes w.buf off (floatLE v) } f i)
  | .DOUBLE =>
      (.SUCCEEDED, markSet { w with buf := setBytes w.buf off (doubleLE v) } f i)
  | _ => (.TYPE_MISMATCH, w)

/-- RowWriterV2::write(ssize_t, float).  The integer limits are
converted to float before the comparison, so the INT32 and INT64 bounds
become exactly 2^31 and 2^63. -/
def writeFloatF (sc : Schema) (w : Writer) (i : Nat) (v : ℚ) :
    WriteResult × Writer :=
  let f := sc.fieldAt i
  let off := slotPos w f
  match f.type with
  | .INT8 =>
      if v > 127 ∨ v < -128 then (.OUT_OF_RANGE, w)
      else (.SUCCEEDED, markSet
        { w with buf := setBytes w.buf off (leI 1 (roundHalfAway v)) } f i)
  | .INT16 =>
      if v > 32767 ∨ v < -32768 then (.OUT_OF_RANGE, w)
      else (.SUCCEEDED, markSet
        { w with buf := setBytes w.buf off (leI 2 (roundHalfAway v)) } f i)
  | .INT32 =>
      if v > ((2 ^ 31 : Nat) : ℚ) ∨ v < -((2 ^ 31 : Nat) : ℚ) then (.OUT_OF_RANGE, w)
      else (.SUCCEEDED, markSet
        { w with buf := setBytes w.buf off (leI 4 (roundHalfAway v)) } f i)
  | .INT64 =>
      if v > ((2 ^ 63 : Nat) : ℚ) ∨ v < -((2 ^ 63 : Nat) : ℚ) then (.OUT_OF_RANGE, w)
      else (.SUCCEEDED, markSet
        { w with buf := setBytes w.buf off (leI 8 (roundHalfAway v)) } f i)
  | .FLOAT =>
      (.SUCCEEDED, markSet { w with buf := setBytes w.buf off (floatLE v) } f i)
  | .DOUBLE =>
      (.SUCCEEDED, markSet { w with buf := setBytes w.buf off (doubleLE v) } f i)
  | _ => (.TYPE_MISMATCH, w)

/-- Modelled from the spec: utf8CutSize lives in codec/Common.h, which
is not under src.  Per the spec it backs off from the fixed length
until the cut no longer splits a UTF-8 code point, i.e. until the byte
at the cut is not a continuation byte. -/
def utf8CutSize (v : List Byte) : Nat → Nat
  | 0 => 0
  | l + 1 =>
      if (v.getD (l + 1) 0) &&& 0xC0 = 0x80 then utf8CutSize v l else l + 1

/-- The bytes strncpy places for a source and count: the source up to
its first NUL, truncated to the count, then NUL padding. -/
def strncpyBytes (v : List Byte) (len : Nat) : List Byte :=
  let c := (v.takeWhile fun b => b != 0).take len
  c ++ List.replicate (len - c.length) 0

/-- The shared STRING/GEOGRAPHY body of
RowWriterV2::write(ssize_t, folly::StringPiece, bool): append in place,
or latch out-of-space mode on overwrite and push onto strList. -/
def strCore (w : Writer) (f : Field) (i : Nat) (v : List Byte) :
    WriteResult × Writer :=
  let off := slotPos w f
  let w := if w.isSet.getD i false then { w with outOfSpaceStr := true } else w
  if w.outOfSpaceStr then
    let strList := w.strList ++ [v]
    let strOffset : Nat := 0
    let strLen := strList.length - 1
    let buf := setBytes w.buf off (le32 strOffset ++ le32 strLen)
    (.SUCCEEDED, markSet
      { w with strList := strList, buf := buf,
               approxStrLen := w.approxStrLen + v.length } f i)
  else
    let strOffset := w.buf.length
    let strLen := v.length
    let buf0 := w.buf ++ v
    let buf := setBytes buf0 off (le32 strOffset ++ le32 strLen)
    (.SUCCEEDED, markSet
      { w with buf := buf, approxStrLen := w.approxStrLen + v.length } f i)

/-- RowWriterV2::write(ssize_t, folly::StringPiece, bool). -/
def writeStr (sc : Schema) (w : Writer) (i : Nat) (v : List Byte)
    (isWKB : Bool) : WriteResult × Writer :=
  let f := sc.fieldAt i
  let off := slotPos w f
  match f.type with
  | .GEOGRAPHY => if !isWKB then (.TYPE_MISMATCH, w) else strCore w f i v
  | .STRING => strCore w f i v
  | .FIXED_STRING =>
      let len := if v.length > f.size then utf8CutSize v f.size else v.length
      let buf1 := setBytes w.buf off
        (strncpyBytes v len ++ List.replicate (f.size - len) 0)
      (.SUCCEEDED, markSet { w with buf := buf1 } f i)
  | _ => (.TYPE_MISMATCH, w)

/-- The byte image of a signed value stored in one byte. -/
def byteOf (v : Int) : Byte := (v % 256).toNat

/-- RowWriterV2::write(ssize_t, const Date&). -/
def writeDate (sc : Schema) (w : Writer) (i : Nat) (year month day : Int) :
    WriteResult × Writer :=
  let f := sc.fieldAt i
  let off := slotPos w f
  match f.type with
  | .DATE =>
      let b := setBytes w.buf off (leI 2 year ++ [byteOf month, byteOf day])
      (.SUCCEEDED, markSet { w with buf := b } f i)
  | _ => (.TYPE_MISMATCH, w)

/-- RowWriterV2::write(ssize_t, const Time&). -/
def writeTime (sc : Schema) (w : Writer) (i : Nat)
    (hour minute sec microsec : Int) : WriteResult × Writer :=
  let f := sc.fieldAt i
  let off := slotPos w f
  match f.type with
  | .TIME =>
      let b := setBytes w.buf off
        ([byteOf hour, byteOf minute, byteOf sec] ++ leI 4 microsec)
      (.SUCCEEDED, markSet { w with buf := b } f i)
  | _ => (.TYPE_MISMATCH, w)

/-- RowWriterV2::write(ssize_t, const DateTime&). -/
def writeDateTime (sc : Schema) (w : Writer) (i : Nat)
    (year month day hour minute sec microsec : Int) : WriteResult × Writer :=
  let f := sc.fieldAt i
  let off := slotPos w f
  match f.type with
  | .DATETIME =>
      let b := setBytes w.buf off
        (leI 2 year ++
          [byteOf month, byteOf day, byteOf hour, byteOf minute, byteOf sec] ++
          leI 4 microsec)
      (.SUCCEEDED, markSet { w with buf := b } f i)
  | _ => (.TYPE_MISMATCH, w)

/-- RowWriterV2::write(ssize_t, const Duration&). -/
def writeDuration (sc : Schema) (w : Writer) (i : Nat)
    (seconds microseconds months : Int) : WriteResult × Writer :=
  let f := sc.fieldAt i
  let off := slotPos w f
  match f.type with
  | .DURATION =>
      let b := setBytes w.buf off
        (leI 8 seconds ++ leI 4 microseconds ++ leI 4 months)
      (.SUCCEEDED, markSet { w with buf := b } f i)
  | _ => (.TYPE_MISMATCH, w)

/-- RowWriterV2::write(ssize_t, const Geography&): enforce the declared
shape (0 models GeoShape::ANY), serialize to WKB, and store it through
the string writer with isWKB set. -/
def writeGeo (sc : Schema) (w : Writer) (i : Nat) (shape : Nat)
    (wkb : List Byte) : WriteResult × Writer :=
  let f := sc.fieldAt i
  if f.geoShape ≠ 0 ∧ f.geoShape ≠ shape then (.TYPE_MISMATCH, w)
  else writeStr sc w i wkb true

/-! ## List and Set payload serialization (writeItem / writeList / writeSet) -/

/-- writeItem: append one element of the declared element type to the
tail buffer.  STRING elements are length-prefixed, INT elements are
truncated to int32, FLOAT elements are narrowed to binary32. -/
def writeItem (item : Value) (valueType : VType) (buffer : Buf) :
    WriteResult × Buf :=
  match valueType with
  | .STRING =>
      let s := item.getStr
      (.SUCCEEDED, buffer ++ le32 s.length ++ s)
  | .INT => (.SUCCEEDED, buffer ++ leI 4 item.getInt)
  | .FLOAT => (.SUCCEEDED, buffer ++ floatLE item.getFloat)
  | _ => (.TYPE_MISMATCH, buffer)

/-- The element-writing loop shared by writeList and writeSet, with the
early return on a failing element. -/
def writeItems (valueType : VType) : List Value → Buf → WriteResult × Buf
  | [], buffer => (.SUCCEEDED, buffer)
  | item :: rest, buffer =>
      match writeItem item valueType buffer with
      | (.SUCCEEDED, b) => writeItems valueType rest b
      | (r, b) => (r, b)

/-- The writeList template: a first pass rejects the whole container
when any element's dynamic type differs from the declared element type
(without touching the buffer), then every element is appended. -/
def writeListTpl (vals : List Value) (valueType : VType) (buffer : Buf) :
    WriteResult × Buf :=
  if vals.all fun item => item.typeOf = valueType then
    writeItems valueType vals buffer
  else (.TYPE_MISMATCH, buffer)

/-- The element loop of the writeSet template: elements equal (by Value
equality) to an already-serialized one are skipped. -/
def writeSetItems (valueType : VType) :
    List Value → Buf → List Value → WriteResult × Buf
  | [], buffer, _ => (.SUCCEEDED, buffer)
  | item :: rest, buffer, serialized =>
      if serialized.any fun s => Value.beq s item then
        writeSetItems valueType rest buffer serialized
      else
        match writeItem item valueType buffer with
        | (.SUCCEEDED, b) => writeSetItems valueType rest b (item :: serialized)
        | (r, b) => (r, b)

/-- The writeSet template: type check every element first, then append
the elements, dropping duplicates. -/
def writeSetTpl (vals : List Value) (valueType : VType) (buffer : Buf) :
    WriteResult × Buf :=
  if vals.all fun item => item.typeOf = valueType then
    writeSetItems valueType vals buffer []
  else (.TYPE_MISMATCH, buffer)

/-- The continuation of write(ssize_t, const List&) once the element
type is known: run the template on the buffer that already carries the
count, then store the tail offset in the fixed slot. -/
def listCont (w : Writer) (f : Field) (i off listOffset : Nat)
    (vals : List Value) (valueType : VType) (buf1 : Buf) :
    WriteResult × Writer :=
  match writeListTpl vals valueType buf1 with
  | (.SUCCEEDED, buf2) =>
      (.SUCCEEDED, markSet
        { w with buf := setBytes buf2 off (le32 listOffset) } f i)
  | (r, buf2) => (r, { w with buf := buf2 })

/-- RowWriterV2::write(ssize_t, const List&).  The int32 element count
is appended to the tail before the field type is inspected, so a type
mismatch leaves those four bytes behind. -/
def writeListV (sc : Schema) (w : Writer) (i : Nat) (vals : List Value) :
    WriteResult × Writer :=
  let f := sc.fieldAt i
  let off := slotPos w f
  let w := if w.isSet.getD i false then { w with outOfSpaceStr := true } else w
  let listSize := vals.length
  let listOffset := w.buf.length
  let buf1 := w.buf ++ le32 listSize
  match f.type with
  | .LIST_STRING => listCont w f i off listOffset vals .STRING buf1
  | .LIST_INT => listCont w f i off listOffset vals .INT buf1
  | .LIST_FLOAT => listCont w f i off listOffset vals .FLOAT buf1
  | _ => (.TYPE_MISMATCH, { w with buf := buf1 })

/-- The continuation of write(ssize_t, const Set&) once the element
type is known. -/
def setCont (w : Writer) (f : Field) (i off setOffset : Nat)
    (vals : List Value) (valueType : VType) (buf1 : Buf) :
    WriteResult × Writer :=
  match writeSetTpl vals valueType buf1 with
  | (.SUCCEEDED, buf2) =>
      (.SUCCEEDED, markSet
        { w with buf := setBytes buf2 off (le32 setOffset) } f i)
  | (r, buf2) => (r, { w with buf := buf2 })

/-- RowWriterV2::write(ssize_t, const Set&).  The stored int32 count is
set.size(), taken from the container before deduplication. -/
def writeSetV (sc : Schema) (w : Writer) (i : Nat) (vals : List Value) :
    WriteResult × Writer :=
  let f := sc.fieldAt i
  let off := slotPos w f
  let w := if w.isSet.getD i false then { w with outOfSpaceStr := true } else w
  let setSize := vals.length
  let setOffset := w.buf.length
  let buf1 := w.buf ++ le32 setSize
  match f.type with
  | .SET_STRING => setCont w f i off setOffset vals .STRING buf1
  | .SET_INT => setCont w f i off setOffset vals .INT buf1
  | .SET_FLOAT => setCont w f i off setOffset vals .FLOAT buf1
  | _ => (.TYPE_MISMATCH, { w with buf := buf1 })

/-! ## Dispatch (setValue / setNull) -/

/-- RowWriterV2::setNull(ssize_t) without the bounds check (the body
after the index has been validated). -/
def setNullIdx (sc : Schema) (w : Writer) (i : Nat) : WriteResult × Writer :=
  let f := sc.fieldAt i
  if ¬f.nullable then (.NOT_NULLABLE, w)
  else
    (.SUCCEEDED,
      { w with buf := setNullBitBuf w.buf w.headerLen f.nullFlagPos,
               isSet := w.isSet.set i true })

/-- RowWriterV2::setNull(ssize_t). -/
def setNull (sc : Schema) (w : Writer) (i : Int) : WriteResult × Writer :=
  if i < 0 ∨ (sc.numFields : Int) ≤ i then (.UNKNOWN_FIELD, w)
  else setNullIdx sc w i.toNat

/-- RowWriterV2::setValue(ssize_t, const Value&): bounds check, then
dispatch on the value kind. -/
def setValue (toTs : Int → Option Int) (sc : Schema) (w : Writer) (i : Int)
    (val : Value) : WriteResult × Writer :=
  if i < 0 ∨ (sc.numFields : Int) ≤ i then (.UNKNOWN_FIELD, w)
  else
    let idx := i.toNat
    match val with
    | .nullV bad => if bad then (.TYPE_MISMATCH, w) else setNullIdx sc w idx
    | .boolV b => writeBool sc w idx b
    | .intV v => writeInt64 toTs sc w idx v
    | .floatV v => writeDouble sc w idx v
    | .strV s => writeStr sc w idx s false
    | .dateV y m d => writeDate sc w idx y m d
    | .timeV h mi s ms => writeTime sc w idx h mi s ms
    | .dtV y mo d h mi s ms => writeDateTime sc w idx y mo d h mi s ms
    | .durV s ms mo => writeDuration sc w idx s ms mo
    | .geoV sh wkb => writeGeo sc w idx sh wkb
    | .listV vals => writeListV sc w idx vals
    | .setV vals => writeSetV sc w idx vals

/-! ## Finalization (checkUnsetFields / processOutOfSpace / finish) -/

/-- The fields paired with their ordinals, for the finalization loops. -/
def withIdx (k : Nat) : List Field → List (Nat × Field)
  | [] => []
  | f :: fs => (k, f) :: withIdx (k + 1) fs

/-- The default-value switch of checkUnsetFields: the evaluated literal
is routed through the matching typed writer; a NULLVALUE literal sets
the null bit directly. -/
def routeDefault (toTs : Int → Option Int) (sc : Schema) (w : Writer)
    (i : Nat) (f : Field) : WriteResult × Writer :=
  match f.defaultVal with
  | .nullV _ =>
      (.SUCCEEDED, { w with buf := setNullBitBuf w.buf w.headerLen f.nullFlagPos })
  | .boolV b => writeBool sc w i b
  | .intV v => writeInt64 toTs sc w i v
  | .floatV v => writeDouble sc w i v
  | .strV s => writeStr sc w i s false
  | .dateV y m d => writeDate sc w i y m d
  | .timeV h mi s ms => writeTime sc w i h mi s ms
  | .dtV y mo d h mi s ms => writeDateTime sc w i y mo d h mi s ms
  | .durV s ms mo => writeDuration sc w i s ms mo
  | .geoV sh wkb => writeGeo sc w i sh wkb
  | .listV vals => writeListV sc w i vals
  | .setV vals => writeSetV sc w i vals

/-- The loop of RowWriterV2::checkUnsetFields. -/
def checkUnsetGo (toTs : Int → Option Int) (sc : Schema) (w : Writer) :
    List (Nat × Field) → WriteResult × Writer
  | [] => (.SUCCEEDED, w)
  | (i, f) :: rest =>
      if w.isSet.getD i false then checkUnsetGo toTs sc w rest
      else if ¬f.nullable ∧ ¬f.hasDefault then (.FIELD_UNSET, w)
      else if f.hasDefault then
        match routeDefault toTs sc w i f with
        | (.SUCCEEDED, w1) => checkUnsetGo toTs sc w1 rest
        | (r, w1) => (r, w1)
      else
        checkUnsetGo toTs sc
          { w with buf := setNullBitBuf w.buf w.headerLen f.nullFlagPos } rest

/-- RowWriterV2::checkUnsetFields. -/
def checkUnsetFields (toTs : Int → Option Int) (sc : Schema) (w : Writer) :
    WriteResult × Writer :=
  checkUnsetGo toTs sc w (withIdx 0 sc.fields)

/-- The per-field walk of RowWriterV2::processOutOfSpace, building the
canonical buffer.  Only STRING and GEOGRAPHY fields contribute bytes;
reads go to the old buffer, writes to the new one. -/
def poosGo (w : Writer) : List (Nat × Field) → Buf → Buf
  | [], temp => temp
  | (_, f) :: rest, temp =>
      if f.type ≠ .STRING ∧ f.type ≠ .GEOGRAPHY then poosGo w rest temp
      else
        let off := slotPos w f
        if f.nullable ∧ checkNullBitBuf w.buf w.headerLen f.nullFlagPos then
          poosGo w rest (setBytes temp off (le32 0 ++ le32 0))
        else
          let oldOffset := readU32 w.buf off
          let strLenRaw := readU32 w.buf (off + 4)
          if 0 < toS32 oldOffset then
            let newOffset := temp.length
            let temp1 := temp ++ seg w.buf oldOffset strLenRaw
            poosGo w rest (setBytes temp1 off (le32 newOffset ++ le32 strLenRaw))
          else
            let s := w.strList.getD strLenRaw []
            let newOffset := temp.length
            let temp1 := temp ++ s
            poosGo w rest (setBytes temp1 off (le32 newOffset ++ le32 s.length))

/-- RowWriterV2::processOutOfSpace. -/
def processOutOfSpace (sc : Schema) (w : Writer) : Buf :=
  poosGo w (withIdx 0 sc.fields)
    (seg w.buf 0 (w.headerLen + w.numNullBytes + sc.fixedSize))

/-- RowWriterV2::finish.  The eight trailer bytes come from the
external wall clock and are passed in. -/
def finish (toTs : Int → Option Int) (sc : Schema) (w : Writer)
    (ts : List Byte) : WriteResult × Writer :=
  match checkUnsetFields toTs sc w with
  | (.SUCCEEDED, w1) =>
      let w2 := if w1.outOfSpaceStr then { w1 with buf := processOutOfSpace sc w1 } else w1
      (.SUCCEEDED, { w2 with buf := w2.buf ++ ts, finished := true })
  | (r, w1) => (r, w1)

/-! ## Constructors -/

/-- The header byte and the version bytes emitted by the fresh-writer
constructor; none models the fatal path of a version the encoding
refuses. -/
def headerOf (ver : Nat) : Option (Nat × List Byte) :=
  if 0 < ver then
    if ver ≤ 0xFF then some (2, 0x09 :: leN 1 ver)
    else if ver < 0xFFFF then some (3, 0x0A :: leN 2 ver)
    else if ver < 0xFFFFFF then some (4, 0x0B :: leN 3 ver)
    else if ver < 0xFFFFFFFF then some (5, 0x0C :: leN 4 ver)
    else if ver < 0xFFFFFFFFFF then some (6, 0x0D :: leN 5 ver)
    else if ver < 0xFFFFFFFFFFFF then some (7, 0x0E :: leN 6 ver)
    else if ver < 0xFFFFFFFFFFFFFF then some (8, 0x0F :: leN 7 ver)
    else none
  else some (1, [0x08])

/-- RowWriterV2::RowWriterV2(const meta::NebulaSchemaProvider*): emit
the header, then resize to cover the null bitmap and the fixed region
with zero fill. -/
def newWriter (sc : Schema) : Option Writer :=
  (headerOf sc.version).map fun hdr =>
    { buf := hdr.2 ++ List.replicate (sc.numNullBytes + sc.fixedSize) 0
      headerLen := hdr.1
      numNullBytes := sc.numNullBytes
      isSet := List.replicate sc.numFields false
      strList := []
      approxStrLen := 0
      outOfSpaceStr := false
      finished := false }

/-- RowWriterV2::processV2EncodedStr on the already-stripped buffer:
check the header signature, decode the version, require it to equal the
schema version (none models the fatal CHECK), mark every field set and
derive approxStrLen. -/
def processV2EncodedStrF (sc : Schema) (buf : Buf) : Option Writer :=
  let b0 := buf.getD 0 0
  if b0 &&& 0x18 ≠ 0x08 then none
  else
    let verBytes := b0 &&& 0x07
    let ver := readLE verBytes buf 1
    if ver ≠ sc.version then none
    else
      some
        { buf := buf
          headerLen := verBytes + 1
          numNullBytes := sc.numNullBytes
          isSet := List.replicate sc.numFields true
          strList := []
          approxStrLen := (buf.length : Int) - (verBytes + 1) - sc.numNullBytes
            - sc.fixedSize - 8
          outOfSpaceStr := false
          finished := false }

/-- RowWriterV2::RowWriterV2(const meta::NebulaSchemaProvider*,
std::string&&): drop the trailing 8-byte timestamp, then process the
encoded payload. -/
def rowWriterFromEncoded (sc : Schema) (encoded : List Byte) : Option Writer :=
  processV2EncodedStrF sc (encoded.take (encoded.length - 8))

/-! ## Operation sequences -/

/-- One caller-visible mutation between construction and finish. -/
inductive Op where
  | setv (i : Int) (val : Value)
  | setNullOp (i : Int)

/-- Apply one operation, keeping the new state (the result code is
returned to the caller and does not influence later calls). -/
def applyOp (toTs : Int → Option Int) (sc : Schema) (w : Writer) : Op → Writer
  | .setv i val => (setValue toTs sc w i val).2
  | .setNullOp i => (setNull sc w i).2

/-- Run a sequence of operations left to right. -/
def runOps (toTs : Int → Option Int) (sc : Schema) (w : Writer)
    (ops : List Op) : Writer :=
  ops.foldl (applyOp toTs sc) w

/-! ## Specification-side definitions -/

/-- The version byte count required by the spec: the least k in 1..7
with version below 2^(8k). -/
def specMinVerBytes (ver : Nat) : Nat :=
  if ver < 2 ^ 8 then 1
  else if ver < 2 ^ 16 then 2
  else if ver < 2 ^ 24 then 3
  else if ver < 2 ^ 32 then 4
  else if ver < 2 ^ 40 then 5
  else if ver < 2 ^ 48 then 6
  else 7

/-- The lower bound the double writer compares against, per destination
type (the int64 limit converts to -2^63 exactly). -/
def dblLo : PropType → ℚ
  | .INT8 => -128
  | .INT16 => -32768
  | .INT32 => -2147483648
  | .INT64 => -((2 ^ 63 : Nat) : ℚ)
  | _ => 0

/-- The upper bound the double writer compares against, per destination
type (the int64 limit converts to 2^63 exactly). -/
def dblHi : PropType → ℚ
  | .INT8 => 127
  | .INT16 => 32767
  | .INT32 => 2147483647
  | .INT64 => ((2 ^ 63 : Nat) : ℚ)
  | _ => 0

/-- The lower bound the float writer compares against (the int32 and
int64 limits convert to -2^31 and -2^63 exactly). -/
def fltLo : PropType → ℚ
  | .INT8 => -128
  | .INT16 => -32768
  | .INT32 => -((2 ^ 31 : Nat) : ℚ)
  | .INT64 => -((2 ^ 63 : Nat) : ℚ)
  | _ => 0

/-- The upper bound the float writer compares against. -/
def fltHi : PropType → ℚ
  | .INT8 => 127
  | .INT16 => 32767
  | .INT32 => ((2 ^ 31 : Nat) : ℚ)
  | .INT64 => ((2 ^ 63 : Nat) : ℚ)
  | _ => 0

/-- The stored width of an integer destination. -/
def intWidth : PropType → Nat
  | .INT8 => 1
  | .INT16 => 2
  | .INT32 => 4
  | .INT64 => 8
  | _ => 0

/-- A trivially total timestamp validator, used to instantiate the
external collaborator in concrete runs. -/
def tsId : Int → Option Int := fun v => some v

/-- The number of bytes a typed writer stores in the fixed slot of a
field of each type. -/
def typeWidth (f : Field) : Nat :=
  match f.type with
  | .BOOL => 1
  | .INT8 => 1
  | .INT16 => 2
  | .INT32 => 4
  | .INT64 => 8
  | .TIMESTAMP => 8
  | .FLOAT => 4
  | .DOUBLE => 8
  | .STRING => 8
  | .FIXED_STRING => f.size
  | .GEOGRAPHY => 8
  | .DATE => 4
  | .TIME => 7
  | .DATETIME => 11
  | .DURATION => 16
  | .LIST_STRING => 4
  | .LIST_INT => 4
  | .LIST_FLOAT => 4
  | .SET_STRING => 4
  | .SET_INT => 4
  | .SET_FLOAT => 4

/-- The frame of one mutation targeting field i: header geometry is
unchanged, the buffer only grows, bytes outside the slot of field i and
outside the null bitmap keep their values, null bits other than the bit
of field i keep their values, isSet entries of other fields keep their
values, strList is only appended to, and the out-of-space latch is
monotone. -/
def Frame (sc : Schema) (i : Nat) (w wq : Writer) : Prop :=
  wq.headerLen = w.headerLen ∧
  wq.numNullBytes = w.numNullBytes ∧
  w.buf.length ≤ wq.buf.length ∧
  (∀ p, p < w.buf.length →
    (p < slotPos w (sc.fieldAt i) ∨
      slotPos w (sc.fieldAt i) + (sc.fieldAt i).size ≤ p) →
    (p < w.headerLen ∨ w.headerLen + w.numNullBytes ≤ p) →
    wq.buf.getD p 0 = w.buf.getD p 0) ∧
  (∀ q, q ≠ (sc.fieldAt i).nullFlagPos →
    w.headerLen + q / 8 < w.headerLen + w.numNullBytes →
    checkNullBitBuf wq.buf w.headerLen q = checkNullBitBuf w.buf w.headerLen q) ∧
  (∀ j, j ≠ i → wq.isSet.getD j false = w.isSet.getD j false) ∧
  wq.isSet.length = w.isSet.length ∧
  (∃ ext, wq.strList = w.strList ++ ext) ∧
  (w.outOfSpaceStr = true → wq.outOfSpaceStr = true)

/-- Schema well-formedness assumed by the slot invariant: every field
fits the fixed region with at least its type width, distinct fields
have disjoint slots, and null-bitmap positions used by the code stay
inside the bitmap. -/
def WFS (sc : Schema) : Prop :=
  (∀ i, i < sc.numFields →
    typeWidth (sc.fieldAt i) ≤ (sc.fieldAt i).size ∧
    (sc.fieldAt i).offset + (sc.fieldAt i).size ≤ sc.fixedSize ∧
    ((sc.fieldAt i).nullable = true →
      (sc.fieldAt i).nullFlagPos < 8 * sc.numNullBytes) ∧
    ((sc.fieldAt i).hasDefault = true →
      (sc.fieldAt i).defaultVal.isNullLit = true →
      (sc.fieldAt i).nullFlagPos < 8 * sc.numNullBytes)) ∧
  (∀ i, i < sc.numFields → ∀ j, j < sc.numFields → i ≠ j →
    (sc.fieldAt i).offset + (sc.fieldAt i).size ≤ (sc.fieldAt j).offset ∨
    (sc.fieldAt j).offset + (sc.fieldAt j).size ≤ (sc.fieldAt i).offset)

/-- The stored (offset, length) slot of a variable-length field
references the bytes v: either inline in the tail, or as a pending
strList entry in out-of-space mode. -/
def SlotHolds (sc : Schema) (w : Writer) (i : Nat) (v : List Byte) : Prop :=
  (w.headerLen + w.numNullBytes + sc.fixedSize ≤
      readU32 w.buf (slotPos w (sc.fieldAt i)) ∧
    readU32 w.buf (slotPos w (sc.fieldAt i)) +
      readU32 w.buf (slotPos w (sc.fieldAt i) + 4) ≤ w.buf.length ∧
    readU32 w.buf (slotPos w (sc.fieldAt i) + 4) = v.length ∧
    seg w.buf (readU32 w.buf (slotPos w (sc.fieldAt i))) v.length = v) ∨
  (readU32 w.buf (slotPos w (sc.fieldAt i)) = 0 ∧
    w.outOfSpaceStr = true ∧
    readU32 w.buf (slotPos w (sc.fieldAt i) + 4) < w.strList.length ∧
    w.strList.getD (readU32 w.buf (slotPos w (sc.fieldAt i) + 4)) [] = v)

/-- The writer invariant carried across operations: the geometry is
intact and every STRING/GEOGRAPHY field with a recorded last write has
its isSet flag on and a slot referencing that value. -/
def StrInv (sc : Schema) (w : Writer) (L : Nat → Option (List Byte)) : Prop :=
  w.headerLen + w.numNullBytes + sc.fixedSize ≤ w.buf.length ∧
  w.numNullBytes = sc.numNullBytes ∧
  w.isSet.length = sc.numFields ∧
  ∀ i, i < sc.numFields →
    ((sc.fieldAt i).type = .STRING ∨ (sc.fieldAt i).type = .GEOGRAPHY) →
    ∀ v, L i = some v →
      w.isSet.getD i false = true ∧ SlotHolds sc w i v

/-- The string bytes a setValue stores through the shared STRING /
GEOGRAPHY body, if any (mirrors the write dispatch of the source). -/
def strWriteOf (sc : Schema) (i : Nat) (val : Value) : Option (List Byte) :=
  match val with
  | .strV s =>
      match (sc.fieldAt i).type with
      | .STRING => some s
      | _ => none
  | .geoV sh wkb =>
      if (sc.fieldAt i).geoShape ≠ 0 ∧ (sc.fieldAt i).geoShape ≠ sh then none
      else
        match (sc.fieldAt i).type with
        | .STRING => some wkb
        | .GEOGRAPHY => some wkb
        | _ => none
  | _ => none

/-- One step of the ghost record of last successfully written string
values. -/
def updLast (sc : Schema) (L : Nat → Option (List Byte)) (op : Op) :
    Nat → Option (List Byte) :=
  match op with
  | .setv j val =>
      if j < 0 ∨ (sc.numFields : Int) ≤ j then L
      else
        match strWriteOf sc j.toNat val with
        | some s => fun k => if k = j.toNat then some s else L k
        | none => L
  | .setNullOp _ => L

/-- The last string value successfully written to each field by an
operation sequence. -/
def lastVals (sc : Schema) (ops : List Op) (i : Nat) : Option (List Byte) :=
  ops.foldl (updLast sc) (fun _ => none) i

/-- A placeholder writer used only as the getD default when reading a
some-value out of a constructor. -/
def dWriter : Writer := ⟨[], 0, 0, [], [], 0, false, false⟩

/-- Concrete schema: one non-nullable INT8 field. -/
def scInt8 : Schema := ⟨0, [⟨.INT8, 0, 1, false, 0, false, .nullV false, 0⟩], 1⟩

/-- Concrete schema: one non-nullable SET_INT field. -/
def scSetInt : Schema := ⟨0, [⟨.SET_INT, 0, 4, false, 0, false, .nullV false, 0⟩], 4⟩

/-- Concrete schema: a LIST_INT field followed by a STRING field. -/
def scListStr : Schema :=
  ⟨0, [⟨.LIST_INT, 0, 4, false, 0, false, .nullV false, 0⟩,
       ⟨.STRING, 4, 8, false, 0, false, .nullV false, 0⟩], 12⟩

/-- Concrete schema: one non-nullable INT64 field. -/
def scInt64 : Schema := ⟨0, [⟨.INT64, 0, 8, false, 0, false, .nullV false, 0⟩], 8⟩

/-- A writer over scInt64 whose slot holds stale 0xFF bytes. -/
def wDirty : Writer := ⟨8 :: List.replicate 8 255, 1, 0, [false], [], 0, false, false⟩

/-- Concrete schema: a non-nullable INT8 field with no default followed
by a nullable INT8 field. -/
def sc6 : Schema :=
  ⟨0, [⟨.INT8, 0, 1, false, 0, false, .nullV false, 0⟩,
       ⟨.INT8, 1, 1, true, 1, false, .nullV false, 0⟩], 2⟩

/-- A writer over sc6 with only the second field set. -/
def w6 : Writer := ⟨[8, 0, 0, 0], 1, 1, [false, true], [], 0, false, false⟩

/-- Concrete schema: a non-nullable INT8 field whose default expression
evaluates to NULL, followed by a nullable INT8 field. -/
def sc9 : Schema :=
  ⟨0, [⟨.INT8, 0, 1, false, 0, true, .nullV false, 0⟩,
       ⟨.INT8, 1, 1, true, 1, false, .nullV false, 0⟩], 2⟩

/-- A writer over sc9 with only the second field set. -/
def w9 : Writer := ⟨[8, 0, 0, 0], 1, 1, [false, true], [], 0, false, false⟩

/-- Concrete schema: version 1, one non-nullable STRING field. -/
def sc8 : Schema := ⟨1, [⟨.STRING, 0, 8, false, 0, false, .nullV false, 0⟩], 8⟩

/-- An encoded record for sc8: header 0x09 + version byte, an 8-byte
slot, and the 8-byte timestamp trailer. -/
def enc8 : List Byte := [9, 1] ++ List.replicate 8 0 ++ List.replicate 8 0

/-- The writer the reseed constructor produces from enc8. -/
def w8 : Writer :=
  ⟨[9, 1] ++ List.replicate 8 0, 2, 0, [true], [], -8, false, false⟩

/-! ## Lemmas -/

@[simp] theorem length_setByte (buf : Buf) (p : Nat) (b : Byte) :
    (setByte buf p b).length = buf.length := by
  simp [setByte]

@[simp] theorem length_setBytes (bs : List Byte) (buf : Buf) (p : Nat) :
    (setBytes buf p bs).length = buf.length := by
  induction bs generalizing buf p with
  | nil => rfl
  | cons b bs ih => simp [setBytes, ih]

theorem getD_setByte_ne (buf : Buf) (p q : Nat) (b : Byte) (h : q ≠ p) :
    (setByte buf p b).getD q 0 = buf.getD q 0 := by
  unfold setByte
  rcases Nat.lt_or_ge q buf.length with hq | hq
  · rw [List.getD_eq_getElem _ _ (by simpa using hq),
      List.getD_eq_getElem _ _ hq]
    exact List.getElem_set_ne (by omega) _
  · rw [List.getD_eq_default _ _ (by simpa using hq),
      List.getD_eq_default _ _ hq]

theorem getD_setBytes_lt (bs : List Byte) (buf : Buf) (p q : Nat) (h : q < p) :
    (setBytes buf p bs).getD q 0 = buf.getD q 0 := by
  induction bs generalizing buf p with
  | nil => rfl
  | cons b bs ih =>
    rw [setBytes, ih _ _ (by omega), getD_setByte_ne _ _ _ _ (by omega)]

theorem getD_setBytes_ge (bs : List Byte) (buf : Buf) (p q : Nat)
    (h : p + bs.length ≤ q) :
    (setBytes buf p bs).getD q 0 = buf.getD q 0 := by
  induction bs generalizing buf p with
  | nil => rfl
  | cons b bs ih =>
    rw [setBytes, ih _ _ (by simp at h; omega),
      getD_setByte_ne _ _ _ _ (by simp at h; omega)]

theorem getD_setByte_self (buf : Buf) (p : Nat) (b : Byte)
    (h : p < buf.length) :
    (setByte buf p b).getD p 0 = b := by
  unfold setByte
  rw [List.getD_eq_getElem _ _ (by simpa using h)]
  simp [List.getElem_set_self]

theorem getD_setBytes_in (bs : List Byte) (buf : Buf) (p j : Nat)
    (hj : j < bs.length) (hlen : p + bs.length ≤ buf.length) :
    (setBytes buf p bs).getD (p + j) 0 = bs.getD j 0 := by
  induction bs generalizing buf p j with
  | nil => simp at hj
  | cons b bs ih =>
    rw [setBytes]
    match j with
    | 0 =>
      rw [getD_setBytes_lt _ _ _ _ (by omega)]
      simpa using getD_setByte_self buf p b (by simp at hlen; omega)
    | j + 1 =>
      have := ih (setByte buf p b) (p + 1) j (by simpa using hj)
        (by simp at hlen ⊢; omega)
      rw [show p + (j + 1) = p + 1 + j by omega, this]
      rfl

@[simp] theorem length_leN (k v : Nat) : (leN k v).length = k := by
  induction k generalizing v with
  | zero => rfl
  | succ k ih => simp [leN, ih]

theorem getD_append_lt (buf t : Buf) (j : Nat) (h : j < buf.length) :
    (buf ++ t).getD j 0 = buf.getD j 0 := by
  rw [List.getD_eq_getElem _ _ (by simp; omega), List.getD_eq_getElem _ _ h]
  exact List.getElem_append_left h

theorem getD_append_ge (buf t : Buf) (j : Nat) :
    (buf ++ t).getD (buf.length + j) 0 = t.getD j 0 := by
  rcases Nat.lt_or_ge j t.length with hj | hj
  · rw [List.getD_eq_getElem _ _ (by simp; omega), List.getD_eq_getElem _ _ hj]
    rw [List.getElem_append_right (by omega)]
    congr 1
    omega
  · rw [List.getD_eq_default _ _ (by simp; omega), List.getD_eq_default _ _ hj]

theorem readLE_congr (k : Nat) (b1 b2 : Buf) (p : Nat)
    (h : ∀ j < k, b1.getD (p + j) 0 = b2.getD (p + j) 0) :
    readLE k b1 p = readLE k b2 p := by
  induction k generalizing p with
  | zero => rfl
  | succ k ih =>
    rw [readLE, readLE, ih (p + 1) fun j hj => by
      have := h (1 + j) (by omega)
      rwa [show p + (1 + j) = p + 1 + j by omega] at this]
    have h0 := h 0 (by omega)
    rw [Nat.add_zero] at h0
    rw [h0]

theorem readLE_setBytes (k : Nat) (v : Nat) (buf : Buf) (p : Nat)
    (h : p + k ≤ buf.length) :
    readLE k (setBytes buf p (leN k v)) p = v % 256 ^ k := by
  induction k generalizing v buf p with
  | zero => simp [readLE, Nat.mod_one]
  | succ k ih =>
    rw [leN, setBytes, readLE]
    rw [getD_setBytes_lt _ _ _ _ (by omega)]
    rw [getD_setByte_self _ _ _ (by omega)]
    rw [ih (v / 256) (setByte buf p (v % 256)) (p + 1) (by simp; omega)]
    rw [Nat.pow_succ', Nat.mod_mul]

@[simp] theorem length_seg (buf : Buf) (p len : Nat) :
    (seg buf p len).length = len := by
  simp [seg]

theorem seg_congr (b1 b2 : Buf) (p len : Nat)
    (h : ∀ j < len, b1.getD (p + j) 0 = b2.getD (p + j) 0) :
    seg b1 p len = seg b2 p len := by
  unfold seg
  exact List.map_congr_left fun j hj => h j (by simpa using hj)

theorem seg_append_self (buf bs : Buf) :
    seg (buf ++ bs) buf.length bs.length = bs := by
  unfold seg
  apply List.ext_getElem (by simp)
  intro j h1 h2
  simp only [List.getElem_map, List.getElem_range]
  rw [getD_append_ge, List.getD_eq_getElem _ _ (by simpa using h2)]

theorem getD_seg (buf : Buf) (p len j : Nat) (hj : j < len) :
    (seg buf p len).getD j 0 = buf.getD (p + j) 0 := by
  unfold seg
  rw [List.getD_eq_getElem _ _ (by simpa using hj)]
  simp

theorem mask_testBit (m i : Nat) (hm : m < 8) :
    (255 - 2 ^ m).testBit i = (decide (i < 8) && !decide (i = m)) := by
  rcases Nat.lt_or_ge i 8 with hi | hi
  · have H : ∀ m, m < 8 → ∀ i, i < 8 →
        ((255 - 2 ^ m).testBit i = !decide (i = m)) := by decide
    simp [hi, H m hm i hi]
  · have h256 : (2 : Nat) ^ 8 ≤ 2 ^ i := Nat.pow_le_pow_right (by omega) hi
    have h1 : (255 - 2 ^ m : Nat) < 2 ^ i :=
      lt_of_le_of_lt (Nat.sub_le _ _) (lt_of_lt_of_le (by omega) h256)
    have hi8 : ¬ i < 8 := by omega
    simp [Nat.testBit_lt_two_pow h1, hi8]

theorem lor_pow_land_pow_self (b m : Nat) : (b ||| 2 ^ m) &&& 2 ^ m ≠ 0 := by
  rw [Nat.and_two_pow, Nat.testBit_lor, Nat.testBit_two_pow_self]
  simp

theorem lor_pow_land_pow_ne (b m k : Nat) (h : m ≠ k) :
    (b ||| 2 ^ m) &&& 2 ^ k = b &&& 2 ^ k := by
  rw [Nat.and_two_pow, Nat.and_two_pow, Nat.testBit_lor, Nat.testBit_two_pow]
  simp [h]

theorem land_mask_land_pow_self (b m : Nat) (hm : m < 8) :
    (b &&& (255 - 2 ^ m)) &&& 2 ^ m = 0 := by
  rw [Nat.and_two_pow, Nat.testBit_land, mask_testBit m m hm]
  simp

theorem land_mask_land_pow_ne (b m k : Nat) (hm : m < 8) (hk : k < 8) (h : m ≠ k) :
    (b &&& (255 - 2 ^ m)) &&& 2 ^ k = b &&& 2 ^ k := by
  rw [Nat.and_two_pow, Nat.and_two_pow, Nat.testBit_land, mask_testBit m k hm]
  have : ¬ (k = m) := fun hkm => h hkm.symm
  simp [hk, this]

theorem checkNullBit_setNullBit_self (buf : Buf) (hl pos : Nat)
    (h : hl + pos / 8 < buf.length) :
    checkNullBitBuf (setNullBitBuf buf hl pos) hl pos = true := by
  unfold checkNullBitBuf setNullBitBuf orMask
  rw [getD_setByte_self _ _ _ h]
  simpa using lor_pow_land_pow_self (buf.getD (hl + pos / 8) 0) (7 - pos % 8)

theorem checkNullBit_setNullBit_ne (buf : Buf) (hl pos q : Nat)
    (hq : q ≠ pos) (hin : hl + pos / 8 < buf.length) :
    checkNullBitBuf (setNullBitBuf buf hl pos) hl q = checkNullBitBuf buf hl q := by
  unfold checkNullBitBuf setNullBitBuf orMask
  by_cases hqp : q / 8 = pos / 8
  · rw [hqp, getD_setByte_self _ _ _ hin]
    have hne : 7 - pos % 8 ≠ 7 - q % 8 := by omega
    rw [lor_pow_land_pow_ne _ _ _ hne]
  · rw [getD_setByte_ne _ _ _ _ (by omega)]

theorem checkNullBit_clearNullBit_self (buf : Buf) (hl pos : Nat)
    (h : hl + pos / 8 < buf.length) :
    checkNullBitBuf (clearNullBitBuf buf hl pos) hl pos = false := by
  unfold checkNullBitBuf clearNullBitBuf orMask andMask
  rw [getD_setByte_self _ _ _ h]
  simpa using land_mask_land_pow_self (buf.getD (hl + pos / 8) 0) (7 - pos % 8) (by omega)

theorem checkNullBit_clearNullBit_ne (buf : Buf) (hl pos q : Nat)
    (hq : q ≠ pos) (hin : hl + pos / 8 < buf.length) :
    checkNullBitBuf (clearNullBitBuf buf hl pos) hl q = checkNullBitBuf buf hl q := by
  unfold checkNullBitBuf clearNullBitBuf orMask andMask
  by_cases hqp : q / 8 = pos / 8
  · rw [hqp, getD_setByte_self _ _ _ hin]
    have hne : 7 - pos % 8 ≠ 7 - q % 8 := by omega
    rw [land_mask_land_pow_ne _ _ _ (by omega) (by omega) hne]
  · rw [getD_setByte_ne _ _ _ _ (by omega)]

@[simp] theorem length_floatLE (q : ℚ) : (floatLE q).length = 4 := by
  simp [floatLE]

@[simp] theorem length_doubleLE (q : ℚ) : (doubleLE q).length = 8 := by
  simp [doubleLE]

@[simp] theorem length_leI (k : Nat) (v : Int) : (leI k v).length = k := by
  simp [leI]

@[simp] theorem length_le32 (v : Nat) : (le32 v).length = 4 := by
  simp [le32]

theorem seg_setBytes_self (bs : List Byte) (buf : Buf) (p : Nat)
    (h : p + bs.length ≤ buf.length) :
    seg (setBytes buf p bs) p bs.length = bs := by
  apply List.ext_getElem (by simp)
  intro j h1 h2
  have hj : j < bs.length := by simpa using h2
  have := getD_setBytes_in bs buf p j hj h
  rw [List.getD_eq_getElem _ _ hj] at this
  simp only [seg, List.getElem_map, List.getElem_range]
  rw [this]

theorem seg_setBytes_eq (bs : List Byte) (buf : Buf) (p len : Nat)
    (hbs : bs.length = len) (h : p + len ≤ buf.length) :
    seg (setBytes buf p bs) p len = bs := by
  subst hbs
  exact seg_setBytes_self _ _ _ h

theorem seg_setBytes_out (bs : List Byte) (buf : Buf) (p q len : Nat)
    (h : q + len ≤ p ∨ p + bs.length ≤ q) :
    seg (setBytes buf p bs) q len = seg buf q len := by
  apply seg_congr
  intro j hj
  rcases h with h | h
  · exact getD_setBytes_lt _ _ _ _ (by omega)
  · exact getD_setBytes_ge _ _ _ _ (by omega)

theorem seg_append_left (buf t : Buf) (p len : Nat) (h : p + len ≤ buf.length) :
    seg (buf ++ t) p len = seg buf p len := by
  apply seg_congr
  intro j hj
  exact getD_append_lt _ _ _ (by omega)

theorem seg_setByte_out (buf : Buf) (p q len : Nat) (b : Byte)
    (h : p < q ∨ q + len ≤ p) :
    seg (setByte buf p b) q len = seg buf q len := by
  apply seg_congr
  intro j hj
  exact getD_setByte_ne _ _ _ _ (by omega)

/-! ### markSet frame facts -/

@[simp] theorem markSet_buf_length (w : Writer) (f : Field) (i : Nat) :
    (markSet w f i).buf.length = w.buf.length := by
  unfold markSet clearNullBitBuf
  split <;> simp

@[simp] theorem markSet_headerLen (w : Writer) (f : Field) (i : Nat) :
    (markSet w f i).headerLen = w.headerLen := by
  unfold markSet
  split <;> rfl

@[simp] theorem markSet_numNullBytes (w : Writer) (f : Field) (i : Nat) :
    (markSet w f i).numNullBytes = w.numNullBytes := by
  unfold markSet
  split <;> rfl

@[simp] theorem markSet_strList (w : Writer) (f : Field) (i : Nat) :
    (markSet w f i).strList = w.strList := by
  unfold markSet
  split <;> rfl

@[simp] theorem markSet_outOfSpaceStr (w : Writer) (f : Field) (i : Nat) :
    (markSet w f i).outOfSpaceStr = w.outOfSpaceStr := by
  unfold markSet
  split <;> rfl

@[simp] theorem markSet_isSet (w : Writer) (f : Field) (i : Nat) :
    (markSet w f i).isSet = w.isSet.set i true := by
  unfold markSet
  split <;> rfl

theorem seg_markSet (w : Writer) (f : Field) (i p len : Nat)
    (h : f.nullable = true → w.headerLen + f.nullFlagPos / 8 < p) :
    seg (markSet w f i).buf p len = seg w.buf p len := by
  unfold markSet clearNullBitBuf
  rcases hn : f.nullable with _ | _
  · simp [hn]
  · simp only [hn, if_pos]
    exact seg_setByte_out _ _ _ _ _ (Or.inl (h hn))

/-! ### Frame lemmas: footprint of one mutation -/

theorem getD_set_ne {α : Type} (l : List α) (i j : Nat) (a d : α) (h : j ≠ i) :
    (l.set i a).getD j d = l.getD j d := by
  rcases Nat.lt_or_ge j l.length with hj | hj
  · rw [List.getD_eq_getElem _ _ (by simpa using hj), List.getD_eq_getElem _ _ hj]
    exact List.getElem_set_ne (by omega) _
  · rw [List.getD_eq_default _ _ (by simpa using hj), List.getD_eq_default _ _ hj]

theorem slotPos_ge (w : Writer) (f : Field) :
    w.headerLen + w.numNullBytes ≤ slotPos w f := by
  unfold slotPos
  omega

theorem checkNullBit_congr (b1 b2 : Buf) (hl q : Nat)
    (h : b1.getD (hl + q / 8) 0 = b2.getD (hl + q / 8) 0) :
    checkNullBitBuf b1 hl q = checkNullBitBuf b2 hl q := by
  unfold checkNullBitBuf
  rw [h]

theorem markSet_buf_explicit (B : Buf) (hl nb : Nat) (IS : List Bool)
    (SL : List (List Byte)) (A : Int) (OOS FIN : Bool) (f : Field) (i : Nat) :
    (markSet ⟨B, hl, nb, IS, SL, A, OOS, FIN⟩ f i).buf =
      if f.nullable = true then clearNullBitBuf B hl f.nullFlagPos else B := by
  unfold markSet
  split <;> rfl

theorem markSet_isSet_explicit (B : Buf) (hl nb : Nat) (IS : List Bool)
    (SL : List (List Byte)) (A : Int) (OOS FIN : Bool) (f : Field) (i : Nat) :
    (markSet ⟨B, hl, nb, IS, SL, A, OOS, FIN⟩ f i).isSet = IS.set i true := by
  unfold markSet
  split <;> rfl

/-- Every failing or slot-free mutation: the writer keeps the geometry,
appends ext to the buffer and sext to strList, and only changes the
latch monotonically. -/
theorem Frame_plain (sc : Schema) (i : Nat) (w : Writer) (B : Buf)
    (SL : List (List Byte)) (A : Int) (OOS FIN : Bool)
    (hB : ∃ ext, B = w.buf ++ ext)
    (hsl : ∃ e2, SL = w.strList ++ e2)
    (hOOS : w.outOfSpaceStr = true → OOS = true)
    (hnnb : w.headerLen + w.numNullBytes ≤ w.buf.length) :
    Frame sc i w
      ⟨B, w.headerLen, w.numNullBytes, w.isSet, SL, A, OOS, FIN⟩ := by
  obtain ⟨ext, rfl⟩ := hB
  refine ⟨rfl, rfl, by simp, ?_, ?_, fun j _ => rfl, rfl, hsl, hOOS⟩
  · intro p hp _ _
    exact getD_append_lt _ _ _ hp
  · intro q _ hq
    apply checkNullBit_congr
    exact getD_append_lt _ _ _ (by omega)

/-- Every successful fixed-slot write: append ext to the buffer, store
the slot image, clear the null bit of the field, set its isSet flag. -/
theorem Frame_master (sc : Schema) (i : Nat) (w : Writer) (B : Buf)
    (bytes : List Byte) (SL : List (List Byte)) (A : Int) (OOS FIN : Bool)
    (hB : ∃ ext, B = w.buf ++ ext)
    (hsl : ∃ e2, SL = w.strList ++ e2)
    (hOOS : w.outOfSpaceStr = true → OOS = true)
    (hwd : bytes.length ≤ (sc.fieldAt i).size)
    (hpos : (sc.fieldAt i).nullable = true →
      (sc.fieldAt i).nullFlagPos < 8 * w.numNullBytes)
    (hnnb : w.headerLen + w.numNullBytes ≤ w.buf.length) :
    Frame sc i w
      (markSet
        ⟨setBytes B (slotPos w (sc.fieldAt i)) bytes,
          w.headerLen, w.numNullBytes, w.isSet, SL, A, OOS, FIN⟩
        (sc.fieldAt i) i) := by
  obtain ⟨ext, rfl⟩ := hB
  have hslot := slotPos_ge w (sc.fieldAt i)
  refine ⟨by simp, by simp, by simp, ?_, ?_, ?_,
    by rw [markSet_isSet_explicit]; simp, by simpa using hsl,
    by simpa using hOOS⟩
  · intro p hp hps hpb
    rw [markSet_buf_explicit]
    rcases hn : (sc.fieldAt i).nullable with _ | _
    · rw [if_neg (by simp)]
      rcases hps with hps | hps
      · rw [getD_setBytes_lt _ _ _ _ (by omega)]
        exact getD_append_lt _ _ _ hp
      · rw [getD_setBytes_ge _ _ _ _ (by omega)]
        exact getD_append_lt _ _ _ hp
    · rw [if_pos rfl]
      have hposs := hpos hn
      simp only [clearNullBitBuf]
      rw [getD_setByte_ne _ _ _ _ (by omega)]
      rcases hps with hps | hps
      · rw [getD_setBytes_lt _ _ _ _ (by omega)]
        exact getD_append_lt _ _ _ hp
      · rw [getD_setBytes_ge _ _ _ _ (by omega)]
        exact getD_append_lt _ _ _ hp
  · intro q hq hqb
    rw [markSet_buf_explicit]
    rcases hn : (sc.fieldAt i).nullable with _ | _
    · rw [if_neg (by simp)]
      apply checkNullBit_congr
      rw [getD_setBytes_lt _ _ _ _ (by omega)]
      exact getD_append_lt _ _ _ (by omega)
    · rw [if_pos rfl]
      have hposs := hpos hn
      have hin : w.headerLen + (sc.fieldAt i).nullFlagPos / 8 <
          (setBytes (w.buf ++ ext) (slotPos w (sc.fieldAt i)) bytes).length := by
        simp
        omega
      rw [checkNullBit_clearNullBit_ne _ _ _ _ hq hin]
      apply checkNullBit_congr
      rw [getD_setBytes_lt _ _ _ _ (by omega)]
      exact getD_append_lt _ _ _ (by omega)
  · intro j hj
    rw [markSet_isSet_explicit]
    exact getD_set_ne _ _ _ _ _ hj

/-- A mutation that returns the writer unchanged respects the frame. -/
theorem Frame_fail (sc : Schema) (i : Nat) (w : Writer)
    (hnnb : w.headerLen + w.numNullBytes ≤ w.buf.length) :
    Frame sc i w w :=
  Frame_plain sc i w w.buf w.strList w.approxStrLen w.outOfSpaceStr w.finished
    ⟨[], by simp⟩ ⟨[], by simp⟩ (fun h => h) hnnb

/-- A successful fixed-slot write with no tail growth. -/
theorem Frame_write_slot (sc : Schema) (i : Nat) (w : Writer)
    (bytes : List Byte)
    (hwd : bytes.length ≤ (sc.fieldAt i).size)
    (hpos : (sc.fieldAt i).nullable = true →
      (sc.fieldAt i).nullFlagPos < 8 * w.numNullBytes)
    (hnnb : w.headerLen + w.numNullBytes ≤ w.buf.length) :
    Frame sc i w
      (markSet { w with buf := setBytes w.buf (slotPos w (sc.fieldAt i)) bytes }
        (sc.fieldAt i) i) :=
  Frame_master sc i w w.buf bytes w.strList w.approxStrLen w.outOfSpaceStr
    w.finished ⟨[], by simp⟩ ⟨[], by simp⟩ (fun h => h) hwd hpos hnnb

/-- Setting the null bit of field i respects the frame. -/
theorem Frame_setBit (sc : Schema) (i : Nat) (w : Writer) (IS : List Bool)
    (SL : List (List Byte)) (A : Int) (OOS FIN : Bool)
    (hIS : IS = w.isSet ∨ IS = w.isSet.set i true)
    (hsl : ∃ e2, SL = w.strList ++ e2)
    (hOOS : w.outOfSpaceStr = true → OOS = true)
    (hposs : (sc.fieldAt i).nullFlagPos < 8 * w.numNullBytes)
    (hnnb : w.headerLen + w.numNullBytes ≤ w.buf.length) :
    Frame sc i w
      ⟨setNullBitBuf w.buf w.headerLen (sc.fieldAt i).nullFlagPos,
        w.headerLen, w.numNullBytes, IS, SL, A, OOS, FIN⟩ := by
  refine ⟨rfl, rfl, by simp [setNullBitBuf, setByte], ?_, ?_, ?_,
    by rcases hIS with rfl | rfl <;> simp, hsl, hOOS⟩
  · intro p hp hps hpb
    simp only [setNullBitBuf]
    exact getD_setByte_ne _ _ _ _ (by omega)
  · intro q hq hqb
    exact checkNullBit_setNullBit_ne _ _ _ _ hq (by omega)
  · intro j hj
    rcases hIS with rfl | rfl
    · rfl
    · exact getD_set_ne _ _ _ _ _ hj

theorem writeItem_appends (item : Value) (valueType : VType) (buffer : Buf) :
    ∃ e, (writeItem item valueType buffer).2 = buffer ++ e := by
  rcases valueType
  case STRING =>
    exact ⟨le32 item.getStr.length ++ item.getStr, by simp [writeItem]⟩
  case INT => exact ⟨leI 4 item.getInt, rfl⟩
  case FLOAT => exact ⟨floatLE item.getFloat, rfl⟩
  all_goals exact ⟨[], by simp [writeItem]⟩

theorem writeItems_appends (valueType : VType) :
    ∀ (vals : List Value) (buffer : Buf),
      ∃ e, (writeItems valueType vals buffer).2 = buffer ++ e := by
  intro vals
  induction vals with
  | nil => intro buffer; exact ⟨[], by simp [writeItems]⟩
  | cons item rest ih =>
      intro buffer
      rw [writeItems]
      rcases hw : writeItem item valueType buffer with ⟨r0, b0⟩
      obtain ⟨e0, he0⟩ := writeItem_appends item valueType buffer
      rw [hw] at he0
      simp only at he0
      subst he0
      cases r0
      case SUCCEEDED =>
        obtain ⟨e1, he1⟩ := ih (buffer ++ e0)
        exact ⟨e0 ++ e1, by simp [he1]⟩
      all_goals exact ⟨e0, by simp⟩

theorem writeSetItems_appends (valueType : VType) :
    ∀ (vals : List Value) (buffer : Buf) (serialized : List Value),
      ∃ e, (writeSetItems valueType vals buffer serialized).2 = buffer ++ e := by
  intro vals
  induction vals with
  | nil => intro buffer serialized; exact ⟨[], by simp [writeSetItems]⟩
  | cons item rest ih =>
      intro buffer serialized
      rw [writeSetItems]
      split
      · exact ih buffer serialized
      rcases hw : writeItem item valueType buffer with ⟨r0, b0⟩
      obtain ⟨e0, he0⟩ := writeItem_appends item valueType buffer
      rw [hw] at he0
      simp only at he0
      subst he0
      cases r0
      case SUCCEEDED =>
        obtain ⟨e1, he1⟩ := ih (buffer ++ e0) (item :: serialized)
        exact ⟨e0 ++ e1, by simp [he1]⟩
      all_goals exact ⟨e0, by simp⟩

theorem writeListTpl_appends (vals : List Value) (valueType : VType)
    (buffer : Buf) :
    ∃ e, (writeListTpl vals valueType buffer).2 = buffer ++ e := by
  unfold writeListTpl
  split
  · exact writeItems_appends valueType vals buffer
  · exact ⟨[], by simp⟩

theorem writeSetTpl_appends (vals : List Value) (valueType : VType)
    (buffer : Buf) :
    ∃ e, (writeSetTpl vals valueType buffer).2 = buffer ++ e := by
  unfold writeSetTpl
  split
  · exact writeSetItems_appends valueType vals buffer []
  · exact ⟨[], by simp⟩

theorem utf8CutSize_le (v : List Byte) (l : Nat) : utf8CutSize v l ≤ l := by
  induction l with
  | zero => simp [utf8CutSize]
  | succ l ih =>
      rw [utf8CutSize]
      split
      · omega
      · omega

theorem length_strncpyBytes (v : List Byte) (len : Nat) :
    (strncpyBytes v len).length = len := by
  unfold strncpyBytes
  rw [List.length_append, List.length_replicate]
  have h : ((v.takeWhile fun b => b != 0).take len).length ≤ len := by
    simp
  omega

/-! ### Per-function frame lemmas -/

theorem frame_writeBool (sc : Schema) (w : Writer) (i : Nat) (v : Bool)
    (hw : typeWidth (sc.fieldAt i) ≤ (sc.fieldAt i).size)
    (hpos : (sc.fieldAt i).nullable = true →
      (sc.fieldAt i).nullFlagPos < 8 * w.numNullBytes)
    (hnnb : w.headerLen + w.numNullBytes ≤ w.buf.length) :
    Frame sc i w (writeBool sc w i v).2 := by
  unfold typeWidth at hw
  rcases hft : (sc.fieldAt i).type <;>
    rw [hft] at hw <;>
    simp only [writeBool, hft] <;>
    first
      | exact Frame_fail sc i w hnnb
      | exact Frame_write_slot sc i w _ (by simpa using hw) hpos hnnb

theorem frame_writeInt64 (toTs : Int → Option Int) (sc : Schema) (w : Writer)
    (i : Nat) (v : Int)
    (hw : typeWidth (sc.fieldAt i) ≤ (sc.fieldAt i).size)
    (hpos : (sc.fieldAt i).nullable = true →
      (sc.fieldAt i).nullFlagPos < 8 * w.numNullBytes)
    (hnnb : w.headerLen + w.numNullBytes ≤ w.buf.length) :
    Frame sc i w (writeInt64 toTs sc w i v).2 := by
  unfold typeWidth at hw
  rcases hft : (sc.fieldAt i).type <;>
    rw [hft] at hw <;>
    simp only [writeInt64, hft] <;>
    (try split) <;>
    first
      | exact Frame_fail sc i w hnnb
      | exact Frame_write_slot sc i w _ (by simpa using hw) hpos hnnb

theorem frame_writeDouble (sc : Schema) (w : Writer) (i : Nat) (v : ℚ)
    (hw : typeWidth (sc.fieldAt i) ≤ (sc.fieldAt i).size)
    (hpos : (sc.fieldAt i).nullable = true →
      (sc.fieldAt i).nullFlagPos < 8 * w.numNullBytes)
    (hnnb : w.headerLen + w.numNullBytes ≤ w.buf.length) :
    Frame sc i w (writeDouble sc w i v).2 := by
  unfold typeWidth at hw
  rcases hft : (sc.fieldAt i).type <;>
    rw [hft] at hw <;>
    simp only [writeDouble, hft] <;>
    (try split) <;>
    first
      | exact Frame_fail sc i w hnnb
      | exact Frame_write_slot sc i w _ (by simpa using hw) hpos hnnb

theorem frame_strCore (sc : Schema) (w : Writer) (i : Nat) (v : List Byte)
    (h8 : 8 ≤ (sc.fieldAt i).size)
    (hpos : (sc.fieldAt i).nullable = true →
      (sc.fieldAt i).nullFlagPos < 8 * w.numNullBytes)
    (hnnb : w.headerLen + w.numNullBytes ≤ w.buf.length) :
    Frame sc i w (strCore w (sc.fieldAt i) i v).2 := by
  unfold strCore
  rcases hks : w.isSet.getD i false with _ | _ <;>
    simp only [hks, Bool.false_eq_true, if_false, if_true]
  · split
    · exact Frame_master sc i w w.buf _ (w.strList ++ [v]) _ _ _
        ⟨[], by simp⟩ ⟨[v], rfl⟩ (fun h => h) (by simpa using h8) hpos hnnb
    · exact Frame_master sc i w (w.buf ++ v) _ w.strList _ _ _
        ⟨v, rfl⟩ ⟨[], by simp⟩ (fun h => h) (by simpa using h8) hpos hnnb
  · exact Frame_master sc i w w.buf _ (w.strList ++ [v]) _ _ _
      ⟨[], by simp⟩ ⟨[v], rfl⟩ (fun _ => rfl) (by simpa using h8) hpos hnnb

theorem frame_writeStr (sc : Schema) (w : Writer) (i : Nat) (v : List Byte)
    (isWKB : Bool)
    (hw : typeWidth (sc.fieldAt i) ≤ (sc.fieldAt i).size)
    (hpos : (sc.fieldAt i).nullable = true →
      (sc.fieldAt i).nullFlagPos < 8 * w.numNullBytes)
    (hnnb : w.headerLen + w.numNullBytes ≤ w.buf.length) :
    Frame sc i w (writeStr sc w i v isWKB).2 := by
  unfold typeWidth at hw
  rcases hft : (sc.fieldAt i).type <;>
    rw [hft] at hw <;>
    simp only [writeStr, hft]
  case STRING => exact frame_strCore sc w i v (by simpa using hw) hpos hnnb
  case GEOGRAPHY =>
    rcases isWKB with _ | _
    · rw [if_pos (show (!false) = true from rfl)]
      exact Frame_fail sc i w hnnb
    · rw [if_neg (by simp)]
      exact frame_strCore sc w i v (by simpa using hw) hpos hnnb
  case FIXED_STRING =>
    apply Frame_write_slot sc i w _ _ hpos hnnb
    rw [List.length_append, length_strncpyBytes, List.length_replicate]
    have h1 := utf8CutSize_le v (sc.fieldAt i).size
    split <;> omega
  all_goals exact Frame_fail sc i w hnnb

theorem frame_writeDate (sc : Schema) (w : Writer) (i : Nat) (y m d : Int)
    (hw : typeWidth (sc.fieldAt i) ≤ (sc.fieldAt i).size)
    (hpos : (sc.fieldAt i).nullable = true →
      (sc.fieldAt i).nullFlagPos < 8 * w.numNullBytes)
    (hnnb : w.headerLen + w.numNullBytes ≤ w.buf.length) :
    Frame sc i w (writeDate sc w i y m d).2 := by
  unfold typeWidth at hw
  rcases hft : (sc.fieldAt i).type <;>
    rw [hft] at hw <;>
    simp only [writeDate, hft] <;>
    first
      | exact Frame_fail sc i w hnnb
      | exact Frame_write_slot sc i w _ (by simpa using hw) hpos hnnb

theorem frame_writeTime (sc : Schema) (w : Writer) (i : Nat) (h mi s ms : Int)
    (hw : typeWidth (sc.fieldAt i) ≤ (sc.fieldAt i).size)
    (hpos : (sc.fieldAt i).nullable = true →
      (sc.fieldAt i).nullFlagPos < 8 * w.numNullBytes)
    (hnnb : w.headerLen + w.numNullBytes ≤ w.buf.length) :
    Frame sc i w (writeTime sc w i h mi s ms).2 := by
  unfold typeWidth at hw
  rcases hft : (sc.fieldAt i).type <;>
    rw [hft] at hw <;>
    simp only [writeTime, hft] <;>
    first
      | exact Frame_fail sc i w hnnb
      | exact Frame_write_slot sc i w _ (by simpa using hw) hpos hnnb

theorem frame_writeDateTime (sc : Schema) (w : Writer) (i : Nat)
    (y mo d h mi s ms : Int)
    (hw : typeWidth (sc.fieldAt i) ≤ (sc.fieldAt i).size)
    (hpos : (sc.fieldAt i).nullable = true →
      (sc.fieldAt i).nullFlagPos < 8 * w.numNullBytes)
    (hnnb : w.headerLen + w.numNullBytes ≤ w.buf.length) :
    Frame sc i w (writeDateTime sc w i y mo d h mi s ms).2 := by
  unfold typeWidth at hw
  rcases hft : (sc.fieldAt i).type <;>
    rw [hft] at hw <;>
    simp only [writeDateTime, hft] <;>
    first
      | exact Frame_fail sc i w hnnb
      | exact Frame_write_slot sc i w _ (by simpa using hw) hpos hnnb

theorem frame_writeDuration (sc : Schema) (w : Writer) (i : Nat)
    (s2 ms mo : Int)
    (hw : typeWidth (sc.fieldAt i) ≤ (sc.fieldAt i).size)
    (hpos : (sc.fieldAt i).nullable = true →
      (sc.fieldAt i).nullFlagPos < 8 * w.numNullBytes)
    (hnnb : w.headerLen + w.numNullBytes ≤ w.buf.length) :
    Frame sc i w (writeDuration sc w i s2 ms mo).2 := by
  unfold typeWidth at hw
  rcases hft : (sc.fieldAt i).type <;>
    rw [hft] at hw <;>
    simp only [writeDuration, hft] <;>
    first
      | exact Frame_fail sc i w hnnb
      | exact Frame_write_slot sc i w _ (by simpa using hw) hpos hnnb

theorem frame_writeGeo (sc : Schema) (w : Writer) (i : Nat) (sh : Nat)
    (wkb : List Byte)
    (hw : typeWidth (sc.fieldAt i) ≤ (sc.fieldAt i).size)
    (hpos : (sc.fieldAt i).nullable = true →
      (sc.fieldAt i).nullFlagPos < 8 * w.numNullBytes)
    (hnnb : w.headerLen + w.numNullBytes ≤ w.buf.length) :
    Frame sc i w (writeGeo sc w i sh wkb).2 := by
  simp only [writeGeo]
  split
  · exact Frame_fail sc i w hnnb
  · exact frame_writeStr sc w i wkb true hw hpos hnnb

theorem frame_listCont (sc : Schema) (w : Writer) (i : Nat)
    (vals : List Value) (valueType : VType) (w1 : Writer)
    (hw1 : w1 = w ∨ w1 = { w with outOfSpaceStr := true })
    (h4 : 4 ≤ (sc.fieldAt i).size)
    (hpos : (sc.fieldAt i).nullable = true →
      (sc.fieldAt i).nullFlagPos < 8 * w.numNullBytes)
    (hnnb : w.headerLen + w.numNullBytes ≤ w.buf.length) :
    Frame sc i w
      (listCont w1 (sc.fieldAt i) i (slotPos w (sc.fieldAt i))
        w1.buf.length vals valueType (w1.buf ++ le32 vals.length)).2 := by
  unfold listCont
  rcases hr : writeListTpl vals valueType (w1.buf ++ le32 vals.length)
    with ⟨r0, b0⟩
  obtain ⟨e0, he0⟩ := writeListTpl_appends vals valueType
    (w1.buf ++ le32 vals.length)
  rw [hr] at he0
  simp only at he0
  subst he0
  rcases hw1 with rfl | rfl <;>
    cases r0 <;>
      first
        | exact Frame_master sc i _ _ _ _ _ _ _
            ⟨le32 vals.length ++ e0, by simp⟩ ⟨[], by simp⟩
            (fun h => h) (by simpa using h4) hpos hnnb
        | exact Frame_plain sc i _ _ _ _ _ _
            ⟨le32 vals.length ++ e0, by simp⟩ ⟨[], by simp⟩
            (fun h => h) hnnb
        | exact Frame_master sc i _ _ _ _ _ _ _
            ⟨le32 vals.length ++ e0, by simp⟩ ⟨[], by simp⟩
            (fun _ => rfl) (by simpa using h4) hpos hnnb
        | exact Frame_plain sc i _ _ _ _ _ _
            ⟨le32 vals.length ++ e0, by simp⟩ ⟨[], by simp⟩
            (fun _ => rfl) hnnb

theorem frame_setCont (sc : Schema) (w : Writer) (i : Nat)
    (vals : List Value) (valueType : VType) (w1 : Writer)
    (hw1 : w1 = w ∨ w1 = { w with outOfSpaceStr := true })
    (h4 : 4 ≤ (sc.fieldAt i).size)
    (hpos : (sc.fieldAt i).nullable = true →
      (sc.fieldAt i).nullFlagPos < 8 * w.numNullBytes)
    (hnnb : w.headerLen + w.numNullBytes ≤ w.buf.length) :
    Frame sc i w
      (setCont w1 (sc.fieldAt i) i (slotPos w (sc.fieldAt i))
        w1.buf.length vals valueType (w1.buf ++ le32 vals.length)).2 := by
  unfold setCont
  rcases hr : writeSetTpl vals valueType (w1.buf ++ le32 vals.length)
    with ⟨r0, b0⟩
  obtain ⟨e0, he0⟩ := writeSetTpl_appends vals valueType
    (w1.buf ++ le32 vals.length)
  rw [hr] at he0
  simp only at he0
  subst he0
  rcases hw1 with rfl | rfl <;>
    cases r0 <;>
      first
        | exact Frame_master sc i _ _ _ _ _ _ _
            ⟨le32 vals.length ++ e0, by simp⟩ ⟨[], by simp⟩
            (fun h => h) (by simpa using h4) hpos hnnb
        | exact Frame_plain sc i _ _ _ _ _ _
            ⟨le32 vals.length ++ e0, by simp⟩ ⟨[], by simp⟩
            (fun h => h) hnnb
        | exact Frame_master sc i _ _ _ _ _ _ _
            ⟨le32 vals.length ++ e0, by simp⟩ ⟨[], by simp⟩
            (fun _ => rfl) (by simpa using h4) hpos hnnb
        | exact Frame_plain sc i _ _ _ _ _ _
            ⟨le32 vals.length ++ e0, by simp⟩ ⟨[], by simp⟩
            (fun _ => rfl) hnnb

theorem frame_writeListV (sc : Schema) (w : Writer) (i : Nat)
    (vals : List Value)
    (hw : typeWidth (sc.fieldAt i) ≤ (sc.fieldAt i).size)
    (hpos : (sc.fieldAt i).nullable = true →
      (sc.fieldAt i).nullFlagPos < 8 * w.numNullBytes)
    (hnnb : w.headerLen + w.numNullBytes ≤ w.buf.length) :
    Frame sc i w (writeListV sc w i vals).2 := by
  unfold typeWidth at hw
  rcases hft : (sc.fieldAt i).type <;>
    rw [hft] at hw <;>
    simp only [writeListV, hft] <;>
    rcases hks : w.isSet.getD i false with _ | _ <;>
    simp only [hks, Bool.false_eq_true, if_false, if_true] <;>
    first
      | exact frame_listCont sc w i vals _ w (Or.inl rfl) (by simpa using hw)
          hpos hnnb
      | exact frame_listCont sc w i vals _ { w with outOfSpaceStr := true }
          (Or.inr rfl) (by simpa using hw) hpos hnnb
      | exact Frame_plain sc i w _ _ _ _ _ ⟨le32 vals.length, rfl⟩
          ⟨[], by simp⟩ (fun h => h) hnnb
      | exact Frame_plain sc i w _ _ _ _ _ ⟨le32 vals.length, rfl⟩
          ⟨[], by simp⟩ (fun _ => rfl) hnnb

theorem frame_writeSetV (sc : Schema) (w : Writer) (i : Nat)
    (vals : List Value)
    (hw : typeWidth (sc.fieldAt i) ≤ (sc.fieldAt i).size)
    (hpos : (sc.fieldAt i).nullable = true →
      (sc.fieldAt i).nullFlagPos < 8 * w.numNullBytes)
    (hnnb : w.headerLen + w.numNullBytes ≤ w.buf.length) :
    Frame sc i w (writeSetV sc w i vals).2 := by
  unfold typeWidth at hw
  rcases hft : (sc.fieldAt i).type <;>
    rw [hft] at hw <;>
    simp only [writeSetV, hft] <;>
    rcases hks : w.isSet.getD i false with _ | _ <;>
    simp only [hks, Bool.false_eq_true, if_false, if_true] <;>
    first
      | exact frame_setCont sc w i vals _ w (Or.inl rfl) (by simpa using hw)
          hpos hnnb
      | exact frame_setCont sc w i vals _ { w with outOfSpaceStr := true }
          (Or.inr rfl) (by simpa using hw) hpos hnnb
      | exact Frame_plain sc i w _ _ _ _ _ ⟨le32 vals.length, rfl⟩
          ⟨[], by simp⟩ (fun h => h) hnnb
      | exact Frame_plain sc i w _ _ _ _ _ ⟨le32 vals.length, rfl⟩
          ⟨[], by simp⟩ (fun _ => rfl) hnnb

theorem frame_setNullIdx (sc : Schema) (w : Writer) (i : Nat)
    (hpos : (sc.fieldAt i).nullable = true →
      (sc.fieldAt i).nullFlagPos < 8 * w.numNullBytes)
    (hnnb : w.headerLen + w.numNullBytes ≤ w.buf.length) :
    Frame sc i w (setNullIdx sc w i).2 := by
  unfold setNullIdx
  rcases hn : (sc.fieldAt i).nullable with _ | _ <;>
    simp only [hn, Bool.false_eq_true, Bool.not_false, Bool.not_true,
      if_false, if_true]
  · exact Frame_fail sc i w hnnb
  · exact Frame_setBit sc i w _ _ _ _ _ (Or.inr rfl) ⟨[], by simp⟩
      (fun h => h) (hpos hn) hnnb

theorem writeItems_ok (valueType : VType)
    (hvt : valueType = .STRING ∨ valueType = .INT ∨ valueType = .FLOAT) :
    ∀ (vals : List Value) (buffer : Buf),
      (writeItems valueType vals buffer).1 = .SUCCEEDED := by
  intro vals
  induction vals with
  | nil => intro buffer; rfl
  | cons item rest ih =>
      intro buffer
      rw [writeItems]
      rcases hvt with h | h | h <;> subst h <;> simp [writeItem] <;> exact ih _

theorem writeSetItems_ok (valueType : VType)
    (hvt : valueType = .STRING ∨ valueType = .INT ∨ valueType = .FLOAT) :
    ∀ (vals : List Value) (buffer : Buf) (serialized : List Value),
      (writeSetItems valueType vals buffer serialized).1 = .SUCCEEDED := by
  intro vals
  induction vals with
  | nil => intro buffer serialized; rfl
  | cons item rest ih =>
      intro buffer serialized
      rw [writeSetItems]
      split
      · exact ih _ _
      · rcases hvt with h | h | h <;> subst h <;> simp [writeItem] <;> exact ih _ _

theorem writeListTpl_mismatch (vals : List Value) (valueType : VType)
    (buffer : Buf)
    (hvt : valueType = .STRING ∨ valueType = .INT ∨ valueType = .FLOAT)
    (h : (writeListTpl vals valueType buffer).1 = .TYPE_MISMATCH) :
    (writeListTpl vals valueType buffer).2 = buffer := by
  by_cases hall : (vals.all fun item => decide (item.typeOf = valueType)) = true
  · exfalso
    unfold writeListTpl at h
    rw [if_pos hall, writeItems_ok valueType hvt vals buffer] at h
    cases h
  · unfold writeListTpl
    rw [if_neg hall]

theorem writeSetTpl_mismatch (vals : List Value) (valueType : VType)
    (buffer : Buf)
    (hvt : valueType = .STRING ∨ valueType = .INT ∨ valueType = .FLOAT)
    (h : (writeSetTpl vals valueType buffer).1 = .TYPE_MISMATCH) :
    (writeSetTpl vals valueType buffer).2 = buffer := by
  by_cases hall : (vals.all fun item => decide (item.typeOf = valueType)) = true
  · exfalso
    unfold writeSetTpl at h
    rw [if_pos hall, writeSetItems_ok valueType hvt vals buffer []] at h
    cases h
  · unfold writeSetTpl
    rw [if_neg hall]

theorem listCont_mismatch (w : Writer) (f : Field) (i off listOffset : Nat)
    (vals : List Value) (valueType : VType) (buf1 : Buf)
    (hvt : valueType = .STRING ∨ valueType = .INT ∨ valueType = .FLOAT)
    (h : (listCont w f i off listOffset vals valueType buf1).1 = .TYPE_MISMATCH) :
    (listCont w f i off listOffset vals valueType buf1).2 = { w with buf := buf1 } := by
  rcases hr : writeListTpl vals valueType buf1 with ⟨r0, b0⟩
  have h2 := writeListTpl_mismatch vals valueType buf1 hvt
  rw [hr] at h2
  unfold listCont at h ⊢
  rw [hr] at h ⊢
  cases r0 <;> simp_all

theorem setCont_mismatch (w : Writer) (f : Field) (i off setOffset : Nat)
    (vals : List Value) (valueType : VType) (buf1 : Buf)
    (hvt : valueType = .STRING ∨ valueType = .INT ∨ valueType = .FLOAT)
    (h : (setCont w f i off setOffset vals valueType buf1).1 = .TYPE_MISMATCH) :
    (setCont w f i off setOffset vals valueType buf1).2 = { w with buf := buf1 } := by
  rcases hr : writeSetTpl vals valueType buf1 with ⟨r0, b0⟩
  have h2 := writeSetTpl_mismatch vals valueType buf1 hvt
  rw [hr] at h2
  unfold setCont at h ⊢
  rw [hr] at h ⊢
  cases r0 <;> simp_all

theorem writeListV_mismatch (sc : Schema) (w : Writer) (i : Nat)
    (vals : List Value)
    (h : (writeListV sc w i vals).1 = .TYPE_MISMATCH) :
    (writeListV sc w i vals).2.buf = w.buf ++ le32 vals.length ∧
    (writeListV sc w i vals).2.isSet = w.isSet := by
  rcases hft : (sc.fieldAt i).type <;>
    first
      | (simp [writeListV, hft] at h ⊢;
         refine ⟨?_, ?_⟩ <;> (split <;> rfl))
      | (simp only [writeListV, hft] at h ⊢;
         rw [listCont_mismatch _ _ _ _ _ _ _ _ (by decide) h];
         refine ⟨?_, ?_⟩ <;> (split <;> rfl))

theorem writeSetV_mismatch (sc : Schema) (w : Writer) (i : Nat)
    (vals : List Value)
    (h : (writeSetV sc w i vals).1 = .TYPE_MISMATCH) :
    (writeSetV sc w i vals).2.buf = w.buf ++ le32 vals.length ∧
    (writeSetV sc w i vals).2.isSet = w.isSet := by
  rcases hft : (sc.fieldAt i).type <;>
    first
      | (simp [writeSetV, hft] at h ⊢;
         refine ⟨?_, ?_⟩ <;> (split <;> rfl))
      | (simp only [writeSetV, hft] at h ⊢;
         rw [setCont_mismatch _ _ _ _ _ _ _ _ (by decide) h];
         refine ⟨?_, ?_⟩ <;> (split <;> rfl))

/-! ## Claim theorems -/

theorem getD_replicate_of_lt {α : Type} (n i : Nat) (a d : α) (h : i < n) :
    (List.replicate n a).getD i d = a := by
  rw [List.getD_eq_getElem _ _ (by simpa using h)]
  exact List.getElem_replicate _ _

/-- The frame of the default-value switch of checkUnsetFields. -/
theorem frame_routeDefault (toTs : Int → Option Int) (sc : Schema)
    (w : Writer) (i : Nat)
    (hw : typeWidth (sc.fieldAt i) ≤ (sc.fieldAt i).size)
    (hposA : (sc.fieldAt i).nullable = true →
      (sc.fieldAt i).nullFlagPos < 8 * w.numNullBytes)
    (hnull : (sc.fieldAt i).defaultVal.isNullLit = true →
      (sc.fieldAt i).nullFlagPos < 8 * w.numNullBytes)
    (hnnb : w.headerLen + w.numNullBytes ≤ w.buf.length) :
    Frame sc i w (routeDefault toTs sc w i (sc.fieldAt i)).2 := by
  unfold routeDefault
  rcases hdv : (sc.fieldAt i).defaultVal with
    bad | b | v | q | s | ⟨y, m, d⟩ | ⟨h2, mi, s2, ms⟩ |
    ⟨y, mo, d, h2, mi, s2, ms⟩ | ⟨s2, ms, mo⟩ | ⟨sh, wkb⟩ | vals | vals
  · exact Frame_setBit sc i w w.isSet w.strList w.approxStrLen
      w.outOfSpaceStr w.finished (Or.inl rfl) ⟨[], by simp⟩ (fun h => h)
      (hnull (by rw [hdv]; rfl)) hnnb
  · exact frame_writeBool sc w i b hw hposA hnnb
  · exact frame_writeInt64 toTs sc w i v hw hposA hnnb
  · exact frame_writeDouble sc w i q hw hposA hnnb
  · exact frame_writeStr sc w i s false hw hposA hnnb
  · exact frame_writeDate sc w i y m d hw hposA hnnb
  · exact frame_writeTime sc w i h2 mi s2 ms hw hposA hnnb
  · exact frame_writeDateTime sc w i y mo d h2 mi s2 ms hw hposA hnnb
  · exact frame_writeDuration sc w i s2 ms mo hw hposA hnnb
  · exact frame_writeGeo sc w i sh wkb hw hposA hnnb
  · exact frame_writeListV sc w i vals hw hposA hnnb
  · exact frame_writeSetV sc w i vals hw hposA hnnb

/-- The frame of setValue. -/
theorem frame_setValue (toTs : Int → Option Int) (sc : Schema) (w : Writer)
    (i : Int) (val : Value)
    (hw : typeWidth (sc.fieldAt i.toNat) ≤ (sc.fieldAt i.toNat).size)
    (hposA : (sc.fieldAt i.toNat).nullable = true →
      (sc.fieldAt i.toNat).nullFlagPos < 8 * w.numNullBytes)
    (hnnb : w.headerLen + w.numNullBytes ≤ w.buf.length) :
    Frame sc i.toNat w (setValue toTs sc w i val).2 := by
  unfold setValue
  split
  · exact Frame_fail sc i.toNat w hnnb
  · rcases val with
      bad | b | v | q | s | ⟨y, m, d⟩ | ⟨h2, mi, s2, ms⟩ |
      ⟨y, mo, d, h2, mi, s2, ms⟩ | ⟨s2, ms, mo⟩ | ⟨sh, wkb⟩ | vals | vals
    · rcases bad with _ | _
      · exact frame_setNullIdx sc w i.toNat hposA hnnb
      · exact Frame_fail sc i.toNat w hnnb
    · exact frame_writeBool sc w i.toNat b hw hposA hnnb
    · exact frame_writeInt64 toTs sc w i.toNat v hw hposA hnnb
    · exact frame_writeDouble sc w i.toNat q hw hposA hnnb
    · exact frame_writeStr sc w i.toNat s false hw hposA hnnb
    · exact frame_writeDate sc w i.toNat y m d hw hposA hnnb
    · exact frame_writeTime sc w i.toNat h2 mi s2 ms hw hposA hnnb
    · exact frame_writeDateTime sc w i.toNat y mo d h2 mi s2 ms hw
        hposA hnnb
    · exact frame_writeDuration sc w i.toNat s2 ms mo hw hposA hnnb
    · exact frame_writeGeo sc w i.toNat sh wkb hw hposA hnnb
    · exact frame_writeListV sc w i.toNat vals hw hposA hnnb
    · exact frame_writeSetV sc w i.toNat vals hw hposA hnnb

/-- The frame of setNull. -/
theorem frame_setNull (sc : Schema) (w : Writer) (i : Int)
    (hposA : (sc.fieldAt i.toNat).nullable = true →
      (sc.fieldAt i.toNat).nullFlagPos < 8 * w.numNullBytes)
    (hnnb : w.headerLen + w.numNullBytes ≤ w.buf.length) :
    Frame sc i.toNat w (setNull sc w i).2 := by
  unfold setNull
  split
  · exact Frame_fail sc i.toNat w hnnb
  · exact frame_setNullIdx sc w i.toNat hposA hnnb

/-- The checkUnsetFields loop skips a run of already-set fields. -/
theorem checkUnsetGo_all_set (toTs : Int → Option Int) (sc : Schema)
    (w : Writer) :
    ∀ l : List (Nat × Field), (∀ p ∈ l, w.isSet.getD p.1 false = true) →
      checkUnsetGo toTs sc w l = (.SUCCEEDED, w) := by
  intro l
  induction l with
  | nil => intro _; rfl
  | cons p rest ih =>
      intro h
      obtain ⟨i, f⟩ := p
      rw [checkUnsetGo, if_pos (h (i, f) (by simp))]
      exact ih fun q hq => h q (by simp [hq])

theorem checkUnsetGo_append (toTs : Int → Option Int) (sc : Schema)
    (w : Writer) :
    ∀ l1 l2 : List (Nat × Field),
      (∀ p ∈ l1, w.isSet.getD p.1 false = true) →
      checkUnsetGo toTs sc w (l1 ++ l2) = checkUnsetGo toTs sc w l2 := by
  intro l1
  induction l1 with
  | nil => intro l2 _; rfl
  | cons p rest ih =>
      intro l2 h
      obtain ⟨i, f⟩ := p
      rw [List.cons_append, checkUnsetGo, if_pos (h (i, f) (by simp))]
      exact ih l2 fun q hq => h q (by simp [hq])

theorem withIdx_append (fs1 fs2 : List Field) :
    ∀ k, withIdx k (fs1 ++ fs2) =
      withIdx k fs1 ++ withIdx (k + fs1.length) fs2 := by
  induction fs1 with
  | nil => intro k; simp [withIdx]
  | cons f fs ih =>
      intro k
      simp only [List.cons_append, withIdx, List.append_eq, ih (k + 1),
        List.length_cons]
      have h : k + 1 + fs.length = k + (fs.length + 1) := by omega
      rw [h]

theorem withIdx_mem_fst :
    ∀ (fs : List Field) (k : Nat) (p : Nat × Field),
      p ∈ withIdx k fs → k ≤ p.1 ∧ p.1 < k + fs.length := by
  intro fs
  induction fs with
  | nil => intro k p hp; simp [withIdx] at hp
  | cons f fs ih =>
      intro k p hp
      rw [withIdx] at hp
      rcases List.mem_cons.mp hp with h | h
      · subst h
        refine ⟨Nat.le_refl k, ?_⟩
        simp only [List.length_cons]
        omega
      · obtain ⟨h1, h2⟩ := ih (k + 1) p h
        refine ⟨by omega, ?_⟩
        simp only [List.length_cons]
        omega

/-- Splitting the indexed field walk at one position. -/
theorem withIdx_decomp (sc : Schema) (i : Nat) (hi : i < sc.fields.length) :
    withIdx 0 sc.fields =
      withIdx 0 (sc.fields.take i) ++
        (i, sc.fieldAt i) :: withIdx (i + 1) (sc.fields.drop (i + 1)) := by
  have hl : (sc.fields.take i).length = i := by
    rw [List.length_take]
    exact Nat.min_eq_left hi.le
  conv_lhs => rw [← List.take_append_drop i sc.fields]
  rw [withIdx_append, hl, List.drop_eq_getElem_cons hi, withIdx]
  simp only [Nat.zero_add]
  have hfa : sc.fieldAt i = sc.fields[i] := by
    unfold Schema.fieldAt
    exact List.getD_eq_getElem _ _ hi
  rw [hfa]

/-- When every other field is already set, checkUnsetFields reduces to
the handling of field i followed by the remaining (all set) walk. -/
theorem checkUnsetFields_focus (toTs : Int → Option Int) (sc : Schema)
    (w : Writer) (i : Nat)
    (hi : i < sc.numFields)
    (hset : ∀ j, j < sc.numFields → j ≠ i → w.isSet.getD j false = true) :
    checkUnsetFields toTs sc w =
      checkUnsetGo toTs sc w
        ((i, sc.fieldAt i) :: withIdx (i + 1) (sc.fields.drop (i + 1))) := by
  unfold checkUnsetFields
  rw [withIdx_decomp sc i hi]
  apply checkUnsetGo_append
  intro p hp
  obtain ⟨h1, h2⟩ := withIdx_mem_fst _ 0 p hp
  have hlt : p.1 < i := by
    rw [List.length_take, Nat.zero_add] at h2
    have := Nat.min_le_left i sc.fields.length
    omega
  have hnum : sc.numFields = sc.fields.length := rfl
  exact hset p.1 (by omega) (by omega)

/-- After handling field i, the tail of the walk is still all set for
any writer that preserves the other isSet entries. -/
theorem checkUnsetGo_tail_set (toTs : Int → Option Int) (sc : Schema)
    (w w1 : Writer) (i : Nat)
    (hi : i < sc.numFields)
    (hset : ∀ j, j < sc.numFields → j ≠ i → w.isSet.getD j false = true)
    (hIS : ∀ j, j ≠ i → w1.isSet.getD j false = w.isSet.getD j false) :
    checkUnsetGo toTs sc w1 (withIdx (i + 1) (sc.fields.drop (i + 1))) =
      (.SUCCEEDED, w1) := by
  apply checkUnsetGo_all_set
  intro p hp
  obtain ⟨h1, h2⟩ := withIdx_mem_fst _ (i + 1) p hp
  simp only [List.length_drop] at h2
  have hnum : sc.numFields = sc.fields.length := rfl
  rw [hIS p.1 (by omega)]
  exact hset p.1 (by omega) (by omega)

/-- C2: the claim states that the writer constructor picks the minimum
k in 1..7 with version < 2^(8k) and only fails fatally for versions of
at least 2^56.  The code instead uses strict bounds of the form
2^(8k) - 1 for k of at least 2: at version 65535 it emits header 0x0B
with three version bytes where the minimal count is two, and at version
2^56 - 1 (which the claim says must be encodable with k = 7, as the
constructor comment also promises) it takes the fatal path. -/
theorem c2_header_boundary_eval :
    headerOf 65535 = some (4, [0x0B, 0xFF, 0xFF, 0x00]) ∧
    specMinVerBytes 65535 = 2 ∧
    headerOf 65534 = some (3, [0x0A, 0xFE, 0xFF]) ∧
    headerOf (2 ^ 56 - 1) = none ∧
    specMinVerBytes (2 ^ 56 - 1) = 7 := by
  refine ⟨by decide, by decide, by decide, ?_, by decide⟩
  decide

/-- C4: the claim states that the int32 count stored at the start of a
SET_* tail payload equals the number of unique elements serialized.
The code stores set.size() before deduplication: writing the set
containing 7 twice to a SET_INT field serializes a single int32
element but stores count 2. -/
theorem c4_set_count_eval :
    newWriter scSetInt = some ⟨[8, 0, 0, 0, 0], 1, 0, [false], [], 0, false, false⟩ ∧
    (writeSetV scSetInt ⟨[8, 0, 0, 0, 0], 1, 0, [false], [], 0, false, false⟩ 0
        [.intV 7, .intV 7]).1 = .SUCCEEDED ∧
    (writeSetV scSetInt ⟨[8, 0, 0, 0, 0], 1, 0, [false], [], 0, false, false⟩ 0
        [.intV 7, .intV 7]).2.buf = [8, 5, 0, 0, 0] ++ le32 2 ++ leI 4 7 ∧
    readU32 (writeSetV scSetInt ⟨[8, 0, 0, 0, 0], 1, 0, [false], [], 0, false, false⟩ 0
        [.intV 7, .intV 7]).2.buf 5 = 2 := by
  decide

/-- C5: the claim states that after out-of-space canonicalization the
tail payload of every previously written LIST_*/SET_* field is still
present in the emitted record and still referenced by its slot.  In the
code processOutOfSpace copies only the header, the null bitmap, the
fixed region and the STRING/GEOGRAPHY payloads into the fresh buffer:
in this run the LIST_INT payload (count 1, element 7) is present before
finish at tail offset 13, but the emitted record keeps offset 13 in the
list slot while the payload bytes are gone from the entire record. -/
theorem c5_out_of_space_drops_list_tail :
    (newWriter scListStr).isSome = true ∧
    (let w0 := (newWriter scListStr).getD dWriter
     let wEnd := runOps tsId scListStr w0
       [.setv 0 (.listV [.intV 7]), .setv 1 (.strV [0x61]), .setv 1 (.strV [0x62])]
     let r := finish tsId scListStr wEnd (List.replicate 8 0)
     r.1 = .SUCCEEDED ∧
     wEnd.outOfSpaceStr = true ∧
     readU32 wEnd.buf 1 = 13 ∧
     seg wEnd.buf 13 8 = le32 1 ++ leI 4 7 ∧
     readU32 r.2.buf 1 = 13 ∧
     seg r.2.buf 13 8 ≠ le32 1 ++ leI 4 7 ∧
     (7 : Nat) ∉ r.2.buf) := by
  decide

/-- C7: a successful write of a bool into an INT16, INT32 or INT64
field stores 0x01 or 0x00 in the low slot byte and explicitly zeroes
every remaining byte of the slot, whatever the slot held before. -/
theorem c7_bool_int_zero_pad (sc : Schema) (w : Writer) (i : Nat) (v : Bool)
    (hT : (sc.fieldAt i).type = .INT16 ∨ (sc.fieldAt i).type = .INT32 ∨
      (sc.fieldAt i).type = .INT64)
    (hlen : slotPos w (sc.fieldAt i) + intWidth (sc.fieldAt i).type ≤ w.buf.length)
    (hnb : (sc.fieldAt i).nullable = true →
      w.headerLen + (sc.fieldAt i).nullFlagPos / 8 < slotPos w (sc.fieldAt i)) :
    (writeBool sc w i v).1 = .SUCCEEDED ∧
    seg (writeBool sc w i v).2.buf (slotPos w (sc.fieldAt i))
        (intWidth (sc.fieldAt i).type) =
      (if v then 1 else 0) :: List.replicate (intWidth (sc.fieldAt i).type - 1) 0 := by
  rcases hT with hT | hT | hT <;>
  · simp only [writeBool, hT, intWidth] at hlen ⊢
    refine ⟨by trivial, ?_⟩
    rw [seg_markSet]
    · exact seg_setBytes_self _ _ _ (by simpa using hlen)
    · intro hn
      exact hnb hn

/-- C7 witness: writing true into an INT64 slot previously filled with
0xFF bytes leaves exactly 01 00 00 00 00 00 00 00 in the slot. -/
theorem c7_bool_int_zero_pad_witness :
    (writeBool scInt64 wDirty 0 true).1 = .SUCCEEDED ∧
    seg (writeBool scInt64 wDirty 0 true).2.buf (slotPos wDirty (scInt64.fieldAt 0))
        (intWidth (scInt64.fieldAt 0).type) =
      (if true then 1 else 0) ::
        List.replicate (intWidth (scInt64.fieldAt 0).type - 1) 0 :=
  c7_bool_int_zero_pad scInt64 wDirty 0 true (by decide) (by decide) (by decide)

/-- C10: when a List or Set write fails with TYPE_MISMATCH (element
type mismatch or a non-matching field type), the fixed slot bytes and
the isSet flag are untouched, but the buffer tail has already grown by
the four bytes of the element count. -/
theorem c10_mismatch_leaves_count_bytes (sc : Schema) (w : Writer) (i : Nat)
    (vals : List Value)
    (hlen : slotPos w (sc.fieldAt i) + (sc.fieldAt i).size ≤ w.buf.length) :
    ((writeListV sc w i vals).1 = .TYPE_MISMATCH →
      (writeListV sc w i vals).2.buf = w.buf ++ le32 vals.length ∧
      (writeListV sc w i vals).2.isSet = w.isSet ∧
      seg (writeListV sc w i vals).2.buf (slotPos w (sc.fieldAt i))
          (sc.fieldAt i).size =
        seg w.buf (slotPos w (sc.fieldAt i)) (sc.fieldAt i).size) ∧
    ((writeSetV sc w i vals).1 = .TYPE_MISMATCH →
      (writeSetV sc w i vals).2.buf = w.buf ++ le32 vals.length ∧
      (writeSetV sc w i vals).2.isSet = w.isSet ∧
      seg (writeSetV sc w i vals).2.buf (slotPos w (sc.fieldAt i))
          (sc.fieldAt i).size =
        seg w.buf (slotPos w (sc.fieldAt i)) (sc.fieldAt i).size) := by
  constructor
  · intro h
    obtain ⟨hbuf, hset⟩ := writeListV_mismatch sc w i vals h
    refine ⟨hbuf, hset, ?_⟩
    rw [hbuf]
    exact seg_append_left _ _ _ _ hlen
  · intro h
    obtain ⟨hbuf, hset⟩ := writeSetV_mismatch sc w i vals h
    refine ⟨hbuf, hset, ?_⟩
    rw [hbuf]
    exact seg_append_left _ _ _ _ hlen

/-- C3: the claim states that a float or double source rounds half
away from zero first and then range-checks the rounded integer, so
that, for instance, a value just above the maximum whose rounded result
is in range is accepted.  The code compares the raw value against the
limits before rounding: the double 127.25 written to an INT8 field is
rejected with OUT_OF_RANGE although its rounded value 127 is in
range. -/
theorem c3_round_then_check_counterexample :
    ¬ (((writeDouble scInt8 ⟨[8, 0], 1, 0, [false], [], 0, false, false⟩ 0
          (509 / 4)).1 = .OUT_OF_RANGE) ↔
        (roundHalfAway (509 / 4) < -128 ∨ 127 < roundHalfAway (509 / 4))) := by
  intro h
  have h1 : (writeDouble scInt8 ⟨[8, 0], 1, 0, [false], [], 0, false, false⟩ 0
      (509 / 4)).1 = .OUT_OF_RANGE := by
    simp only [writeDouble,
      show (scInt8.fieldAt 0).type = PropType.INT8 from rfl]
    rw [if_pos (by norm_num)]
  have h2 : roundHalfAway ((509 : ℚ) / 4) = 127 := by
    unfold roundHalfAway
    rw [if_pos (by norm_num), Int.floor_eq_iff]
    constructor <;> norm_num
  have h3 := h.mp h1
  rw [h2] at h3
  rcases h3 with h3 | h3 <;> omega

/-- C3 (amended): for every float or double source value written to an
INT8/INT16/INT32/INT64 field, the writer first range-checks the
unrounded value, comparing in the source floating type (so the float
limits for INT32/INT64 destinations are 2^31 and 2^63, and the double
limits for INT64 are 2^63); it returns OUT_OF_RANGE exactly when the
raw value lies outside those bounds, and otherwise stores the value
rounded half away from zero. -/
theorem c3_raw_range_check_then_round (sc : Schema) (w : Writer) (i : Nat)
    (v : ℚ)
    (hT : (sc.fieldAt i).type = .INT8 ∨ (sc.fieldAt i).type = .INT16 ∨
      (sc.fieldAt i).type = .INT32 ∨ (sc.fieldAt i).type = .INT64)
    (hlen : slotPos w (sc.fieldAt i) + intWidth (sc.fieldAt i).type ≤ w.buf.length)
    (hnb : (sc.fieldAt i).nullable = true →
      w.headerLen + (sc.fieldAt i).nullFlagPos / 8 < slotPos w (sc.fieldAt i)) :
    ((writeDouble sc w i v).1 = .OUT_OF_RANGE ↔
      (v < dblLo (sc.fieldAt i).type ∨ dblHi (sc.fieldAt i).type < v)) ∧
    ((writeFloatF sc w i v).1 = .OUT_OF_RANGE ↔
      (v < fltLo (sc.fieldAt i).type ∨ fltHi (sc.fieldAt i).type < v)) ∧
    ((writeDouble sc w i v).1 = .SUCCEEDED →
      seg (writeDouble sc w i v).2.buf (slotPos w (sc.fieldAt i))
          (intWidth (sc.fieldAt i).type) =
        leI (intWidth (sc.fieldAt i).type) (roundHalfAway v)) ∧
    ((writeFloatF sc w i v).1 = .SUCCEEDED →
      seg (writeFloatF sc w i v).2.buf (slotPos w (sc.fieldAt i))
          (intWidth (sc.fieldAt i).type) =
        leI (intWidth (sc.fieldAt i).type) (roundHalfAway v)) := by
  rcases hT with hT | hT | hT | hT <;>
  · simp only [writeDouble, writeFloatF, hT, intWidth, dblLo, dblHi, fltLo,
      fltHi] at hlen ⊢
    refine ⟨?_, ?_, ?_, ?_⟩ <;>
      first
        | (split <;> rename_i hc
           · exact iff_of_true rfl (hc.elim Or.inr Or.inl)
           · exact iff_of_false (by simp) fun hp => hc (hp.elim Or.inr Or.inl))
        | (intro hs
           split at hs
           · simp at hs
           · rename_i hc
             rw [if_neg hc, seg_markSet]
             · exact seg_setBytes_eq _ _ _ _ (by simp) (by simpa using hlen)
             · intro hn
               exact hnb hn)

/-- C3 witness: on an INT8 field, 5/2 passes the raw range check in
both writers, the checks answer false, and the stored byte is the
rounded value 3. -/
theorem c3_raw_range_check_then_round_witness :
    ((writeDouble scInt8 ⟨[8, 0], 1, 0, [false], [], 0, false, false⟩ 0
        (5 / 2)).1 = .OUT_OF_RANGE ↔
      ((5 / 2 : ℚ) < dblLo (scInt8.fieldAt 0).type ∨
        dblHi (scInt8.fieldAt 0).type < (5 / 2 : ℚ))) ∧
    ((writeFloatF scInt8 ⟨[8, 0], 1, 0, [false], [], 0, false, false⟩ 0
        (5 / 2)).1 = .OUT_OF_RANGE ↔
      ((5 / 2 : ℚ) < fltLo (scInt8.fieldAt 0).type ∨
        fltHi (scInt8.fieldAt 0).type < (5 / 2 : ℚ))) ∧
    ((writeDouble scInt8 ⟨[8, 0], 1, 0, [false], [], 0, false, false⟩ 0
        (5 / 2)).1 = .SUCCEEDED →
      seg (writeDouble scInt8 ⟨[8, 0], 1, 0, [false], [], 0, false, false⟩ 0
          (5 / 2)).2.buf
          (slotPos ⟨[8, 0], 1, 0, [false], [], 0, false, false⟩ (scInt8.fieldAt 0))
          (intWidth (scInt8.fieldAt 0).type) =
        leI (intWidth (scInt8.fieldAt 0).type) (roundHalfAway (5 / 2))) ∧
    ((writeFloatF scInt8 ⟨[8, 0], 1, 0, [false], [], 0, false, false⟩ 0
        (5 / 2)).1 = .SUCCEEDED →
      seg (writeFloatF scInt8 ⟨[8, 0], 1, 0, [false], [], 0, false, false⟩ 0
          (5 / 2)).2.buf
          (slotPos ⟨[8, 0], 1, 0, [false], [], 0, false, false⟩ (scInt8.fieldAt 0))
          (intWidth (scInt8.fieldAt 0).type) =
        leI (intWidth (scInt8.fieldAt 0).type) (roundHalfAway (5 / 2))) :=
  c3_raw_range_check_then_round scInt8 ⟨[8, 0], 1, 0, [false], [], 0, false, false⟩
    0 (5 / 2) (by decide) (by decide) (by decide)

/-- C10 witness: a string element inside a LIST_INT write and a List
write routed at a LIST_INT slot through the Set path both fail with
TYPE_MISMATCH, leave slot and isSet unchanged, and leave the four count
bytes in the tail. -/
theorem c10_mismatch_leaves_count_bytes_witness :
    ((writeListV scListStr ((newWriter scListStr).getD dWriter) 0 [.strV []]).1 =
        .TYPE_MISMATCH →
      (writeListV scListStr ((newWriter scListStr).getD dWriter) 0 [.strV []]).2.buf =
        ((newWriter scListStr).getD dWriter).buf ++ le32 [Value.strV []].length ∧
      (writeListV scListStr ((newWriter scListStr).getD dWriter) 0 [.strV []]).2.isSet =
        ((newWriter scListStr).getD dWriter).isSet ∧
      seg (writeListV scListStr ((newWriter scListStr).getD dWriter) 0 [.strV []]).2.buf
          (slotPos ((newWriter scListStr).getD dWriter) (scListStr.fieldAt 0))
          (scListStr.fieldAt 0).size =
        seg ((newWriter scListStr).getD dWriter).buf
          (slotPos ((newWriter scListStr).getD dWriter) (scListStr.fieldAt 0))
          (scListStr.fieldAt 0).size) ∧
    ((writeSetV scListStr ((newWriter scListStr).getD dWriter) 0 [.strV []]).1 =
        .TYPE_MISMATCH →
      (writeSetV scListStr ((newWriter scListStr).getD dWriter) 0 [.strV []]).2.buf =
        ((newWriter scListStr).getD dWriter).buf ++ le32 [Value.strV []].length ∧
      (writeSetV scListStr ((newWriter scListStr).getD dWriter) 0 [.strV []]).2.isSet =
        ((newWriter scListStr).getD dWriter).isSet ∧
      seg (writeSetV scListStr ((newWriter scListStr).getD dWriter) 0 [.strV []]).2.buf
          (slotPos ((newWriter scListStr).getD dWriter) (scListStr.fieldAt 0))
          (scListStr.fieldAt 0).size =
        seg ((newWriter scListStr).getD dWriter).buf
          (slotPos ((newWriter scListStr).getD dWriter) (scListStr.fieldAt 0))
          (scListStr.fieldAt 0).size) :=
  c10_mismatch_leaves_count_bytes scListStr ((newWriter scListStr).getD dWriter) 0
    [.strV []] (by decide)


/-- strCore on an already-set field latches the out-of-space mode. -/
theorem strCore_latch (w : Writer) (f : Field) (i : Nat) (v : List Byte)
    (hset : w.isSet.getD i false = true) :
    (strCore w f i v).2.outOfSpaceStr = true := by
  simp only [strCore]
  rw [if_pos hset]
  rw [if_pos
    (show ({ w with outOfSpaceStr := true } : Writer).outOfSpaceStr = true
      from rfl)]
  unfold markSet
  split <;> rfl

/-- writeStr on an already-set STRING field latches the out-of-space
mode. -/
theorem writeStr_latch (sc : Schema) (w : Writer) (i : Nat) (v : List Byte)
    (hty : (sc.fieldAt i).type = .STRING)
    (hset : w.isSet.getD i false = true) :
    (writeStr sc w i v false).2.outOfSpaceStr = true := by
  simp only [writeStr]
  rw [hty]
  exact strCore_latch w _ i v hset

/-- C6: at finish(), an unset field i (with every other field already
set) is dispatched three ways by checkUnsetFields: with a default the
evaluated literal is routed through the typed writer switch; without a
default a nullable field gets its null bit set in the emitted record;
otherwise finish fails with FIELD_UNSET. -/
theorem c6_unset_field_dispatch (toTs : Int → Option Int) (sc : Schema)
    (w : Writer) (i : Nat) (ts : List Byte)
    (hi : i < sc.numFields)
    (hset : ∀ j, j < sc.numFields → j ≠ i → w.isSet.getD j false = true)
    (hunset : w.isSet.getD i false = false)
    (hw : typeWidth (sc.fieldAt i) ≤ (sc.fieldAt i).size)
    (hposA : (sc.fieldAt i).nullFlagPos < 8 * w.numNullBytes)
    (hnnb : w.headerLen + w.numNullBytes ≤ w.buf.length) :
    ((sc.fieldAt i).hasDefault = true →
      checkUnsetFields toTs sc w = routeDefault toTs sc w i (sc.fieldAt i)) ∧
    ((sc.fieldAt i).hasDefault = false → (sc.fieldAt i).nullable = true →
      checkUnsetFields toTs sc w =
        (.SUCCEEDED,
          { w with
              buf := setNullBitBuf w.buf w.headerLen
                (sc.fieldAt i).nullFlagPos }) ∧
      checkNullBitBuf
        (setNullBitBuf w.buf w.headerLen (sc.fieldAt i).nullFlagPos)
        w.headerLen (sc.fieldAt i).nullFlagPos = true) ∧
    ((sc.fieldAt i).hasDefault = false → (sc.fieldAt i).nullable = false →
      checkUnsetFields toTs sc w = (.FIELD_UNSET, w) ∧
      finish toTs sc w ts = (.FIELD_UNSET, w)) := by
  have hmain := checkUnsetFields_focus toTs sc w i hi hset
  refine ⟨?_, ?_, ?_⟩
  · intro hd
    rw [hmain, checkUnsetGo, if_neg (by rw [hunset]; exact Bool.false_ne_true),
      if_neg (by simp [hd]), if_pos (by simp [hd])]
    rcases hroute : routeDefault toTs sc w i (sc.fieldAt i) with ⟨r, w1⟩
    have hfr := frame_routeDefault toTs sc w i hw (fun _ => hposA)
      (fun _ => hposA) hnnb
    rw [hroute] at hfr
    obtain ⟨_, _, _, _, _, hIS, _, _, _⟩ := hfr
    cases r
    case SUCCEEDED =>
      exact checkUnsetGo_tail_set toTs sc w w1 i hi hset hIS
    all_goals rfl
  · intro hd hn
    constructor
    · rw [hmain, checkUnsetGo, if_neg (by rw [hunset]; exact Bool.false_ne_true),
        if_neg (by simp [hn]), if_neg (by simp [hd])]
      exact checkUnsetGo_tail_set toTs sc w _ i hi hset (fun j _ => rfl)
    · apply checkNullBit_setNullBit_self
      omega
  · intro hd hn
    have hcuf : checkUnsetFields toTs sc w = (.FIELD_UNSET, w) := by
      rw [hmain, checkUnsetGo, if_neg (by rw [hunset]; exact Bool.false_ne_true),
        if_pos ⟨by simp [hn], by simp [hd]⟩]
    refine ⟨hcuf, ?_⟩
    unfold finish
    rw [hcuf]

theorem c6_unset_field_dispatch_witness :
    checkUnsetFields tsId sc6 w6 = (.FIELD_UNSET, w6) ∧
    finish tsId sc6 w6 (List.replicate 8 0) = (.FIELD_UNSET, w6) :=
  (c6_unset_field_dispatch tsId sc6 w6 0 (List.replicate 8 0) (by decide)
    (by decide) (by decide) (by decide) (by decide) (by decide)).2.2 rfl rfl

/-- C9: an unset field whose default evaluates to NULL takes the
null-bit path of checkUnsetFields without any nullable check, so
finish proceeds with SUCCEEDED even when the field is not nullable. -/
theorem c9_null_default_skips_nullable_check (toTs : Int → Option Int)
    (sc : Schema) (w : Writer) (i : Nat)
    (hi : i < sc.numFields)
    (hset : ∀ j, j < sc.numFields → j ≠ i → w.isSet.getD j false = true)
    (hunset : w.isSet.getD i false = false)
    (hd : (sc.fieldAt i).hasDefault = true)
    (hdv : (sc.fieldAt i).defaultVal = .nullV false)
    (hposA : (sc.fieldAt i).nullFlagPos < 8 * w.numNullBytes)
    (hnnb : w.headerLen + w.numNullBytes ≤ w.buf.length) :
    checkUnsetFields toTs sc w =
      (.SUCCEEDED,
        { w with
            buf := setNullBitBuf w.buf w.headerLen
              (sc.fieldAt i).nullFlagPos }) ∧
    checkNullBitBuf
      (setNullBitBuf w.buf w.headerLen (sc.fieldAt i).nullFlagPos)
      w.headerLen (sc.fieldAt i).nullFlagPos = true := by
  have hmain := checkUnsetFields_focus toTs sc w i hi hset
  have hroute : routeDefault toTs sc w i (sc.fieldAt i) =
      (.SUCCEEDED,
        { w with
            buf := setNullBitBuf w.buf w.headerLen
              (sc.fieldAt i).nullFlagPos }) := by
    unfold routeDefault
    rw [hdv]
  constructor
  · rw [hmain, checkUnsetGo, if_neg (by rw [hunset]; exact Bool.false_ne_true),
      if_neg (by simp [hd]), if_pos (by simp [hd]), hroute]
    exact checkUnsetGo_tail_set toTs sc w _ i hi hset (fun j _ => rfl)
  · apply checkNullBit_setNullBit_self
    omega

theorem c9_null_default_skips_nullable_check_witness :
    checkUnsetFields tsId sc9 w9 =
      (.SUCCEEDED,
        { w9 with
            buf := setNullBitBuf w9.buf w9.headerLen
              (sc9.fieldAt 0).nullFlagPos }) ∧
    checkNullBitBuf
      (setNullBitBuf w9.buf w9.headerLen (sc9.fieldAt 0).nullFlagPos)
      w9.headerLen (sc9.fieldAt 0).nullFlagPos = true :=
  c9_null_default_skips_nullable_check tsId sc9 w9 0 (by decide) (by decide)
    (by decide) (by decide) rfl (by decide) (by decide)


/-- C8: reseeding a writer from an existing encoded record strips the
trailing eight timestamp bytes, keeps the decoded header geometry, only
succeeds when the decoded version equals the schema version, marks every
field set, computes approxStrLen from the stripped payload, and a
subsequent setValue of a string on a STRING field immediately latches
the out-of-space mode. -/
theorem c8_reseed (toTs : Int → Option Int) (sc : Schema)
    (encoded : List Byte) (w : Writer) (i : Nat) (s : List Byte)
    (h : rowWriterFromEncoded sc encoded = some w)
    (hi : i < sc.numFields)
    (hty : (sc.fieldAt i).type = .STRING) :
    w.buf = encoded.take (encoded.length - 8) ∧
    w.headerLen = (w.buf.getD 0 0 &&& 0x07) + 1 ∧
    w.numNullBytes = sc.numNullBytes ∧
    readLE (w.buf.getD 0 0 &&& 0x07) w.buf 1 = sc.version ∧
    w.isSet = List.replicate sc.numFields true ∧
    w.approxStrLen = (w.buf.length : Int) - w.headerLen - sc.numNullBytes
      - sc.fixedSize - 8 ∧
    w.outOfSpaceStr = false ∧
    (setValue toTs sc w (i : Int) (.strV s)).2.outOfSpaceStr = true := by
  simp only [rowWriterFromEncoded, processV2EncodedStrF] at h
  split at h
  next hc1 => exact Option.noConfusion h
  next hc1 =>
    split at h
    next hc2 => exact Option.noConfusion h
    next hc2 =>
      rw [Option.some.injEq] at h
      subst h
      refine ⟨rfl, rfl, rfl, of_not_not hc2, rfl, rfl, rfl, ?_⟩
      have hset : (List.replicate sc.numFields true).getD i false = true :=
        getD_replicate_of_lt _ _ _ _ hi
      unfold setValue
      rw [if_neg (by omega)]
      exact writeStr_latch sc _ _ s hty hset

theorem c8_reseed_witness :
    w8.buf = enc8.take (enc8.length - 8) ∧
    w8.headerLen = (w8.buf.getD 0 0 &&& 0x07) + 1 ∧
    w8.numNullBytes = sc8.numNullBytes ∧
    readLE (w8.buf.getD 0 0 &&& 0x07) w8.buf 1 = sc8.version ∧
    w8.isSet = List.replicate sc8.numFields true ∧
    w8.approxStrLen = (w8.buf.length : Int) - w8.headerLen - sc8.numNullBytes
      - sc8.fixedSize - 8 ∧
    w8.outOfSpaceStr = false ∧
    (setValue tsId sc8 w8 ((0 : Nat) : Int) (.strV [97])).2.outOfSpaceStr =
      true :=
  c8_reseed tsId sc8 enc8 w8 0 [97] (by decide) (by decide) (by decide)


theorem getD_append_lt_gen {α : Type} (l t : List α) (j : Nat) (d : α)
    (h : j < l.length) : (l ++ t).getD j d = l.getD j d := by
  rw [List.getD_eq_getElem _ _ (by simp; omega), List.getD_eq_getElem _ _ h]
  exact List.getElem_append_left h

theorem getD_snoc_self {α : Type} (l : List α) (a d : α) :
    (l ++ [a]).getD l.length d = a := by
  rw [List.getD_eq_getElem _ _ (by simp)]
  exact List.getElem_concat_length _ _ _ rfl _

theorem getD_set_self_of_lt {α : Type} (l : List α) (i : Nat) (a d : α)
    (h : i < l.length) : (l.set i a).getD i d = a := by
  rw [List.getD_eq_getElem _ _ (by simpa using h)]
  exact List.getElem_set_self _

theorem slotPos_congr (w w2 : Writer) (f : Field)
    (hhl : w2.headerLen = w.headerLen)
    (hnb : w2.numNullBytes = w.numNullBytes) :
    slotPos w2 f = slotPos w f := by
  unfold slotPos
  rw [hhl, hnb]

theorem setBytes_append (x y : List Byte) :
    ∀ (buf : Buf) (p : Nat),
      setBytes buf p (x ++ y) = setBytes (setBytes buf p x) (p + x.length) y := by
  induction x with
  | nil => intro buf p; simp [setBytes]
  | cons b bs ih =>
      intro buf p
      simp only [List.cons_append, setBytes, List.append_eq, ih,
        List.length_cons]
      have h : p + 1 + bs.length = p + (bs.length + 1) := by omega
      rw [h]

theorem headerOf_shape (ver : Nat) (hdr : Nat × List Byte)
    (h : headerOf ver = some hdr) : hdr.2.length = hdr.1 ∧ 1 ≤ hdr.1 := by
  unfold headerOf at h
  split_ifs at h <;> rw [Option.some.injEq] at h <;> subst h <;> simp

theorem withIdx_mem_elem :
    ∀ (fs : List Field) (k : Nat) (p : Nat × Field),
      p ∈ withIdx k fs →
      ∃ j, j < fs.length ∧ p = (k + j, fs.getD j default) := by
  intro fs
  induction fs with
  | nil => intro k p hp; simp [withIdx] at hp
  | cons f fs ih =>
      intro k p hp
      rw [withIdx] at hp
      rcases List.mem_cons.mp hp with h | h
      · exact ⟨0, by simp, by simpa using h⟩
      · obtain ⟨j, hj, rfl⟩ := ih (k + 1) p h
        refine ⟨j + 1, by simpa using by omega, ?_⟩
        have h1 : k + 1 + j = k + (j + 1) := by omega
        rw [h1]
        rfl

theorem withIdx_mem_field (sc : Schema) (p : Nat × Field)
    (hp : p ∈ withIdx 0 sc.fields) :
    p.1 < sc.numFields ∧ p.2 = sc.fieldAt p.1 := by
  obtain ⟨j, hj, rfl⟩ := withIdx_mem_elem sc.fields 0 p hp
  simp only [Nat.zero_add]
  exact ⟨hj, rfl⟩


/-- SlotHolds survives any mutation that keeps the geometry, the slot
bytes of field i and the tail region, only appends to strList, and is
monotone in the out-of-space latch. -/
theorem SlotHolds_agree (sc : Schema) (w w2 : Writer) (i : Nat) (v : List Byte)
    (hhl : w2.headerLen = w.headerLen)
    (hnb : w2.numNullBytes = w.numNullBytes)
    (hlen : w.buf.length ≤ w2.buf.length)
    (hgeom : w.headerLen + w.numNullBytes + sc.fixedSize ≤ w.buf.length)
    (hoff8 : (sc.fieldAt i).offset + 8 ≤ sc.fixedSize)
    (hag : ∀ p, p < w.buf.length →
      ((slotPos w (sc.fieldAt i) ≤ p ∧ p < slotPos w (sc.fieldAt i) + 8) ∨
        w.headerLen + w.numNullBytes + sc.fixedSize ≤ p) →
      w2.buf.getD p 0 = w.buf.getD p 0)
    (hsl : ∃ e, w2.strList = w.strList ++ e)
    (hoos : w.outOfSpaceStr = true → w2.outOfSpaceStr = true)
    (h : SlotHolds sc w i v) : SlotHolds sc w2 i v := by
  have hsp : slotPos w2 (sc.fieldAt i) = slotPos w (sc.fieldAt i) :=
    slotPos_congr w w2 _ hhl hnb
  have hslot8 : slotPos w (sc.fieldAt i) + 8 ≤ w.buf.length := by
    unfold slotPos
    omega
  have hro : readU32 w2.buf (slotPos w (sc.fieldAt i)) =
      readU32 w.buf (slotPos w (sc.fieldAt i)) := by
    apply readLE_congr
    intro j hj
    exact hag _ (by omega) (Or.inl ⟨by omega, by omega⟩)
  have hrl : readU32 w2.buf (slotPos w (sc.fieldAt i) + 4) =
      readU32 w.buf (slotPos w (sc.fieldAt i) + 4) := by
    apply readLE_congr
    intro j hj
    exact hag _ (by omega) (Or.inl ⟨by omega, by omega⟩)
  unfold SlotHolds
  rw [hsp, hro, hrl, hhl, hnb]
  rcases h with ⟨h1, h2, h3, h4⟩ | ⟨h1, h2, h3, h4⟩
  · left
    refine ⟨h1, by omega, h3, ?_⟩
    have hseq : seg w2.buf (readU32 w.buf (slotPos w (sc.fieldAt i)))
        v.length = seg w.buf (readU32 w.buf (slotPos w (sc.fieldAt i)))
        v.length := by
      apply seg_congr
      intro j hj
      exact hag _ (by omega) (Or.inr (by omega))
    rw [hseq]
    exact h4
  · right
    obtain ⟨e, he⟩ := hsl
    refine ⟨h1, hoos h2, ?_, ?_⟩
    · rw [he]
      simp only [List.length_append]
      omega
    · rw [he, getD_append_lt_gen _ _ _ _ h3]
      exact h4

/-- SlotHolds at field i survives a framed mutation of another field. -/
theorem SlotHolds_frame_ne (sc : Schema) (w w2 : Writer) (i j : Nat)
    (v : List Byte)
    (hWF : WFS sc) (hi : i < sc.numFields) (hj : j < sc.numFields)
    (hne : j ≠ i)
    (hty : (sc.fieldAt i).type = .STRING ∨ (sc.fieldAt i).type = .GEOGRAPHY)
    (hgeom : w.headerLen + w.numNullBytes + sc.fixedSize ≤ w.buf.length)
    (hfr : Frame sc j w w2)
    (h : SlotHolds sc w i v) : SlotHolds sc w2 i v := by
  obtain ⟨hhl, hnb2, hlen, hbytes, _, _, _, hsl, hoos⟩ := hfr
  have h8 : 8 ≤ (sc.fieldAt i).size := by
    have hw := (hWF.1 i hi).1
    unfold typeWidth at hw
    rcases hty with hty | hty <;> rw [hty] at hw <;> exact hw
  have hoff8 : (sc.fieldAt i).offset + 8 ≤ sc.fixedSize := by
    have h2 := (hWF.1 i hi).2.1
    omega
  have hszj := (hWF.1 j hj).2.1
  have hdisj := hWF.2 i hi j hj (fun he => hne he.symm)
  apply SlotHolds_agree sc w w2 i v hhl hnb2 hlen hgeom hoff8 ?_ hsl hoos h
  intro p hp hreg
  refine hbytes p hp ?_ ?_
  · unfold slotPos at hreg ⊢
    omega
  · unfold slotPos at hreg
    omega


theorem markSet_buf_len (w : Writer) (f : Field) (i : Nat) :
    (markSet w f i).buf.length = w.buf.length := by
  unfold markSet
  split <;> simp [clearNullBitBuf]

theorem getD_markSet_out (w : Writer) (f : Field) (i p : Nat)
    (hp : f.nullable = true → w.headerLen + f.nullFlagPos / 8 ≠ p) :
    (markSet w f i).buf.getD p 0 = w.buf.getD p 0 := by
  rcases hn : f.nullable with _ | _
  · simp [markSet, hn]
  · simp only [markSet, hn, if_pos]
    exact getD_setByte_ne _ _ _ _ (fun he => hp hn (he.symm))

theorem readU32_markSet_out (w : Writer) (f : Field) (i p : Nat)
    (hp : f.nullable = true → w.headerLen + f.nullFlagPos / 8 < p) :
    readU32 (markSet w f i).buf p = readU32 w.buf p := by
  apply readLE_congr
  intro j hj
  exact getD_markSet_out w f i _ (fun hn => by have := hp hn; omega)

theorem readU32_two_words_lo (buf : Buf) (p a b : Nat)
    (h : p + 8 ≤ buf.length) (ha : a < 2 ^ 32) :
    readU32 (setBytes buf p (le32 a ++ le32 b)) p = a := by
  rw [setBytes_append, length_le32]
  unfold readU32
  have hcg : readLE 4 (setBytes (setBytes buf p (le32 a)) (p + 4) (le32 b)) p =
      readLE 4 (setBytes buf p (le32 a)) p := by
    apply readLE_congr
    intro j hj
    exact getD_setBytes_lt _ _ _ _ (by omega)
  rw [hcg]
  unfold le32
  rw [readLE_setBytes 4 a buf p (by omega)]
  have h2 : (256 : Nat) ^ 4 = 2 ^ 32 := by norm_num
  rw [h2]
  exact Nat.mod_eq_of_lt ha

theorem readU32_two_words_hi (buf : Buf) (p a b : Nat)
    (h : p + 8 ≤ buf.length) (hb : b < 2 ^ 32) :
    readU32 (setBytes buf p (le32 a ++ le32 b)) (p + 4) = b := by
  rw [setBytes_append, length_le32]
  unfold readU32 le32
  rw [readLE_setBytes 4 b _ (p + 4) (by simp; omega)]
  have h2 : (256 : Nat) ^ 4 = 2 ^ 32 := by norm_num
  rw [h2]
  exact Nat.mod_eq_of_lt hb

theorem seg_two_words_out (buf : Buf) (p a b q len : Nat)
    (h : p + 8 ≤ q) :
    seg (setBytes buf p (le32 a ++ le32 b)) q len = seg buf q len := by
  apply seg_setBytes_out
  right
  simp
  omega


theorem slotPos_markSet_upd (w : Writer) (B : Buf) (IS : List Bool)
    (SL : List (List Byte)) (A : Int) (OOS FIN : Bool) (f g : Field)
    (i : Nat) :
    slotPos (markSet ⟨B, w.headerLen, w.numNullBytes, IS, SL, A, OOS, FIN⟩ f i)
      g = slotPos w g := by
  unfold slotPos
  rw [markSet_headerLen, markSet_numNullBytes]

/-- The slot strCore stores for field i references exactly the written
bytes, and the field is marked set. -/
theorem strCore_slot (sc : Schema) (w : Writer) (i : Nat) (v : List Byte)
    (hgeom : w.headerLen + w.numNullBytes + sc.fixedSize ≤ w.buf.length)
    (hoff8 : (sc.fieldAt i).offset + 8 ≤ sc.fixedSize)
    (hposr : (sc.fieldAt i).nullable = true →
      (sc.fieldAt i).nullFlagPos < 8 * w.numNullBytes)
    (hIlen : i < w.isSet.length)
    (hb1 : (strCore w (sc.fieldAt i) i v).2.buf.length < 2 ^ 31)
    (hb2 : (strCore w (sc.fieldAt i) i v).2.strList.length < 2 ^ 31) :
    SlotHolds sc (strCore w (sc.fieldAt i) i v).2 i v ∧
    (strCore w (sc.fieldAt i) i v).2.isSet.getD i false = true := by
  have hpos8 : slotPos w (sc.fieldAt i) + 8 ≤ w.buf.length := by
    unfold slotPos
    omega
  have hposge : w.headerLen + w.numNullBytes ≤ slotPos w (sc.fieldAt i) :=
    slotPos_ge w (sc.fieldAt i)
  rcases hks : w.isSet.getD i false with _ | _
  · rcases hoosw : w.outOfSpaceStr with _ | _
    · -- fresh inline write
      have hres : (strCore w (sc.fieldAt i) i v).2 =
          markSet
            { w with
                buf := setBytes (w.buf ++ v) (slotPos w (sc.fieldAt i))
                  (le32 w.buf.length ++ le32 v.length),
                approxStrLen := w.approxStrLen + v.length }
            (sc.fieldAt i) i := by
        simp only [strCore, hks, Bool.false_eq_true, if_false]
        rw [if_neg (by rw [hoosw]; exact Bool.false_ne_true)]
      rw [hres] at hb1 hb2 ⊢
      have hlen2 : (markSet
          { w with
              buf := setBytes (w.buf ++ v) (slotPos w (sc.fieldAt i))
                (le32 w.buf.length ++ le32 v.length),
              approxStrLen := w.approxStrLen + v.length }
          (sc.fieldAt i) i).buf.length = w.buf.length + v.length := by
        rw [markSet_buf_len]
        simp
      have hw31 : w.buf.length + v.length < 2 ^ 31 := by
        rw [hlen2] at hb1
        exact hb1
      have hmark : ∀ q, (sc.fieldAt i).nullable = true →
          w.headerLen + (sc.fieldAt i).nullFlagPos / 8 < q →
          True := fun _ _ _ => trivial
      have hp8 : slotPos w (sc.fieldAt i) + 8 ≤ (w.buf ++ v).length := by
        simp
        omega
      have hrlo : readU32 (markSet
          { w with
              buf := setBytes (w.buf ++ v) (slotPos w (sc.fieldAt i))
                (le32 w.buf.length ++ le32 v.length),
              approxStrLen := w.approxStrLen + v.length }
          (sc.fieldAt i) i).buf (slotPos w (sc.fieldAt i)) = w.buf.length := by
        rw [readU32_markSet_out _ _ _ _
          (fun hn => by
          have h1 := hposr hn
          have h2 := hposge
          have h3 := hpos8
          dsimp only
          omega)]
        exact readU32_two_words_lo _ _ _ _ hp8 (by omega)
      have hrhi : readU32 (markSet
          { w with
              buf := setBytes (w.buf ++ v) (slotPos w (sc.fieldAt i))
                (le32 w.buf.length ++ le32 v.length),
              approxStrLen := w.approxStrLen + v.length }
          (sc.fieldAt i) i).buf (slotPos w (sc.fieldAt i) + 4) = v.length := by
        rw [readU32_markSet_out _ _ _ _
          (fun hn => by
          have h1 := hposr hn
          have h2 := hposge
          have h3 := hpos8
          dsimp only
          omega)]
        exact readU32_two_words_hi _ _ _ _ hp8 (by omega)
      constructor
      · unfold SlotHolds
        rw [slotPos_markSet_upd, hrlo, hrhi]
        left
        refine ⟨?_, ?_, rfl, ?_⟩
        · rw [markSet_headerLen, markSet_numNullBytes]
          dsimp only
          omega
        · rw [hlen2]
        · rw [seg_markSet _ _ _ _ _ (fun hn => by
          have h1 := hposr hn
          have h2 := hposge
          have h3 := hpos8
          dsimp only
          omega)]
          dsimp only
          rw [seg_two_words_out _ _ _ _ _ _ (by omega)]
          exact seg_append_self w.buf v
      · rw [markSet_isSet]
        exact getD_set_self_of_lt _ _ _ _ hIlen
    · -- already out of space, no latch needed
      have hres : (strCore w (sc.fieldAt i) i v).2 =
          markSet
            { w with
                buf := setBytes w.buf (slotPos w (sc.fieldAt i))
                  (le32 0 ++ le32 ((w.strList ++ [v]).length - 1)),
                strList := w.strList ++ [v],
                approxStrLen := w.approxStrLen + v.length }
            (sc.fieldAt i) i := by
        simp only [strCore, hks, Bool.false_eq_true, if_false]
        rw [if_pos hoosw]
      rw [hres] at hb1 hb2 ⊢
      have hsl31 : w.strList.length < 2 ^ 31 := by
        rw [markSet_strList] at hb2
        simp at hb2
        omega
      have hrlo : readU32 (markSet
          { w with
              buf := setBytes w.buf (slotPos w (sc.fieldAt i))
                (le32 0 ++ le32 ((w.strList ++ [v]).length - 1)),
              strList := w.strList ++ [v],
              approxStrLen := w.approxStrLen + v.length }
          (sc.fieldAt i) i).buf (slotPos w (sc.fieldAt i)) = 0 := by
        rw [readU32_markSet_out _ _ _ _
          (fun hn => by
          have h1 := hposr hn
          have h2 := hposge
          have h3 := hpos8
          dsimp only
          omega)]
        exact readU32_two_words_lo _ _ _ _ hpos8 (by norm_num)
      have hrhi : readU32 (markSet
          { w with
              buf := setBytes w.buf (slotPos w (sc.fieldAt i))
                (le32 0 ++ le32 ((w.strList ++ [v]).length - 1)),
              strList := w.strList ++ [v],
              approxStrLen := w.approxStrLen + v.length }
          (sc.fieldAt i) i).buf (slotPos w (sc.fieldAt i) + 4) =
          w.strList.length := by
        rw [readU32_markSet_out _ _ _ _
          (fun hn => by
          have h1 := hposr hn
          have h2 := hposge
          have h3 := hpos8
          dsimp only
          omega)]
        rw [readU32_two_words_hi _ _ _ _ hpos8 (by simp; omega)]
        simp
      constructor
      · unfold SlotHolds
        rw [slotPos_markSet_upd, hrlo, hrhi]
        right
        refine ⟨rfl, ?_, ?_, ?_⟩
        · rw [markSet_outOfSpaceStr]
          exact hoosw
        · rw [markSet_strList]
          simp
        · rw [markSet_strList]
          exact getD_snoc_self _ _ _
      · rw [markSet_isSet]
        exact getD_set_self_of_lt _ _ _ _ hIlen
  · -- overwrite: latch and push onto strList
    have hres : (strCore w (sc.fieldAt i) i v).2 =
        markSet
          { w with
              buf := setBytes w.buf (slotPos w (sc.fieldAt i))
                (le32 0 ++ le32 ((w.strList ++ [v]).length - 1)),
              strList := w.strList ++ [v],
              approxStrLen := w.approxStrLen + v.length,
              outOfSpaceStr := true }
          (sc.fieldAt i) i := by
      simp only [strCore, hks, if_true]
    rw [hres] at hb1 hb2 ⊢
    have hsl31 : w.strList.length < 2 ^ 31 := by
      rw [markSet_strList] at hb2
      simp at hb2
      omega
    have hrlo : readU32 (markSet
        { w with
            buf := setBytes w.buf (slotPos w (sc.fieldAt i))
              (le32 0 ++ le32 ((w.strList ++ [v]).length - 1)),
            strList := w.strList ++ [v],
            approxStrLen := w.approxStrLen + v.length,
            outOfSpaceStr := true }
        (sc.fieldAt i) i).buf (slotPos w (sc.fieldAt i)) = 0 := by
      rw [readU32_markSet_out _ _ _ _
        (fun hn => by
          have h1 := hposr hn
          have h2 := hposge
          have h3 := hpos8
          dsimp only
          omega)]
      exact readU32_two_words_lo _ _ _ _ hpos8 (by norm_num)
    have hrhi : readU32 (markSet
        { w with
            buf := setBytes w.buf (slotPos w (sc.fieldAt i))
              (le32 0 ++ le32 ((w.strList ++ [v]).length - 1)),
            strList := w.strList ++ [v],
            approxStrLen := w.approxStrLen + v.length,
            outOfSpaceStr := true }
        (sc.fieldAt i) i).buf (slotPos w (sc.fieldAt i) + 4) =
        w.strList.length := by
      rw [readU32_markSet_out _ _ _ _
        (fun hn => by
          have h1 := hposr hn
          have h2 := hposge
          have h3 := hpos8
          dsimp only
          omega)]
      rw [readU32_two_words_hi _ _ _ _ hpos8 (by simp; omega)]
      simp
    constructor
    · unfold SlotHolds
      rw [slotPos_markSet_upd, hrlo, hrhi]
      right
      refine ⟨rfl, ?_, ?_, ?_⟩
      · rw [markSet_outOfSpaceStr]
      · rw [markSet_strList]
        simp
      · rw [markSet_strList]
        exact getD_snoc_self _ _ _
    · rw [markSet_isSet]
      exact getD_set_self_of_lt _ _ _ _ hIlen


/-- Geometry facts extracted from a framed mutation. -/
theorem geom_of_frame (sc : Schema) (t : Nat) (w w2 : Writer)
    (hfr : Frame sc t w w2)
    (hgeom : w.headerLen + w.numNullBytes + sc.fixedSize ≤ w.buf.length)
    (hnb : w.numNullBytes = sc.numNullBytes)
    (hIS : w.isSet.length = sc.numFields) :
    (w2.headerLen + w2.numNullBytes + sc.fixedSize ≤ w2.buf.length ∧
      w2.numNullBytes = sc.numNullBytes ∧ w2.isSet.length = sc.numFields) ∧
    w2.headerLen = w.headerLen ∧ w2.numNullBytes = w.numNullBytes ∧
    w.buf.length ≤ w2.buf.length ∧ (∃ e, w2.strList = w.strList ++ e) ∧
    (w.outOfSpaceStr = true → w2.outOfSpaceStr = true) := by
  obtain ⟨hhl, hnb2, hlen, _, _, _, hISlen, hsl, hoos⟩ := hfr
  refine ⟨⟨?_, hnb2.trans hnb, hISlen.trans hIS⟩, hhl, hnb2, hlen, hsl, hoos⟩
  rw [hhl, hnb2]
  omega

/-- Every operation either leaves the writer unchanged or is a framed
mutation of one in-bounds field. -/
theorem applyOp_frame (toTs : Int → Option Int) (sc : Schema) (w : Writer)
    (op : Op) (hWF : WFS sc)
    (hnnb : w.headerLen + w.numNullBytes ≤ w.buf.length)
    (hnb : w.numNullBytes = sc.numNullBytes) :
    applyOp toTs sc w op = w ∨
    ∃ t, t < sc.numFields ∧ Frame sc t w (applyOp toTs sc w op) := by
  rcases op with ⟨j, val⟩ | j
  · by_cases hb : j < 0 ∨ (sc.numFields : Int) ≤ j
    · left
      show (setValue toTs sc w j val).2 = w
      unfold setValue
      rw [if_pos hb]
    · right
      have hjn : j.toNat < sc.numFields := by omega
      exact ⟨j.toNat, hjn, frame_setValue toTs sc w j val
        ((hWF.1 _ hjn).1)
        (fun hn => by rw [hnb]; exact (hWF.1 _ hjn).2.2.1 hn) hnnb⟩
  · by_cases hb : j < 0 ∨ (sc.numFields : Int) ≤ j
    · left
      show (setNull sc w j).2 = w
      unfold setNull
      rw [if_pos hb]
    · right
      have hjn : j.toNat < sc.numFields := by omega
      exact ⟨j.toNat, hjn, frame_setNull sc w j
        (fun hn => by rw [hnb]; exact (hWF.1 _ hjn).2.2.1 hn) hnnb⟩

/-- Geometry and monotonicity of a whole operation run. -/
theorem runOps_mono (toTs : Int → Option Int) (sc : Schema) (hWF : WFS sc) :
    ∀ (ops : List Op) (w : Writer),
      w.headerLen + w.numNullBytes + sc.fixedSize ≤ w.buf.length →
      w.numNullBytes = sc.numNullBytes →
      w.isSet.length = sc.numFields →
      (runOps toTs sc w ops).headerLen = w.headerLen ∧
      (runOps toTs sc w ops).numNullBytes = w.numNullBytes ∧
      (runOps toTs sc w ops).isSet.length = sc.numFields ∧
      (runOps toTs sc w ops).headerLen + (runOps toTs sc w ops).numNullBytes +
        sc.fixedSize ≤ (runOps toTs sc w ops).buf.length ∧
      w.buf.length ≤ (runOps toTs sc w ops).buf.length ∧
      (∃ e, (runOps toTs sc w ops).strList = w.strList ++ e) ∧
      (w.outOfSpaceStr = true → (runOps toTs sc w ops).outOfSpaceStr = true) := by
  intro ops
  induction ops with
  | nil =>
      intro w h1 h2 h3
      exact ⟨rfl, rfl, h3, h1, Nat.le_refl _, ⟨[], by simp [runOps]⟩,
        fun h => h⟩
  | cons op ops ih =>
      intro w h1 h2 h3
      have hrw : runOps toTs sc w (op :: ops) =
          runOps toTs sc (applyOp toTs sc w op) ops := rfl
      rcases applyOp_frame toTs sc w op hWF (by omega) h2 with heq | ⟨t, ht, hfr⟩
      · rw [hrw, heq]
        exact ih w h1 h2 h3
      · obtain ⟨⟨g1, g2, g3⟩, e1, e2, e3, ⟨e0, he0⟩, e5⟩ :=
          geom_of_frame sc t w _ hfr h1 h2 h3
        obtain ⟨r1, r2, r3, r4, r5, ⟨e, he⟩, r7⟩ :=
          ih (applyOp toTs sc w op) g1 g2 g3
        rw [hrw]
        refine ⟨r1.trans e1, r2.trans e2, r3, r4, Nat.le_trans e3 r5,
          ⟨e0 ++ e, ?_⟩, fun h => r7 (e5 h)⟩
        rw [he, he0, List.append_assoc]



/-- When the dispatch stores string bytes, setValue is exactly the
shared STRING/GEOGRAPHY body. -/
theorem setValue_strCore (toTs : Int → Option Int) (sc : Schema) (w : Writer)
    (j : Int) (val : Value) (s : List Byte)
    (hb : ¬(j < 0 ∨ (sc.numFields : Int) ≤ j))
    (hsw : strWriteOf sc j.toNat val = some s) :
    setValue toTs sc w j val = strCore w (sc.fieldAt j.toNat) j.toNat s := by
  unfold setValue
  rw [if_neg hb]
  rcases val with
    bad | b | v | q | s0 | ⟨y, m, d⟩ | ⟨h2, mi, s2, ms⟩ |
    ⟨y, mo, d, h2, mi, s2, ms⟩ | ⟨s2, ms, mo⟩ | ⟨sh, wkb⟩ | vals | vals
  case strV =>
    simp only [strWriteOf] at hsw
    have hft : (sc.fieldAt j.toNat).type = .STRING := by
      by_contra h1
      rcases hft : (sc.fieldAt j.toNat).type <;> rw [hft] at hsw <;>
        first
          | exact h1 hft
          | simp at hsw
    rw [hft] at hsw
    simp at hsw
    subst hsw
    show writeStr sc w j.toNat s0 false = _
    simp only [writeStr]
    rw [hft]
  case geoV =>
    simp only [strWriteOf] at hsw
    by_cases hg : (sc.fieldAt j.toNat).geoShape ≠ 0 ∧
        (sc.fieldAt j.toNat).geoShape ≠ sh
    · rw [if_pos hg] at hsw
      simp at hsw
    · rw [if_neg hg] at hsw
      have hty : (sc.fieldAt j.toNat).type = .STRING ∨
          (sc.fieldAt j.toNat).type = .GEOGRAPHY := by
        by_contra hc
        push_neg at hc
        obtain ⟨h1, h2⟩ := hc
        rcases hft : (sc.fieldAt j.toNat).type <;> rw [hft] at hsw <;>
          first
            | exact h1 hft
            | exact h2 hft
            | simp at hsw
      rcases hty with hft | hft
      · rw [hft] at hsw
        simp at hsw
        subst hsw
        show writeGeo sc w j.toNat sh wkb = _
        simp only [writeGeo]
        rw [if_neg hg]
        simp only [writeStr]
        rw [hft]
      · rw [hft] at hsw
        simp at hsw
        subst hsw
        show writeGeo sc w j.toNat sh wkb = _
        simp only [writeGeo]
        rw [if_neg hg]
        simp only [writeStr]
        rw [hft]
        rw [if_neg (by simp)]
  all_goals simp [strWriteOf] at hsw

/-- When the dispatch stores no string bytes on a STRING/GEOGRAPHY
field, the state is unchanged, a pure null-bit set, or a tail append of
four count bytes. -/
theorem setValue_str_none (toTs : Int → Option Int) (sc : Schema) (w : Writer)
    (j : Int) (val : Value)
    (hb : ¬(j < 0 ∨ (sc.numFields : Int) ≤ j))
    (hT : (sc.fieldAt j.toNat).type = .STRING ∨
      (sc.fieldAt j.toNat).type = .GEOGRAPHY)
    (hsw : strWriteOf sc j.toNat val = none) :
    (setValue toTs sc w j val).2 = w ∨
    (setValue toTs sc w j val).2 = (setNullIdx sc w j.toNat).2 ∨
    (∃ k w1, (w1 = w ∨ w1 = { w with outOfSpaceStr := true }) ∧
      (setValue toTs sc w j val).2 = { w1 with buf := w1.buf ++ le32 k }) := by
  unfold setValue
  rw [if_neg hb]
  rcases val with
    bad | b | v | q | s0 | ⟨y, m, d⟩ | ⟨h2, mi, s2, ms⟩ |
    ⟨y, mo, d, h2, mi, s2, ms⟩ | ⟨s2, ms, mo⟩ | ⟨sh, wkb⟩ | vals | vals
  · rcases bad with _ | _
    · right; left; rfl
    · left; rfl
  · left
    rcases hT with hft | hft <;> simp [writeBool, hft]
  · left
    rcases hT with hft | hft <;> simp [writeInt64, hft]
  · left
    rcases hT with hft | hft <;> simp [writeDouble, hft]
  · rcases hT with hft | hft
    · exfalso
      simp only [strWriteOf] at hsw
      rw [hft] at hsw
      simp at hsw
    · left
      simp [writeStr, hft]
  · left
    rcases hT with hft | hft <;> simp [writeDate, hft]
  · left
    rcases hT with hft | hft <;> simp [writeTime, hft]
  · left
    rcases hT with hft | hft <;> simp [writeDateTime, hft]
  · left
    rcases hT with hft | hft <;> simp [writeDuration, hft]
  · by_cases hg : (sc.fieldAt j.toNat).geoShape ≠ 0 ∧
        (sc.fieldAt j.toNat).geoShape ≠ sh
    · left
      simp [writeGeo, hg]
    · exfalso
      simp only [strWriteOf] at hsw
      rw [if_neg hg] at hsw
      rcases hT with hft | hft <;> rw [hft] at hsw <;> simp at hsw
  · right; right
    rcases hks : w.isSet.getD j.toNat false with _ | _
    · refine ⟨vals.length, w, Or.inl rfl, ?_⟩
      rcases hT with hft | hft <;>
        (simp only [writeListV, hft]
         rw [if_neg (by rw [hks]; exact Bool.false_ne_true)])
    · refine ⟨vals.length, { w with outOfSpaceStr := true }, Or.inr rfl, ?_⟩
      rcases hT with hft | hft <;>
        (simp only [writeListV, hft]
         rw [if_pos hks])
  · right; right
    rcases hks : w.isSet.getD j.toNat false with _ | _
    · refine ⟨vals.length, w, Or.inl rfl, ?_⟩
      rcases hT with hft | hft <;>
        (simp only [writeSetV, hft]
         rw [if_neg (by rw [hks]; exact Bool.false_ne_true)])
    · refine ⟨vals.length, { w with outOfSpaceStr := true }, Or.inr rfl, ?_⟩
      rcases hT with hft | hft <;>
        (simp only [writeSetV, hft]
         rw [if_pos hks])


theorem hoff8_of (sc : Schema) (i : Nat) (hWF : WFS sc)
    (hi : i < sc.numFields)
    (hy : (sc.fieldAt i).type = .STRING ∨ (sc.fieldAt i).type = .GEOGRAPHY) :
    (sc.fieldAt i).offset + 8 ≤ sc.fixedSize := by
  have h1 := (hWF.1 i hi).1
  have h2 := (hWF.1 i hi).2.1
  unfold typeWidth at h1
  rcases hy with hty | hty <;> rw [hty] at h1 <;> simp at h1 <;> omega

theorem strWriteOf_some_type (sc : Schema) (i : Nat) (val : Value)
    (s : List Byte) (hsw : strWriteOf sc i val = some s) :
    (sc.fieldAt i).type = .STRING ∨ (sc.fieldAt i).type = .GEOGRAPHY := by
  rcases val with
    bad | b | v | q | s0 | ⟨y, m, d⟩ | ⟨h2, mi, s2, ms⟩ |
    ⟨y, mo, d, h2, mi, s2, ms⟩ | ⟨s2, ms, mo⟩ | ⟨sh, wkb⟩ | vals | vals
  case strV =>
    simp only [strWriteOf] at hsw
    rcases hft : (sc.fieldAt i).type <;> rw [hft] at hsw <;>
      first
        | exact Or.inl rfl
        | exact Or.inr rfl
        | simp at hsw
  case geoV =>
    simp only [strWriteOf] at hsw
    by_cases hg : (sc.fieldAt i).geoShape ≠ 0 ∧ (sc.fieldAt i).geoShape ≠ sh
    · rw [if_pos hg] at hsw
      simp at hsw
    · rw [if_neg hg] at hsw
      rcases hft : (sc.fieldAt i).type <;> rw [hft] at hsw <;>
        first
          | exact Or.inl rfl
          | exact Or.inr rfl
          | simp at hsw
  all_goals simp [strWriteOf] at hsw

/-- The invariant survives setNullIdx (a null-bit set plus isSet). -/
theorem StrInv_setNullIdx (sc : Schema) (w : Writer)
    (L : Nat → Option (List Byte)) (jn : Nat)
    (hWF : WFS sc) (hjn : jn < sc.numFields)
    (hinv : StrInv sc w L) :
    StrInv sc (setNullIdx sc w jn).2 L := by
  obtain ⟨hgeom, hnbeq, hISlen, htrack⟩ := hinv
  unfold setNullIdx
  rcases hn : (sc.fieldAt jn).nullable with _ | _
  · rw [if_pos (by simp [hn])]
    exact ⟨hgeom, hnbeq, hISlen, htrack⟩
  · rw [if_neg (by simp [hn])]
    have hposb : (sc.fieldAt jn).nullFlagPos < 8 * w.numNullBytes := by
      rw [hnbeq]
      exact (hWF.1 _ hjn).2.2.1 hn
    refine ⟨by simp [setNullBitBuf]; omega, hnbeq,
      by simp only [List.length_set]; exact hISlen, ?_⟩
    intro i hi hy v hLv
    obtain ⟨hIS, hSH⟩ := htrack i hi hy v hLv
    constructor
    · by_cases hij : i = jn
      · subst hij
        exact getD_set_self_of_lt _ _ _ _ (by omega)
      · rw [getD_set_ne _ _ _ _ _ hij]
        exact hIS
    · refine SlotHolds_agree sc w _ i v ?_ ?_ ?_ hgeom
        (hoff8_of sc i hWF hi hy) ?_ ⟨[], by simp⟩ (fun h => h) hSH
      · rfl
      · rfl
      · simp [setNullBitBuf]
      · intro p hp hreg
        show (setNullBitBuf w.buf w.headerLen
          (sc.fieldAt jn).nullFlagPos).getD p 0 = w.buf.getD p 0
        unfold setNullBitBuf
        apply getD_setByte_ne
        unfold slotPos at hreg
        omega

/-- The invariant survives a pure tail append (dead count bytes),
possibly with the out-of-space latch raised. -/
theorem StrInv_tail_append (sc : Schema) (w : Writer)
    (L : Nat → Option (List Byte)) (k : Nat) (w1 : Writer)
    (hWF : WFS sc)
    (hw1 : w1 = w ∨ w1 = { w with outOfSpaceStr := true })
    (hinv : StrInv sc w L) :
    StrInv sc { w1 with buf := w1.buf ++ le32 k } L := by
  obtain ⟨hgeom, hnbeq, hISlen, htrack⟩ := hinv
  have hW : w1.buf = w.buf ∧ w1.headerLen = w.headerLen ∧
      w1.numNullBytes = w.numNullBytes ∧ w1.isSet = w.isSet ∧
      w1.strList = w.strList ∧
      (w.outOfSpaceStr = true → w1.outOfSpaceStr = true) := by
    rcases hw1 with rfl | rfl
    · exact ⟨rfl, rfl, rfl, rfl, rfl, fun h => h⟩
    · exact ⟨rfl, rfl, rfl, rfl, rfl, fun _ => rfl⟩
  obtain ⟨hb, hh, hn2, hisv, hstr, hoo⟩ := hW
  refine ⟨?_, ?_, ?_, ?_⟩
  · show w1.headerLen + w1.numNullBytes + sc.fixedSize ≤
      (w1.buf ++ le32 k).length
    rw [hh, hn2, hb]
    simp only [List.length_append]
    omega
  · show w1.numNullBytes = sc.numNullBytes
    rw [hn2]
    exact hnbeq
  · show w1.isSet.length = sc.numFields
    rw [hisv]
    exact hISlen
  · intro i hi hy v hLv
    obtain ⟨hIS, hSH⟩ := htrack i hi hy v hLv
    constructor
    · show w1.isSet.getD i false = true
      rw [hisv]
      exact hIS
    · refine SlotHolds_agree sc w _ i v ?_ ?_ ?_ hgeom
        (hoff8_of sc i hWF hi hy) ?_ ?_ ?_ hSH
      · exact hh
      · exact hn2
      · show w.buf.length ≤ (w1.buf ++ le32 k).length
        rw [hb]
        simp
      · intro p hp hreg
        show (w1.buf ++ le32 k).getD p 0 = w.buf.getD p 0
        rw [hb]
        exact getD_append_lt _ _ _ hp
      · refine ⟨[], ?_⟩
        show w1.strList = w.strList ++ []
        rw [hstr, List.append_nil]
      · exact fun h => hoo h

/-- The invariant survives a framed mutation of a field that carries no
tracked string value. -/
theorem StrInv_frame_step (sc : Schema) (w w2 : Writer)
    (L : Nat → Option (List Byte)) (t : Nat)
    (hWF : WFS sc) (ht : t < sc.numFields)
    (hfr : Frame sc t w w2)
    (hinv : StrInv sc w L)
    (hnt : ∀ v, L t = some v →
      ((sc.fieldAt t).type = .STRING ∨ (sc.fieldAt t).type = .GEOGRAPHY) →
      False) :
    StrInv sc w2 L := by
  obtain ⟨hgeom, hnbeq, hISlen, htrack⟩ := hinv
  obtain ⟨⟨g1, g2, g3⟩, _⟩ :=
    geom_of_frame sc t w w2 hfr hgeom hnbeq hISlen
  refine ⟨g1, g2, g3, ?_⟩
  intro i hi hy v hLv
  by_cases hit : i = t
  · subst hit
    exact (hnt v hLv hy).elim
  · obtain ⟨hIS, hSH⟩ := htrack i hi hy v hLv
    have hfr2 := hfr
    obtain ⟨_, _, _, _, _, hISp, _, _, _⟩ := hfr2
    refine ⟨?_, SlotHolds_frame_ne sc w w2 i t v hWF hi ht
      (fun he => hit he.symm) hy hgeom hfr hSH⟩
    rw [hISp i hit]
    exact hIS


/-- One operation preserves the invariant with the updated ghost map. -/
theorem stepInv (toTs : Int → Option Int) (sc : Schema) (op : Op) (w : Writer)
    (L : Nat → Option (List Byte)) (hWF : WFS sc)
    (hinv : StrInv sc w L)
    (hb1 : (applyOp toTs sc w op).buf.length < 2 ^ 31)
    (hb2 : (applyOp toTs sc w op).strList.length < 2 ^ 31) :
    StrInv sc (applyOp toTs sc w op) (updLast sc L op) := by
  obtain ⟨hgeom, hnbeq, hISlen, htrack⟩ := hinv
  have hinv2 : StrInv sc w L := ⟨hgeom, hnbeq, hISlen, htrack⟩
  rcases op with ⟨j, val⟩ | j
  · by_cases hbnd : j < 0 ∨ (sc.numFields : Int) ≤ j
    · have heq : applyOp toTs sc w (Op.setv j val) = w := by
        show (setValue toTs sc w j val).2 = w
        unfold setValue
        rw [if_pos hbnd]
      have hupd : updLast sc L (Op.setv j val) = L := by
        simp only [updLast]
        rw [if_pos hbnd]
      rw [heq, hupd]
      exact hinv2
    · have hjn : j.toNat < sc.numFields := by omega
      rcases hsw : strWriteOf sc j.toNat val with _ | s
      · -- no string stored
        have hupd : updLast sc L (Op.setv j val) = L := by
          simp only [updLast]
          rw [if_neg hbnd, hsw]
        rw [hupd]
        by_cases hT : (sc.fieldAt j.toNat).type = .STRING ∨
            (sc.fieldAt j.toNat).type = .GEOGRAPHY
        · rcases setValue_str_none toTs sc w j val hbnd hT hsw with
            heq | heq | ⟨k, w1, hw1, heq⟩
          · show StrInv sc (setValue toTs sc w j val).2 L
            rw [heq]
            exact hinv2
          · show StrInv sc (setValue toTs sc w j val).2 L
            rw [heq]
            exact StrInv_setNullIdx sc w L j.toNat hWF hjn hinv2
          · show StrInv sc (setValue toTs sc w j val).2 L
            rw [heq]
            exact StrInv_tail_append sc w L k w1 hWF hw1 hinv2
        · have hfr : Frame sc j.toNat w (applyOp toTs sc w (Op.setv j val)) :=
            frame_setValue toTs sc w j val ((hWF.1 _ hjn).1)
              (fun hn => by rw [hnbeq]; exact (hWF.1 _ hjn).2.2.1 hn)
              (by omega)
          exact StrInv_frame_step sc w _ L j.toNat hWF hjn hfr hinv2
            (fun v hLv hy => hT hy)
      · -- string stored
        have hcall := setValue_strCore toTs sc w j val s hbnd hsw
        have happ : applyOp toTs sc w (Op.setv j val) =
            (strCore w (sc.fieldAt j.toNat) j.toNat s).2 :=
          congrArg Prod.snd hcall
        have hupd : updLast sc L (Op.setv j val) =
            fun k => if k = j.toNat then some s else L k := by
          simp only [updLast]
          rw [if_neg hbnd, hsw]
        have hTy := strWriteOf_some_type sc j.toNat val s hsw
        rw [happ] at hb1 hb2 ⊢
        rw [hupd]
        have hfr : Frame sc j.toNat w
            (strCore w (sc.fieldAt j.toNat) j.toNat s).2 := by
          have h := frame_setValue toTs sc w j val ((hWF.1 _ hjn).1)
            (fun hn => by rw [hnbeq]; exact (hWF.1 _ hjn).2.2.1 hn)
            (by omega)
          rw [show (setValue toTs sc w j val).2 =
            (strCore w (sc.fieldAt j.toNat) j.toNat s).2 from
            congrArg Prod.snd hcall] at h
          exact h
        obtain ⟨⟨g1, g2, g3⟩, _⟩ :=
          geom_of_frame sc j.toNat w _ hfr hgeom hnbeq hISlen
        have hslot := strCore_slot sc w j.toNat s hgeom
          (hoff8_of sc j.toNat hWF hjn hTy)
          (fun hn => by rw [hnbeq]; exact (hWF.1 _ hjn).2.2.1 hn)
          (by omega) hb1 hb2
        refine ⟨g1, g2, g3, ?_⟩
        intro i hi hy v hLv
        by_cases hij : i = j.toNat
        · subst hij
          simp at hLv
          subst hLv
          exact ⟨hslot.2, hslot.1⟩
        · simp only [] at hLv
          rw [if_neg hij] at hLv
          obtain ⟨hIS, hSH⟩ := htrack i hi hy v hLv
          have hfr2 := hfr
          obtain ⟨_, _, _, _, _, hISp, _, _, _⟩ := hfr2
          refine ⟨?_, SlotHolds_frame_ne sc w _ i j.toNat v hWF hi hjn
            (fun he => hij he.symm) hy hgeom hfr hSH⟩
          rw [hISp i hij]
          exact hIS
  · -- setNull operation
    have hupd : updLast sc L (Op.setNullOp j) = L := rfl
    rw [hupd]
    by_cases hbnd : j < 0 ∨ (sc.numFields : Int) ≤ j
    · have heq : applyOp toTs sc w (Op.setNullOp j) = w := by
        show (setNull sc w j).2 = w
        unfold setNull
        rw [if_pos hbnd]
      rw [heq]
      exact hinv2
    · have hjn : j.toNat < sc.numFields := by omega
      have heq : applyOp toTs sc w (Op.setNullOp j) =
          (setNullIdx sc w j.toNat).2 := by
        show (setNull sc w j).2 = _
        unfold setNull
        rw [if_neg hbnd]
      rw [heq]
      exact StrInv_setNullIdx sc w L j.toNat hWF hjn hinv2


/-- The invariant holds after any operation run whose final state fits
int32 offsets. -/
theorem runOps_inv (toTs : Int → Option Int) (sc : Schema) (hWF : WFS sc) :
    ∀ (ops : List Op) (w : Writer) (L : Nat → Option (List Byte)),
      StrInv sc w L →
      (runOps toTs sc w ops).buf.length < 2 ^ 31 →
      (runOps toTs sc w ops).strList.length < 2 ^ 31 →
      StrInv sc (runOps toTs sc w ops) (ops.foldl (updLast sc) L) := by
  intro ops
  induction ops with
  | nil => intro w L hinv _ _; exact hinv
  | cons op ops ih =>
      intro w L hinv hf1 hf2
      have hgeom := hinv.1
      have hnbeq := hinv.2.1
      have hISlen := hinv.2.2.1
      have hrw : runOps toTs sc w (op :: ops) =
          runOps toTs sc (applyOp toTs sc w op) ops := rfl
      have hg1 : (applyOp toTs sc w op).headerLen +
          (applyOp toTs sc w op).numNullBytes + sc.fixedSize ≤
          (applyOp toTs sc w op).buf.length ∧
          (applyOp toTs sc w op).numNullBytes = sc.numNullBytes ∧
          (applyOp toTs sc w op).isSet.length = sc.numFields := by
        rcases applyOp_frame toTs sc w op hWF (by omega) hnbeq with
          heq | ⟨t, ht, hfr⟩
        · rw [heq]
          exact ⟨hgeom, hnbeq, hISlen⟩
        · exact (geom_of_frame sc t w _ hfr hgeom hnbeq hISlen).1
      obtain ⟨_, _, _, _, hm5, ⟨e0, he0⟩, _⟩ :=
        runOps_mono toTs sc hWF ops (applyOp toTs sc w op) hg1.1 hg1.2.1
          hg1.2.2
      rw [hrw] at hf1 hf2 ⊢
      have hb1 : (applyOp toTs sc w op).buf.length < 2 ^ 31 := by omega
      have hb2 : (applyOp toTs sc w op).strList.length < 2 ^ 31 := by
        have hlen : (runOps toTs sc (applyOp toTs sc w op) ops).strList.length
            = (applyOp toTs sc w op).strList.length + e0.length := by
          rw [he0]
          simp
        omega
      exact ih (applyOp toTs sc w op) (updLast sc L op)
        (stepInv toTs sc op w L hWF hinv hb1 hb2) hf1 hf2


/-- The invariant survives setting one bit inside the null bitmap. -/
theorem StrInv_setBitBuf (sc : Schema) (w : Writer)
    (L : Nat → Option (List Byte)) (pos : Nat)
    (hpos : pos < 8 * w.numNullBytes) (hWF : WFS sc)
    (hinv : StrInv sc w L) :
    StrInv sc { w with buf := setNullBitBuf w.buf w.headerLen pos } L := by
  obtain ⟨hgeom, hnbeq, hISlen, htrack⟩ := hinv
  refine ⟨by simp [setNullBitBuf]; omega, hnbeq, hISlen, ?_⟩
  intro i hi hy v hLv
  obtain ⟨hIS, hSH⟩ := htrack i hi hy v hLv
  refine ⟨hIS, ?_⟩
  refine SlotHolds_agree sc w _ i v ?_ ?_ ?_ hgeom
    (hoff8_of sc i hWF hi hy) ?_ ⟨[], by simp⟩ (fun h => h) hSH
  · rfl
  · rfl
  · simp [setNullBitBuf]
  · intro p hp hreg
    show (setNullBitBuf w.buf w.headerLen pos).getD p 0 = w.buf.getD p 0
    unfold setNullBitBuf
    apply getD_setByte_ne
    unfold slotPos at hreg
    omega

/-- The defaults walk of checkUnsetFields preserves the invariant and
only grows the buffer and strList. -/
theorem checkUnsetGo_inv (toTs : Int → Option Int) (sc : Schema)
    (hWF : WFS sc) (L : Nat → Option (List Byte)) :
    ∀ (l : List (Nat × Field)) (w : Writer),
      (∀ p ∈ l, p.1 < sc.numFields ∧ p.2 = sc.fieldAt p.1) →
      StrInv sc w L →
      StrInv sc (checkUnsetGo toTs sc w l).2 L ∧
      (checkUnsetGo toTs sc w l).2.headerLen = w.headerLen ∧
      (checkUnsetGo toTs sc w l).2.numNullBytes = w.numNullBytes ∧
      w.buf.length ≤ (checkUnsetGo toTs sc w l).2.buf.length ∧
      (∃ e, (checkUnsetGo toTs sc w l).2.strList = w.strList ++ e) ∧
      (w.outOfSpaceStr = true →
        (checkUnsetGo toTs sc w l).2.outOfSpaceStr = true) := by
  intro l
  induction l with
  | nil =>
      intro w _ hinv
      exact ⟨hinv, rfl, rfl, Nat.le_refl _, ⟨[], by simp [checkUnsetGo]⟩,
        fun h => h⟩
  | cons p rest ih =>
      obtain ⟨idx, f⟩ := p
      intro w hval hinv
      have hidx := (hval (idx, f) (by simp)).1
      have hfeq := (hval (idx, f) (by simp)).2
      simp only at hfeq hidx
      subst hfeq
      by_cases hset : w.isSet.getD idx false = true
      · rw [checkUnsetGo, if_pos hset]
        exact ih w (fun q hq => hval q (by simp [hq])) hinv
      · rw [checkUnsetGo, if_neg hset]
        by_cases h2 : ¬(sc.fieldAt idx).nullable ∧ ¬(sc.fieldAt idx).hasDefault
        · rw [if_pos h2]
          exact ⟨hinv, rfl, rfl, Nat.le_refl _, ⟨[], by simp⟩, fun h => h⟩
        · rw [if_neg h2]
          by_cases h3 : (sc.fieldAt idx).hasDefault = true
          · rw [if_pos h3]
            rcases hroute : routeDefault toTs sc w idx (sc.fieldAt idx) with
              ⟨r, w1⟩
            have hfr : Frame sc idx w w1 := by
              have h := frame_routeDefault toTs sc w idx ((hWF.1 _ hidx).1)
                (fun hn => by
                  rw [hinv.2.1]
                  exact (hWF.1 _ hidx).2.2.1 hn)
                (fun hnl => by
                  rw [hinv.2.1]
                  exact (hWF.1 _ hidx).2.2.2 h3 hnl)
                (by have := hinv.1; omega)
              rw [hroute] at h
              exact h
            have hinv1 : StrInv sc w1 L :=
              StrInv_frame_step sc w w1 L idx hWF hidx hfr hinv
                (fun v hLv hy =>
                  hset ((hinv.2.2.2 idx hidx hy v hLv).1))
            obtain ⟨⟨g1, g2, g3⟩, e1, e2, e3, he4, e5⟩ :=
              geom_of_frame sc idx w w1 hfr hinv.1 hinv.2.1 hinv.2.2.1
            cases r
            · obtain ⟨rInv, r2, r3, r4, ⟨e, he⟩, r7⟩ :=
                ih w1 (fun q hq => hval q (by simp [hq])) hinv1
              obtain ⟨e0, he0⟩ := he4
              refine ⟨rInv, r2.trans e1, r3.trans e2, Nat.le_trans e3 r4,
                ⟨e0 ++ e, ?_⟩, fun h => r7 (e5 h)⟩
              rw [he, he0, List.append_assoc]
            all_goals exact ⟨hinv1, e1, e2, e3, he4, e5⟩
          · rw [if_neg h3]
            have hn : (sc.fieldAt idx).nullable = true := by
              rcases hnn : (sc.fieldAt idx).nullable with _ | _
              · exact absurd ⟨by simp [hnn], by simp [h3]⟩ h2
              · rfl
            have hinv1 := StrInv_setBitBuf sc w L (sc.fieldAt idx).nullFlagPos
              (by rw [hinv.2.1]; exact (hWF.1 _ hidx).2.2.1 hn) hWF hinv
            obtain ⟨rInv, r2, r3, r4, ⟨e, he⟩, r7⟩ :=
              ih _ (fun q hq => hval q (by simp [hq])) hinv1
            have hl2 : ({ w with
                buf := (setNullBitBuf w.buf w.headerLen (sc.fieldAt idx).nullFlagPos) } : Writer).buf.length = w.buf.length := by
              simp [setNullBitBuf]
            exact ⟨rInv, r2, r3, by omega, ⟨e, he⟩, r7⟩


theorem readU32_setBytes_out (bs : List Byte) (buf : Buf) (p q : Nat)
    (h : q + 4 ≤ p ∨ p + bs.length ≤ q) :
    readU32 (setBytes buf p bs) q = readU32 buf q := by
  apply readLE_congr
  intro j hj
  rcases h with h | h
  · exact getD_setBytes_lt _ _ _ _ (by omega)
  · exact getD_setBytes_ge _ _ _ _ (by omega)

theorem readU32_append_lt (buf t : Buf) (q : Nat) (h : q + 4 ≤ buf.length) :
    readU32 (buf ++ t) q = readU32 buf q := by
  apply readLE_congr
  intro j hj
  exact getD_append_lt _ _ _ (by omega)

theorem seg_append_lt (buf t : Buf) (o lenv : Nat)
    (h : o + lenv ≤ buf.length) :
    seg (buf ++ t) o lenv = seg buf o lenv := by
  apply seg_congr
  intro j hj
  exact getD_append_lt _ _ _ (by omega)

theorem poosGo_append (w : Writer) :
    ∀ (l1 l2 : List (Nat × Field)) (temp : Buf),
      poosGo w (l1 ++ l2) temp = poosGo w l2 (poosGo w l1 temp) := by
  intro l1
  induction l1 with
  | nil => intro l2 temp; rfl
  | cons p l1 ih =>
      intro l2 temp
      obtain ⟨k, f⟩ := p
      simp only [List.cons_append, poosGo]
      split
      · exact ih l2 temp
      · split
        · exact ih l2 _
        · split
          · exact ih l2 _
          · exact ih l2 _

theorem poosGo_len_mono (w : Writer) :
    ∀ (l : List (Nat × Field)) (temp : Buf),
      temp.length ≤ (poosGo w l temp).length := by
  intro l
  induction l with
  | nil => intro temp; exact Nat.le_refl _
  | cons p l ih =>
      intro temp
      obtain ⟨k, f⟩ := p
      simp only [poosGo]
      split
      · exact ih temp
      · split
        · exact Nat.le_trans (by simp) (ih _)
        · split
          · exact Nat.le_trans (by simp) (ih _)
          · exact Nat.le_trans (by simp) (ih _)

/-- The header and null-bitmap bytes of the canonical buffer are never
rewritten by the walk. -/
theorem poosGo_getD_low (w : Writer) :
    ∀ (l : List (Nat × Field)) (temp : Buf) (p : Nat),
      p < w.headerLen + w.numNullBytes → p < temp.length →
      (poosGo w l temp).getD p 0 = temp.getD p 0 := by
  intro l
  induction l with
  | nil => intro temp p _ _; rfl
  | cons q l ih =>
      intro temp p hp hpt
      obtain ⟨k, f⟩ := q
      have hoff : w.headerLen + w.numNullBytes ≤ slotPos w f :=
        slotPos_ge w f
      simp only [poosGo]
      split
      · exact ih temp p hp hpt
      · split
        · rw [ih _ p hp (by simp; omega)]
          exact getD_setBytes_lt _ _ _ _ (by omega)
        · split
          · rw [ih _ p hp (by simp; omega)]
            rw [getD_setBytes_lt _ _ _ _ (by omega)]
            exact getD_append_lt _ _ _ (by omega)
          · rw [ih _ p hp (by simp; omega)]
            rw [getD_setBytes_lt _ _ _ _ (by omega)]
            exact getD_append_lt _ _ _ (by omega)

/-- Once a STRING/GEOGRAPHY slot has been rewritten, the rest of the
walk keeps the slot words and the copied payload intact. -/
theorem poosGo_preserve (w : Writer) (slot o lenv P : Nat) (v : List Byte)
    (hslotP : slot + 8 ≤ P) (hoP : P ≤ o) :
    ∀ (l : List (Nat × Field)) (temp : Buf),
      (∀ q ∈ l, (q.2.type = .STRING ∨ q.2.type = .GEOGRAPHY) →
        (slot + 8 ≤ slotPos w q.2 ∨ slotPos w q.2 + 8 ≤ slot) ∧
        slotPos w q.2 + 8 ≤ P) →
      readU32 temp slot = o → readU32 temp (slot + 4) = lenv →
      o + lenv ≤ temp.length → seg temp o lenv = v →
      readU32 (poosGo w l temp) slot = o ∧
      readU32 (poosGo w l temp) (slot + 4) = lenv ∧
      o + lenv ≤ (poosGo w l temp).length ∧
      seg (poosGo w l temp) o lenv = v := by
  intro l
  induction l with
  | nil => intro temp _ h1 h2 h3 h4; exact ⟨h1, h2, h3, h4⟩
  | cons q l ih =>
      intro temp hq h1 h2 h3 h4
      obtain ⟨k, f⟩ := q
      simp only [poosGo]
      split
      next hty => exact ih temp (fun q hq2 => hq q (by simp [hq2])) h1 h2 h3 h4
      next hty =>
        have htyp : f.type = .STRING ∨ f.type = .GEOGRAPHY := by
          by_cases hs : f.type = .STRING
          · exact Or.inl hs
          · by_cases hg : f.type = .GEOGRAPHY
            · exact Or.inr hg
            · exact absurd ⟨hs, hg⟩ hty
        obtain ⟨hdis, hdP⟩ := hq (k, f) (by simp) htyp
        simp only at hdis hdP
        have hd1 : slot + 4 ≤ slotPos w f ∨ slotPos w f + 8 ≤ slot := by
          rcases hdis with h | h
          · left; omega
          · right; omega
        have hd2 : slot + 4 + 4 ≤ slotPos w f ∨ slotPos w f + 8 ≤ slot + 4 := by
          rcases hdis with h | h
          · left; omega
          · right; omega
        split
        · apply ih _ (fun q hq2 => hq q (by simp [hq2]))
          · rw [readU32_setBytes_out _ _ _ _ (by simpa using hd1)]
            exact h1
          · rw [readU32_setBytes_out _ _ _ _ (by simpa using hd2)]
            exact h2
          · simp
            omega
          · rw [seg_setBytes_out _ _ _ _ _ (Or.inr (by simp; omega))]
            exact h4
        · split
          · apply ih _ (fun q hq2 => hq q (by simp [hq2]))
            · rw [readU32_setBytes_out _ _ _ _ (by simpa using hd1)]
              rw [readU32_append_lt _ _ _ (by omega)]
              exact h1
            · rw [readU32_setBytes_out _ _ _ _ (by simpa using hd2)]
              rw [readU32_append_lt _ _ _ (by omega)]
              exact h2
            · simp
              omega
            · rw [seg_setBytes_out _ _ _ _ _ (Or.inr (by simp; omega))]
              rw [seg_append_lt _ _ _ _ h3]
              exact h4
          · apply ih _ (fun q hq2 => hq q (by simp [hq2]))
            · rw [readU32_setBytes_out _ _ _ _ (by simpa using hd1)]
              rw [readU32_append_lt _ _ _ (by omega)]
              exact h1
            · rw [readU32_setBytes_out _ _ _ _ (by simpa using hd2)]
              rw [readU32_append_lt _ _ _ (by omega)]
              exact h2
            · simp
              omega
            · rw [seg_setBytes_out _ _ _ _ _ (Or.inr (by simp; omega))]
              rw [seg_append_lt _ _ _ _ h3]
              exact h4


/-- The fresh writer satisfies the invariant with the empty ghost map. -/
theorem StrInv_newWriter (sc : Schema) (w0 : Writer)
    (hnew : newWriter sc = some w0) :
    StrInv sc w0 (fun _ => none) ∧ w0.outOfSpaceStr = false ∧
    1 ≤ w0.headerLen := by
  unfold newWriter at hnew
  rcases hh : headerOf sc.version with _ | hdr
  · rw [hh] at hnew
    exact Option.noConfusion hnew
  · rw [hh] at hnew
    simp only [Option.map_some', Option.some.injEq] at hnew
    obtain ⟨hl1, hk⟩ := headerOf_shape sc.version hdr hh
    subst hnew
    refine ⟨⟨?_, rfl, by simp, fun i hi hy v hLv => Option.noConfusion hLv⟩,
      rfl, hk⟩
    show hdr.1 + sc.numNullBytes + sc.fixedSize ≤
      (hdr.2 ++ List.replicate (sc.numNullBytes + sc.fixedSize) 0).length
    simp only [List.length_append, List.length_replicate]
    omega

theorem withIdx_drop_mem (sc : Schema) (i : Nat) (q : Nat × Field)
    (hq : q ∈ withIdx (i + 1) (sc.fields.drop (i + 1))) :
    q.1 < sc.numFields ∧ i + 1 ≤ q.1 ∧ q.2 = sc.fieldAt q.1 := by
  obtain ⟨j, hj, rfl⟩ := withIdx_mem_elem _ _ _ hq
  simp only [List.length_drop] at hj
  have hjlen : i + 1 + j < sc.fields.length := by omega
  have hnum : sc.numFields = sc.fields.length := rfl
  refine ⟨by omega, by omega, ?_⟩
  show (sc.fields.drop (i + 1)).getD j default = sc.fieldAt (i + 1 + j)
  rw [List.getD_eq_getElem _ _ (by simp only [List.length_drop]; omega),
    List.getElem_drop]
  unfold Schema.fieldAt
  rw [List.getD_eq_getElem _ _ hjlen]

/-- The defaults walk only grows the buffer and strList, keeping the
geometry (no invariant needed). -/
theorem checkUnsetGo_mono (toTs : Int → Option Int) (sc : Schema)
    (hWF : WFS sc) :
    ∀ (l : List (Nat × Field)) (w : Writer),
      (∀ p ∈ l, p.1 < sc.numFields ∧ p.2 = sc.fieldAt p.1) →
      w.headerLen + w.numNullBytes + sc.fixedSize ≤ w.buf.length →
      w.numNullBytes = sc.numNullBytes →
      w.isSet.length = sc.numFields →
      (checkUnsetGo toTs sc w l).2.headerLen = w.headerLen ∧
      (checkUnsetGo toTs sc w l).2.numNullBytes = w.numNullBytes ∧
      (checkUnsetGo toTs sc w l).2.isSet.length = sc.numFields ∧
      (checkUnsetGo toTs sc w l).2.headerLen +
        (checkUnsetGo toTs sc w l).2.numNullBytes + sc.fixedSize ≤
        (checkUnsetGo toTs sc w l).2.buf.length ∧
      w.buf.length ≤ (checkUnsetGo toTs sc w l).2.buf.length ∧
      (∃ e, (checkUnsetGo toTs sc w l).2.strList = w.strList ++ e) ∧
      (w.outOfSpaceStr = true →
        (checkUnsetGo toTs sc w l).2.outOfSpaceStr = true) := by
  intro l
  induction l with
  | nil =>
      intro w _ h1 h2 h3
      exact ⟨rfl, rfl, h3, h1, Nat.le_refl _, ⟨[], by simp [checkUnsetGo]⟩,
        fun h => h⟩
  | cons p rest ih =>
      obtain ⟨idx, f⟩ := p
      intro w hval h1 h2 h3
      have hidx := (hval (idx, f) (by simp)).1
      have hfeq := (hval (idx, f) (by simp)).2
      simp only at hfeq hidx
      subst hfeq
      by_cases hset : w.isSet.getD idx false = true
      · rw [checkUnsetGo, if_pos hset]
        exact ih w (fun q hq => hval q (by simp [hq])) h1 h2 h3
      · rw [checkUnsetGo, if_neg hset]
        by_cases hc2 : ¬(sc.fieldAt idx).nullable ∧ ¬(sc.fieldAt idx).hasDefault
        · rw [if_pos hc2]
          exact ⟨rfl, rfl, h3, h1, Nat.le_refl _, ⟨[], by simp⟩, fun h => h⟩
        · rw [if_neg hc2]
          by_cases hc3 : (sc.fieldAt idx).hasDefault = true
          · rw [if_pos hc3]
            rcases hroute : routeDefault toTs sc w idx (sc.fieldAt idx) with
              ⟨r, w1⟩
            have hfr : Frame sc idx w w1 := by
              have h := frame_routeDefault toTs sc w idx ((hWF.1 _ hidx).1)
                (fun hn => by rw [h2]; exact (hWF.1 _ hidx).2.2.1 hn)
                (fun hnl => by rw [h2]; exact (hWF.1 _ hidx).2.2.2 hc3 hnl)
                (by omega)
              rw [hroute] at h
              exact h
            obtain ⟨⟨g1, g2, g3⟩, e1, e2, e3, he4, e5⟩ :=
              geom_of_frame sc idx w w1 hfr h1 h2 h3
            cases r
            · obtain ⟨r1, r2, r3, r4, r5, ⟨e, he⟩, r7⟩ :=
                ih w1 (fun q hq => hval q (by simp [hq])) g1 g2 g3
              obtain ⟨e0, he0⟩ := he4
              refine ⟨r1.trans e1, r2.trans e2, r3, r4, Nat.le_trans e3 r5,
                ⟨e0 ++ e, ?_⟩, fun h => r7 (e5 h)⟩
              rw [he, he0, List.append_assoc]
            all_goals exact ⟨e1, e2, g3, g1, e3, he4, e5⟩
          · rw [if_neg hc3]
            have hn : (sc.fieldAt idx).nullable = true := by
              rcases hnn : (sc.fieldAt idx).nullable with _ | _
              · exact absurd ⟨by simp [hnn], by simp [hc3]⟩ hc2
              · rfl
            have hl2 : ({ w with
                buf := (setNullBitBuf w.buf w.headerLen (sc.fieldAt idx).nullFlagPos) } : Writer).buf.length = w.buf.length := by
              simp [setNullBitBuf]
            obtain ⟨r1, r2, r3, r4, r5, ⟨e, he⟩, r7⟩ :=
              ih ({ w with
                buf := (setNullBitBuf w.buf w.headerLen (sc.fieldAt idx).nullFlagPos) })
                (fun q hq => hval q (by simp [hq]))
                (by simpa [setNullBitBuf] using h1) h2 h3
            exact ⟨r1, r2, r3, r4, by omega, ⟨e, he⟩, r7⟩


theorem seg_append_self_of (buf bs : Buf) (n : Nat) (hn : n = bs.length) :
    seg (buf ++ bs) buf.length n = bs := by
  subst hn
  exact seg_append_self buf bs

theorem size8_of (sc : Schema) (i : Nat) (hWF : WFS sc)
    (hi : i < sc.numFields)
    (hy : (sc.fieldAt i).type = .STRING ∨ (sc.fieldAt i).type = .GEOGRAPHY) :
    8 ≤ (sc.fieldAt i).size := by
  have h1 := (hWF.1 i hi).1
  unfold typeWidth at h1
  rcases hy with hty | hty <;> rw [hty] at h1 <;> simp at h1 <;> omega

/-- Canonicalization never rewrites the header or null-bitmap bytes. -/
theorem checkNullBit_poos (sc : Schema) (w1 : Writer) (q : Nat)
    (hq : q < 8 * w1.numNullBytes) :
    checkNullBitBuf (processOutOfSpace sc w1) w1.headerLen q =
      checkNullBitBuf w1.buf w1.headerLen q := by
  unfold processOutOfSpace
  apply checkNullBit_congr
  rw [poosGo_getD_low w1 _ _ _ (by omega) (by simp; omega)]
  rw [getD_seg _ _ _ _ (by omega)]
  rw [Nat.zero_add]

/-- After canonicalization, the slot of a non-null STRING/GEOGRAPHY
field whose old slot referenced v references v again, inline in the
canonical buffer. -/
theorem poos_target (sc : Schema) (w1 : Writer) (i : Nat) (v : List Byte)
    (hWF : WFS sc) (hi : i < sc.numFields)
    (hty : (sc.fieldAt i).type = .STRING ∨ (sc.fieldAt i).type = .GEOGRAPHY)
    (hg1 : w1.headerLen + w1.numNullBytes + sc.fixedSize ≤ w1.buf.length)
    (hnb1 : w1.numNullBytes = sc.numNullBytes)
    (hhl1 : 1 ≤ w1.headerLen)
    (hlen1 : w1.buf.length < 2 ^ 31)
    (hTlen : (processOutOfSpace sc w1).length < 2 ^ 31)
    (hbit1 : (sc.fieldAt i).nullable = true →
      checkNullBitBuf w1.buf w1.headerLen (sc.fieldAt i).nullFlagPos = false)
    (hSH : SlotHolds sc w1 i v) :
    w1.headerLen + w1.numNullBytes + sc.fixedSize ≤
      readU32 (processOutOfSpace sc w1) (slotPos w1 (sc.fieldAt i)) ∧
    readU32 (processOutOfSpace sc w1) (slotPos w1 (sc.fieldAt i)) +
      readU32 (processOutOfSpace sc w1) (slotPos w1 (sc.fieldAt i) + 4) ≤
      (processOutOfSpace sc w1).length ∧
    readU32 (processOutOfSpace sc w1) (slotPos w1 (sc.fieldAt i) + 4) =
      v.length ∧
    seg (processOutOfSpace sc w1)
      (readU32 (processOutOfSpace sc w1) (slotPos w1 (sc.fieldAt i)))
      v.length = v := by
  have hoff8 := hoff8_of sc i hWF hi hty
  set P1 := w1.headerLen + w1.numNullBytes + sc.fixedSize with hP1
  set pos := slotPos w1 (sc.fieldAt i) with hpos
  have hP8 : pos + 8 ≤ P1 := by
    rw [hpos, hP1]
    unfold slotPos
    omega
  set temp0 := seg w1.buf 0 P1 with htemp0d
  set Wpre := withIdx 0 (sc.fields.take i) with hWpre
  set W2 := withIdx (i + 1) (sc.fields.drop (i + 1)) with hW2
  set temp1 := poosGo w1 Wpre temp0 with htemp1d
  have hsplit : processOutOfSpace sc w1 =
      poosGo w1 ((i, sc.fieldAt i) :: W2) temp1 := by
    show poosGo w1 (withIdx 0 sc.fields) temp0 = _
    rw [withIdx_decomp sc i hi, poosGo_append, htemp1d, hWpre, hW2]
  have hlt0 : temp0.length = P1 := by
    rw [htemp0d]
    simp
  have hlt1 : P1 ≤ temp1.length := by
    rw [htemp1d]
    exact hlt0 ▸ poosGo_len_mono w1 Wpre temp0
  have htyguard : ¬((sc.fieldAt i).type ≠ .STRING ∧
      (sc.fieldAt i).type ≠ .GEOGRAPHY) := by
    rcases hty with h | h <;> simp [h]
  have hbitguard : ¬((sc.fieldAt i).nullable = true ∧
      checkNullBitBuf w1.buf w1.headerLen (sc.fieldAt i).nullFlagPos =
        true) := by
    rintro ⟨hn, hb⟩
    rw [hbit1 hn] at hb
    exact Bool.false_ne_true hb
  have hdis : ∀ q ∈ W2, (q.2.type = .STRING ∨ q.2.type = .GEOGRAPHY) →
      (pos + 8 ≤ slotPos w1 q.2 ∨ slotPos w1 q.2 + 8 ≤ pos) ∧
      slotPos w1 q.2 + 8 ≤ P1 := by
    intro q hq hqt
    obtain ⟨hq1, hq2, hq3⟩ := withIdx_drop_mem sc i q hq
    rw [hq3] at hqt ⊢
    have h8q := size8_of sc q.1 hWF hq1 hqt
    have h8i := size8_of sc i hWF hi hty
    have hoq := (hWF.1 q.1 hq1).2.1
    have hoi := (hWF.1 i hi).2.1
    have hd := hWF.2 i hi q.1 hq1 (by omega)
    rw [hpos, hP1]
    unfold slotPos
    constructor
    · omega
    · omega
  rcases hSH with ⟨h1, h2, h3, h4⟩ | ⟨hz, hoosT, hlt, hget⟩
  · -- inline slot in the old buffer
    rw [← hpos] at h1 h2 h3 h4
    have hofflt : readU32 w1.buf pos < 2 ^ 31 := by omega
    have hoffpos : 0 < readU32 w1.buf pos := by omega
    have hstep2 : poosGo w1 ((i, sc.fieldAt i) :: W2) temp1 =
        poosGo w1 W2
          (setBytes
            (temp1 ++ seg w1.buf (readU32 w1.buf pos)
              (readU32 w1.buf (pos + 4)))
            pos
            (le32 temp1.length ++ le32 (readU32 w1.buf (pos + 4)))) := by
      simp only [poosGo]
      rw [if_neg htyguard, if_neg hbitguard,
        if_pos (show (0 : Int) < toS32 (readU32 w1.buf pos) from by
          unfold toS32
          rw [if_pos hofflt]
          exact_mod_cast hoffpos)]
    rw [h3] at hstep2
    rw [hsplit, hstep2]
    rw [hsplit, hstep2] at hTlen
    have hl12 : pos + 8 ≤ (temp1 ++ seg w1.buf (readU32 w1.buf pos)
        v.length).length := by
      simp only [List.length_append]
      omega
    have hlen2eq : (setBytes (temp1 ++ seg w1.buf (readU32 w1.buf pos)
        v.length) pos (le32 temp1.length ++ le32 v.length)).length =
        temp1.length + v.length := by
      simp
    have ht1small : temp1.length < 2 ^ 31 := by
      have hmono := poosGo_len_mono w1 W2
        (setBytes (temp1 ++ seg w1.buf (readU32 w1.buf pos) v.length) pos
          (le32 temp1.length ++ le32 v.length))
      omega
    have hro : readU32 (setBytes (temp1 ++ seg w1.buf (readU32 w1.buf pos)
        v.length) pos (le32 temp1.length ++ le32 v.length)) pos =
        temp1.length :=
      readU32_two_words_lo _ _ _ _ hl12 (by omega)
    have hrl : readU32 (setBytes (temp1 ++ seg w1.buf (readU32 w1.buf pos)
        v.length) pos (le32 temp1.length ++ le32 v.length)) (pos + 4) =
        v.length :=
      readU32_two_words_hi _ _ _ _ hl12 (by omega)
    have hsegT : seg (setBytes (temp1 ++ seg w1.buf (readU32 w1.buf pos)
        v.length) pos (le32 temp1.length ++ le32 v.length)) temp1.length
        v.length = v := by
      rw [seg_setBytes_out _ _ _ _ _ (Or.inr (by simp; omega))]
      rw [seg_append_self_of temp1
        (seg w1.buf (readU32 w1.buf pos) v.length) v.length (by simp)]
      exact h4
    obtain ⟨ro, rl, rb, rs⟩ := poosGo_preserve w1 pos temp1.length v.length
      P1 v hP8 hlt1 W2 _ hdis hro hrl (by omega) hsegT
    refine ⟨?_, ?_, rl, ?_⟩
    · rw [ro]
      exact hlt1
    · rw [ro, rl]
      exact rb
    · rw [ro]
      exact rs
  · -- pending strList entry
    rw [← hpos] at hz hlt hget
    have hstep2 : poosGo w1 ((i, sc.fieldAt i) :: W2) temp1 =
        poosGo w1 W2
          (setBytes
            (temp1 ++ w1.strList.getD (readU32 w1.buf (pos + 4)) [])
            pos
            (le32 temp1.length ++
              le32 (w1.strList.getD (readU32 w1.buf (pos + 4)) []).length)) := by
      simp only [poosGo]
      rw [if_neg htyguard, if_neg hbitguard, hz,
        if_neg (show ¬((0 : Int) < toS32 0) from by decide)]
    rw [hget] at hstep2
    rw [hsplit, hstep2]
    rw [hsplit, hstep2] at hTlen
    have hl12 : pos + 8 ≤ (temp1 ++ v).length := by
      simp only [List.length_append]
      omega
    have hlen2eq : (setBytes (temp1 ++ v) pos
        (le32 temp1.length ++ le32 v.length)).length =
        temp1.length + v.length := by
      simp
    have hmono := poosGo_len_mono w1 W2
      (setBytes (temp1 ++ v) pos (le32 temp1.length ++ le32 v.length))
    have ht1small : temp1.length < 2 ^ 31 := by omega
    have hro : readU32 (setBytes (temp1 ++ v) pos
        (le32 temp1.length ++ le32 v.length)) pos = temp1.length :=
      readU32_two_words_lo _ _ _ _ hl12 (by omega)
    have hrl : readU32 (setBytes (temp1 ++ v) pos
        (le32 temp1.length ++ le32 v.length)) (pos + 4) = v.length :=
      readU32_two_words_hi _ _ _ _ hl12 (by omega)
    have hsegT : seg (setBytes (temp1 ++ v) pos
        (le32 temp1.length ++ le32 v.length)) temp1.length v.length = v := by
      rw [seg_setBytes_out _ _ _ _ _ (Or.inr (by simp; omega))]
      exact seg_append_self temp1 v
    obtain ⟨ro, rl, rb, rs⟩ := poosGo_preserve w1 pos temp1.length v.length
      P1 v hP8 hlt1 W2 _ hdis hro hrl (by omega) hsegT
    refine ⟨?_, ?_, rl, ?_⟩
    · rw [ro]
      exact hlt1
    · rw [ro, rl]
      exact rb
    · rw [ro]
      exact rs


/-- C1: in a successfully finished record, any STRING/GEOGRAPHY field
whose null bit is 0 has a fixed slot (offset, length) with
headerLen + numNullBytes + fixedSize ≤ offset,
offset + length ≤ |record| − 8, and record[offset..offset+length]
equal to the last value successfully written to that field — both in
the plain path and after out-of-space canonicalization, so a stale
overwritten value is never referenced. -/
theorem c1_string_slot_references_last_write
    (toTs : Int → Option Int) (sc : Schema) (ops : List Op) (ts : List Byte)
    (i : Nat) (v : List Byte) (w0 wend : Writer)
    (hWF : WFS sc)
    (hnew : newWriter sc = some w0)
    (hfin : finish toTs sc (runOps toTs sc w0 ops) ts = (.SUCCEEDED, wend))
    (hts : ts.length = 8)
    (hty : (sc.fieldAt i).type = .STRING ∨ (sc.fieldAt i).type = .GEOGRAPHY)
    (hi : i < sc.numFields)
    (hlast : lastVals sc ops i = some v)
    (hbit : (sc.fieldAt i).nullable = true →
      checkNullBitBuf wend.buf wend.headerLen (sc.fieldAt i).nullFlagPos =
        false)
    (hw1len : (checkUnsetFields toTs sc
      (runOps toTs sc w0 ops)).2.buf.length < 2 ^ 31)
    (hw1str : (checkUnsetFields toTs sc
      (runOps toTs sc w0 ops)).2.strList.length < 2 ^ 31)
    (hreclen : wend.buf.length < 2 ^ 31) :
    wend.headerLen + wend.numNullBytes + sc.fixedSize ≤
      readU32 wend.buf (slotPos wend (sc.fieldAt i)) ∧
    readU32 wend.buf (slotPos wend (sc.fieldAt i)) +
      readU32 wend.buf (slotPos wend (sc.fieldAt i) + 4) ≤
      wend.buf.length - 8 ∧
    readU32 wend.buf (slotPos wend (sc.fieldAt i) + 4) = v.length ∧
    seg wend.buf (readU32 wend.buf (slotPos wend (sc.fieldAt i)))
      v.length = v := by
  obtain ⟨hinv0, hoos0, hhl0⟩ := StrInv_newWriter sc w0 hnew
  have hval : ∀ p ∈ withIdx 0 sc.fields,
      p.1 < sc.numFields ∧ p.2 = sc.fieldAt p.1 :=
    fun p hp => withIdx_mem_field sc p hp
  obtain ⟨m1, m2, m3, m4, m5, m6, m7⟩ :=
    runOps_mono toTs sc hWF ops w0 hinv0.1 hinv0.2.1 hinv0.2.2.1
  have hCU : checkUnsetFields toTs sc (runOps toTs sc w0 ops) =
      checkUnsetGo toTs sc (runOps toTs sc w0 ops) (withIdx 0 sc.fields) :=
    rfl
  rw [hCU] at hw1len hw1str
  obtain ⟨c1, c2, c3, c4, c5, ⟨ce, hce⟩, c7⟩ :=
    checkUnsetGo_mono toTs sc hWF (withIdx 0 sc.fields)
      (runOps toTs sc w0 ops) hval m4 (m2.trans hinv0.2.1) m3
  have hwfb1 : (runOps toTs sc w0 ops).buf.length < 2 ^ 31 := by omega
  have hwfb2 : (runOps toTs sc w0 ops).strList.length < 2 ^ 31 := by
    have h := congrArg List.length hce
    simp only [List.length_append] at h
    omega
  have hinvf := runOps_inv toTs sc hWF ops w0 (fun _ => none) hinv0
    hwfb1 hwfb2
  obtain ⟨hinv1, d1, d2, d3, ⟨de, hde⟩, d5⟩ :=
    checkUnsetGo_inv toTs sc hWF (ops.foldl (updLast sc) (fun _ => none))
      (withIdx 0 sc.fields) (runOps toTs sc w0 ops) hval hinvf
  rcases hcu : checkUnsetGo toTs sc (runOps toTs sc w0 ops)
      (withIdx 0 sc.fields) with ⟨rc, w1⟩
  rw [hcu] at hw1len hw1str hinv1 d1 d2 d3 d5
  dsimp only at hw1len hw1str hinv1 d1 d2 d3 d5
  unfold finish at hfin
  rw [show checkUnsetFields toTs sc (runOps toTs sc w0 ops) = (rc, w1)
    from hcu] at hfin
  rcases rc with _ | _ | _ | _ | _ | _
  case UNKNOWN_FIELD => simp at hfin
  case TYPE_MISMATCH => simp at hfin
  case OUT_OF_RANGE => simp at hfin
  case NOT_NULLABLE => simp at hfin
  case FIELD_UNSET => simp at hfin
  case SUCCEEDED =>
  dsimp only at hfin
  rw [Prod.mk.injEq] at hfin
  obtain ⟨-, hfin2⟩ := hfin
  have hg1 : w1.headerLen + w1.numNullBytes + sc.fixedSize ≤
      w1.buf.length := hinv1.1
  have hnb1 : w1.numNullBytes = sc.numNullBytes := hinv1.2.1
  have hhl1 : 1 ≤ w1.headerLen := by omega
  obtain ⟨hIS1, hSH1⟩ := hinv1.2.2.2 i hi hty v hlast
  have hoff8 := hoff8_of sc i hWF hi hty
  have hP8 : slotPos w1 (sc.fieldAt i) + 8 ≤
      w1.headerLen + w1.numNullBytes + sc.fixedSize := by
    unfold slotPos
    omega
  by_cases hoosc : w1.outOfSpaceStr = true
  · -- out-of-space: the record is the canonicalized buffer plus trailer
    have hwe : wend =
        { w1 with buf := processOutOfSpace sc w1 ++ ts, finished := true } := by
      rw [← hfin2, if_pos hoosc]
    have e1 : ({ w1 with buf := processOutOfSpace sc w1 ++ ts, finished := true } : Writer).buf = processOutOfSpace sc w1 ++ ts := rfl
    have e2 : ({ w1 with buf := processOutOfSpace sc w1 ++ ts, finished := true } : Writer).headerLen = w1.headerLen := rfl
    have e3 : ({ w1 with buf := processOutOfSpace sc w1 ++ ts, finished := true } : Writer).numNullBytes = w1.numNullBytes := rfl
    have e4 : slotPos ({ w1 with buf := processOutOfSpace sc w1 ++ ts, finished := true } : Writer) (sc.fieldAt i) = slotPos w1 (sc.fieldAt i) := rfl
    rw [hwe, e1, e2] at hbit
    rw [hwe, e1] at hreclen
    rw [hwe, e1, e2, e3, e4]
    rw [List.length_append, hts] at hreclen
    have hTlen : (processOutOfSpace sc w1).length < 2 ^ 31 := by omega
    have hplen : w1.headerLen + w1.numNullBytes + sc.fixedSize ≤
        (processOutOfSpace sc w1).length := by
      unfold processOutOfSpace
      have h := poosGo_len_mono w1 (withIdx 0 sc.fields)
        (seg w1.buf 0 (w1.headerLen + w1.numNullBytes + sc.fixedSize))
      simp only [seg, List.length_map, List.length_range] at h
      exact h
    have hbit1 : (sc.fieldAt i).nullable = true →
        checkNullBitBuf w1.buf w1.headerLen (sc.fieldAt i).nullFlagPos =
          false := by
      intro hn
      have hb := hbit hn
      have hposb : (sc.fieldAt i).nullFlagPos < 8 * w1.numNullBytes := by
        have h := (hWF.1 i hi).2.2.1 hn
        omega
      have heq : checkNullBitBuf (processOutOfSpace sc w1 ++ ts)
          w1.headerLen (sc.fieldAt i).nullFlagPos =
          checkNullBitBuf (processOutOfSpace sc w1) w1.headerLen
            (sc.fieldAt i).nullFlagPos := by
        apply checkNullBit_congr
        exact getD_append_lt _ _ _ (by omega)
      rw [heq, checkNullBit_poos sc w1 _ hposb] at hb
      exact hb
    obtain ⟨g1, g2, g3, g4⟩ := poos_target sc w1 i v hWF hi hty hg1 hnb1
      hhl1 hw1len hTlen hbit1 hSH1
    rw [readU32_append_lt _ _ _ (by omega),
      readU32_append_lt _ _ _ (by omega)]
    refine ⟨g1, ?_, g3, ?_⟩
    · rw [List.length_append, hts]
      omega
    · rw [seg_append_lt _ _ _ _ (by omega)]
      exact g4
  · -- plain path: the record is the working buffer plus trailer
    have hwe : wend =
        { w1 with buf := w1.buf ++ ts, finished := true } := by
      rw [← hfin2, if_neg hoosc]
    have e1 : ({ w1 with buf := w1.buf ++ ts, finished := true } : Writer).buf = w1.buf ++ ts := rfl
    have e2 : ({ w1 with buf := w1.buf ++ ts, finished := true } : Writer).headerLen = w1.headerLen := rfl
    have e3 : ({ w1 with buf := w1.buf ++ ts, finished := true } : Writer).numNullBytes = w1.numNullBytes := rfl
    have e4 : slotPos ({ w1 with buf := w1.buf ++ ts, finished := true } : Writer) (sc.fieldAt i) = slotPos w1 (sc.fieldAt i) := rfl
    rw [hwe, e1, e2, e3, e4]
    rcases hSH1 with ⟨h1, h2, h3, h4⟩ | ⟨hz, hoosT, hlt, hget⟩
    · rw [readU32_append_lt _ _ _ (by omega),
        readU32_append_lt _ _ _ (by omega)]
      refine ⟨h1, ?_, h3, ?_⟩
      · rw [List.length_append, hts]
        omega
      · rw [seg_append_lt _ _ _ _ (by omega)]
        exact h4
    · exact absurd hoosT hoosc


/-- Concrete C1 scenario: one non-nullable STRING field, write "hello"
then overwrite with "world" (latching out-of-space mode), finish with a
zero trailer. -/
def scW1 : Schema := ⟨0, [⟨.STRING, 0, 8, false, 0, false, .nullV false, 0⟩], 8⟩

/-- The two operations of the concrete C1 scenario. -/
def opsW1 : List Op :=
  [.setv 0 (.strV [104, 101, 108, 108, 111]),
   .setv 0 (.strV [119, 111, 114, 108, 100])]

/-- The fresh writer of the concrete C1 scenario. -/
def w0W1 : Writer := ⟨[8, 0, 0, 0, 0, 0, 0, 0, 0], 1, 0, [false], [], 0, false, false⟩

/-- The finished writer of the concrete C1 scenario: header 08, slot
(9, 5), the bytes of "world", then the 8-byte trailer. -/
def wendW1 : Writer :=
  ⟨[8, 9, 0, 0, 0, 5, 0, 0, 0, 119, 111, 114, 108, 100, 0, 0, 0, 0, 0, 0, 0, 0],
   1, 0, [true], [[119, 111, 114, 108, 100]], 10, true, true⟩

theorem c1_string_slot_references_last_write_witness :
    wendW1.headerLen + wendW1.numNullBytes + scW1.fixedSize ≤
      readU32 wendW1.buf (slotPos wendW1 (scW1.fieldAt 0)) ∧
    readU32 wendW1.buf (slotPos wendW1 (scW1.fieldAt 0)) +
      readU32 wendW1.buf (slotPos wendW1 (scW1.fieldAt 0) + 4) ≤
      wendW1.buf.length - 8 ∧
    readU32 wendW1.buf (slotPos wendW1 (scW1.fieldAt 0) + 4) =
      [119, 111, 114, 108, 100].length ∧
    seg wendW1.buf (readU32 wendW1.buf (slotPos wendW1 (scW1.fieldAt 0)))
      [119, 111, 114, 108, 100].length = [119, 111, 114, 108, 100] :=
  c1_string_slot_references_last_write (fun _ => none) scW1 opsW1
    (List.replicate 8 0) 0 [119, 111, 114, 108, 100] w0W1 wendW1
    (by unfold WFS; decide) (by decide) (by decide) (by decide) (Or.inl (by decide))
    (by decide) (by decide) (by decide) (by decide) (by decide) (by decide)

end RowV2
